import Mathlib

/-!
Verification development for the RetroSudoku solver/generator core
(`src/solver/dlx.ts`, `src/solver/humanSolver.ts`, `src/solver/generator.ts`,
`src/types.ts`).

Boards are row-major lists of `size * size` naturals, `0` = empty.

The exact-cover solver (`dlx.ts`) is embedded at the level of its search
semantics: the dancing-links structure maintains, at every point of the
search, a set of live columns and live rows; `cover` removes a column and
every live row intersecting it, `uncover` restores them.  We model a search
state by the list of live column ids (in header order) and the list of live
rows (in construction order); covering a chosen row `r` replaces the live
columns by those not touched by `r` and the live rows by those disjoint
from `r`'s columns, exactly the net effect of the `cover` calls performed
by `DLXSolver.search` before recursing.  `column.size` is the number of
live rows on the column.  A pointer-level model of the linked structure
itself (needed for the state-restoration claim) appears further below in
namespace `Ptr`.

JavaScript `number` arithmetic on the hot paths here is integer-valued;
it is modelled with `Nat`.  (`timeMs` fields, which read the wall clock,
carry no logical content and are omitted; `Date.now()` is modelled as an
explicit `clock` argument where it is consulted.)
-/

set_option maxRecDepth 100000
set_option maxHeartbeats 2000000

namespace RetroSudoku

/-! ## Exact-cover solver (`src/solver/dlx.ts`) -/

namespace DLX

/-- One candidate row of the exact-cover matrix: its row id
(`rowId = cellIdx * n + num - 1` in `buildMatrix`) and the four constraint
column ids it touches. -/
structure DRow where
  id : Nat
  cols : List Nat
deriving Repr, DecidableEq

/-- `DLXSolver.getBox`: `Math.floor(row / blockRows) * (size / blockCols) +
Math.floor(col / blockCols)`. -/
def getBox (size blockRows blockCols row col : Nat) : Nat :=
  row / blockRows * (size / blockCols) + col / blockCols

/-- `DLXSolver.getConstraints`: the four constraint column ids for placing
`num` at `(row, col)`. -/
def getConstraints (size blockRows blockCols row col num : Nat) : List Nat :=
  let n := size
  let cellIdx := row * n + col
  let box := getBox n blockRows blockCols row col
  [cellIdx,
   n * n + row * n + num - 1,
   2 * n * n + col * n + num - 1,
   3 * n * n + box * n + num - 1]

/-- `DLXSolver.buildMatrix`: one candidate row per legal `(cell, value)`;
for a given (non-zero) cell only its fixed value, otherwise all of `1..n`.
Cells in row-major order, values ascending — this is the vertical order in
which `addRow` links rows into the columns, hence the branching order of
the search. -/
def buildMatrix (size blockRows blockCols : Nat) (puzzle : List Nat) : List DRow :=
  (List.range size).flatMap (fun row =>
    (List.range size).flatMap (fun col =>
      let cellIdx := row * size + col
      let given := puzzle.getD cellIdx 0
      let nums := if given > 0 then [given] else List.range' 1 size
      nums.map (fun num =>
        ⟨cellIdx * size + num - 1, getConstraints size blockRows blockCols row col num⟩)))

/-- The number of live rows on column `c` (the `size` field of the column
node, as maintained by `cover`/`uncover`). -/
def colSize (rows : List DRow) (c : Nat) : Nat :=
  rows.countP (fun r => r.cols.contains c)

/-- MRV column choice in `DLXSolver.search`: start from the first live
column, scan the rest, strict `<` so the first column with minimal size
wins. -/
def pickMinCol (rows : List DRow) (c : Nat) (cs : List Nat) : Nat :=
  cs.foldl (fun best c2 => if colSize rows c2 < colSize rows best then c2 else best) c

/-- Live columns after covering every column of row `r`. -/
def coverCols (cols : List Nat) (r : DRow) : List Nat :=
  cols.filter (fun c => !(r.cols.contains c))

/-- Live rows after covering every column of row `r`: exactly the rows
disjoint from `r`'s columns survive. -/
def coverRows (rows : List DRow) (r : DRow) : List DRow :=
  rows.filter (fun r2 => r2.cols.all (fun c => !(r.cols.contains c)))

/-- Mutable search bookkeeping of `DLXSolver`: the recorded solutions
(lists of row ids) and `solutionCount`. -/
structure SState where
  solutions : List (List Nat)
  count : Nat
deriving Repr, DecidableEq

/-- The branching loop of `DLXSolver.search`: try each live row of the
chosen column in vertical (construction) order; cover the row's columns,
recurse (through `go`), uncover on backtrack; propagate an early `true`
without trying further rows. -/
def searchRows (cols : List Nat) (rows : List DRow)
    (go : List Nat → List DRow → List Nat → SState → SState × Bool)
    (part : List Nat) : List DRow → SState → SState × Bool
  | [], st => (st, false)
  | r :: rs, st =>
    let res := go (coverCols cols r) (coverRows rows r) (part ++ [r.id]) st
    if res.2 then (res.1, true)
    else searchRows cols rows go part rs res.1

/-- `DLXSolver.search`.  Returns the updated bookkeeping and the boolean the
JS function returns (`true` = the solution-count limit was reached, stop).
`fuel` bounds the recursion depth; every recursive call strictly shrinks the
live column list, so any `fuel > cols.length` is enough (`solve` passes
`4*n*n + 1`). -/
def search (fuel : Nat) (cols : List Nat) (rows : List DRow) (limit : Nat)
    (part : List Nat) (st : SState) : SState × Bool :=
  match fuel with
  | 0 => (st, false)
  | fuel + 1 =>
    match cols with
    | [] =>
      let st' : SState := ⟨st.solutions ++ [part], st.count + 1⟩
      (st', decide (st'.count ≥ limit))
    | c :: cs =>
      let minCol := pickMinCol rows c cs
      if colSize rows minCol = 0 then (st, false)
      else searchRows cols rows
        (fun cols' rows' part' st' => search fuel cols' rows' limit part' st')
        part (rows.filter (fun r => r.cols.contains minCol)) st

/-- Result record of `DLXSolver.solve` (without the wall-clock `timeMs`). -/
structure SolveResult where
  solved : Bool
  solution : List Nat
  solutionCount : Nat
deriving Repr, DecidableEq

/-- Decoding loop of `DLXSolver.solve`: overwrite `result[cellIdx]` with
`num` for every row id of the first recorded solution. -/
def applyRows (n : Nat) (puzzle : List Nat) (sol : List Nat) : List Nat :=
  sol.foldl (fun res rowId => res.set (rowId / n) (rowId % n + 1)) puzzle

/-- `DLXSolver.solve`: rebuild the matrix from the puzzle, search with the
solution limit (`findAll ? 1000 : 2`), and decode the first solution found
onto a copy of the puzzle. -/
def solve (size blockRows blockCols : Nat) (puzzle : List Nat)
    (findAll : Bool := false) : SolveResult :=
  let limit := if findAll then 1000 else 2
  let rows := buildMatrix size blockRows blockCols puzzle
  let cols := List.range (4 * size * size)
  let res := search (4 * size * size + 1) cols rows limit [] ⟨[], 0⟩
  match res.1.solutions with
  | [] => ⟨false, [], 0⟩
  | sol :: _ => ⟨true, applyRows size puzzle sol, res.1.count⟩

/-- `hasUniqueSolution` (module-level wrapper and method agree): solve with
limit 2 and test `solved && solutionCount === 1`. -/
def hasUniqueSolution (size blockRows blockCols : Nat) (puzzle : List Nat) : Bool :=
  let result := solve size blockRows blockCols puzzle
  result.solved && result.solutionCount == 1

end DLX

/-! ## Candidate propagation engine (`src/solver/humanSolver.ts`)

JS `Set<number>` iterates in insertion order.  Every candidate set in this
module is created as `new Set([1, …, n])` (ascending) and only ever shrunk
by `delete`, which preserves the order of the remaining elements, so a
candidate set is modelled as a strictly ascending `List Nat`; `Array.from`
is the identity on this representation.  `explanation` strings carry no
logical content and are omitted from the step records. -/

namespace HS

/-- `TechniqueType` (`src/types.ts`). -/
inductive TechniqueType where
  | singleCandidate
  | hiddenSingle
  | nakedPair
  | hiddenPair
  | nakedTriple
  | hiddenTriple
  | xWing
  | pointingPair
  | boxLineReduction
  | backtracking
deriving Repr, DecidableEq

/-- `SolveStep` (`src/types.ts`), minus the explanation string.
`eliminatedCandidates` is `none` when the JS object lacks the field. -/
structure SolveStep where
  step : Nat
  type : TechniqueType
  cells : List Nat
  values : List Nat
  eliminatedCandidates : Option (List (Nat × List Nat)) := none
deriving Repr, DecidableEq

/-- `CandidateGrid`. -/
structure CandidateGrid where
  size : Nat
  blockRows : Nat
  blockCols : Nat
  values : List Nat
  candidates : List (List Nat)
deriving Repr, DecidableEq

/-- Append an element unless present: one step of JS `Set.add` /
spreading into a `Set`, preserving first-occurrence order. -/
def jsInsert (l : List Nat) (x : Nat) : List Nat :=
  if l.contains x then l else l ++ [x]

/-- `[...new Set(list)]`: deduplicate keeping first occurrences. -/
def jsDedup (l : List Nat) : List Nat :=
  l.foldl jsInsert []

/-- `getBox` of `humanSolver.ts` (same formula as the DLX one). -/
def getBox (row col blockRows blockCols size : Nat) : Nat :=
  row / blockRows * (size / blockCols) + col / blockCols

/-- `getPeers`: row peers, then column peers, then box peers, inserted into
a `Set` (so deduplicated, first occurrence wins), excluding the cell itself. -/
def getPeers (index size blockRows blockCols : Nat) : List Nat :=
  let row := index / size
  let col := index % size
  let rowPeers := ((List.range size).map (fun c => row * size + c)).filter (· ≠ index)
  let colPeers := ((List.range size).map (fun r => r * size + col)).filter (· ≠ index)
  let boxStartRow := row / blockRows * blockRows
  let boxStartCol := col / blockCols * blockCols
  let boxPeers := ((List.range blockRows).flatMap (fun dr =>
    (List.range blockCols).map (fun dc =>
      (boxStartRow + dr) * size + (boxStartCol + dc)))).filter (· ≠ index)
  jsDedup (rowPeers ++ colPeers ++ boxPeers)

/-- `eliminateFromPeers`: delete `value` from every peer's candidate set. -/
def eliminateFromPeers (grid : CandidateGrid) (index value : Nat) : CandidateGrid :=
  let peers := getPeers index grid.size grid.blockRows grid.blockCols
  { grid with candidates :=
      peers.foldl (fun cands p => cands.set p ((cands.getD p []).erase value)) grid.candidates }

/-- `placeValue`: set the value, clear the cell's candidates, eliminate from
peers.  Note there is no precondition check of any kind. -/
def placeValue (grid : CandidateGrid) (index value : Nat) : CandidateGrid :=
  eliminateFromPeers
    { grid with
      values := grid.values.set index value,
      candidates := grid.candidates.set index [] }
    index value

/-- `initializeCandidates`: full candidate set `1..n` for empty cells, empty
set for givens, then eliminate every given from its peers. -/
def initializeCandidates (puzzle : List Nat) (size blockRows blockCols : Nat) : CandidateGrid :=
  let candidates := puzzle.map (fun v => if v = 0 then List.range' 1 size else [])
  let grid : CandidateGrid :=
    { size := size, blockRows := blockRows, blockCols := blockCols,
      values := puzzle, candidates := candidates }
  (List.range puzzle.length).foldl (fun g i =>
    if puzzle.getD i 0 ≠ 0 then eliminateFromPeers g i (puzzle.getD i 0) else g) grid

/-- `getRowIndices`. -/
def getRowIndices (row size : Nat) : List Nat :=
  (List.range size).map (fun i => row * size + i)

/-- `getColIndices`. -/
def getColIndices (col size : Nat) : List Nat :=
  (List.range size).map (fun i => i * size + col)

/-- `getBoxIndices`. -/
def getBoxIndices (boxIdx size blockRows blockCols : Nat) : List Nat :=
  let boxesPerRow := size / blockCols
  let boxRow := boxIdx / boxesPerRow
  let boxCol := boxIdx % boxesPerRow
  let startRow := boxRow * blockRows
  let startCol := boxCol * blockCols
  (List.range blockRows).flatMap (fun dr =>
    (List.range blockCols).map (fun dc => (startRow + dr) * size + (startCol + dc)))

/-- Value of cell `i`. -/
def cellVal (grid : CandidateGrid) (i : Nat) : Nat := grid.values.getD i 0

/-- Candidate set of cell `i`. -/
def cellCands (grid : CandidateGrid) (i : Nat) : List Nat := grid.candidates.getD i []

/-- `findNakedSingle`: first empty cell with exactly one candidate, scanning
cell indices ascending. -/
def findNakedSingle (grid : CandidateGrid) : Option SolveStep :=
  (List.range grid.values.length).findSome? (fun i =>
    if cellVal grid i = 0 && (cellCands grid i).length = 1 then
      some { step := 0, type := .singleCandidate, cells := [i],
             values := [(cellCands grid i).headD 0] }
    else none)

/-- `findHiddenSingleInUnit`: first value `1..n` with exactly one eligible
empty cell in the unit. -/
def findHiddenSingleInUnit (grid : CandidateGrid) (indices : List Nat) : Option SolveStep :=
  (List.range' 1 grid.size).findSome? (fun num =>
    let possibleCells := indices.filter (fun i =>
      cellVal grid i = 0 && (cellCands grid i).contains num)
    if possibleCells.length = 1 then
      some { step := 0, type := .hiddenSingle, cells := [possibleCells.headD 0],
             values := [num] }
    else none)

/-- `findHiddenSingle`: rows, then columns, then boxes, ascending index. -/
def findHiddenSingle (grid : CandidateGrid) : Option SolveStep :=
  let numBoxes := (grid.size / grid.blockRows) * (grid.size / grid.blockCols)
  ((List.range grid.size).findSome? (fun row =>
    findHiddenSingleInUnit grid (getRowIndices row grid.size))).orElse (fun _ =>
  ((List.range grid.size).findSome? (fun col =>
    findHiddenSingleInUnit grid (getColIndices col grid.size))).orElse (fun _ =>
  (List.range numBoxes).findSome? (fun box =>
    findHiddenSingleInUnit grid (getBoxIndices box grid.size grid.blockRows grid.blockCols))))

/-- Index pairs `(i, j)` with `i < j < k` in the double-loop order of the JS
sources (`for i … for j = i+1 …`). -/
def ijPairs (k : Nat) : List (Nat × Nat) :=
  (List.range k).flatMap (fun i => (List.range' (i + 1) (k - i - 1)).map (fun j => (i, j)))

/-- The `checkUnit` closure of `findNakedPair`. -/
def nakedPairInUnit (grid : CandidateGrid) (indices : List Nat) : Option SolveStep :=
  let cellsWithTwo := indices.filter (fun i =>
    cellVal grid i = 0 && (cellCands grid i).length = 2)
  (ijPairs cellsWithTwo.length).findSome? (fun ij =>
    let cell1 := cellsWithTwo.getD ij.1 0
    let cell2 := cellsWithTwo.getD ij.2 0
    let cands1 := cellCands grid cell1
    let cands2 := cellCands grid cell2
    if cands1.length = 2 && cands1 == cands2 then
      let eliminations := indices.filterMap (fun idx =>
        if idx ≠ cell1 && idx ≠ cell2 && cellVal grid idx = 0 then
          let elims := cands1.filter (fun v => (cellCands grid idx).contains v)
          if elims.length > 0 then some (idx, elims) else none
        else none)
      if eliminations.length > 0 then
        some { step := 0, type := .nakedPair, cells := [cell1, cell2],
               values := cands1, eliminatedCandidates := some eliminations }
      else none
    else none)

/-- `findNakedPair`: all rows, then all columns, then all boxes. -/
def findNakedPair (grid : CandidateGrid) : Option SolveStep :=
  let numBoxes := (grid.size / grid.blockRows) * (grid.size / grid.blockCols)
  ((List.range grid.size).findSome? (fun row =>
    nakedPairInUnit grid (getRowIndices row grid.size))).orElse (fun _ =>
  ((List.range grid.size).findSome? (fun col =>
    nakedPairInUnit grid (getColIndices col grid.size))).orElse (fun _ =>
  (List.range numBoxes).findSome? (fun box =>
    nakedPairInUnit grid (getBoxIndices box grid.size grid.blockRows grid.blockCols))))

/-- The `checkUnit` closure of `findHiddenPair`. -/
def hiddenPairInUnit (grid : CandidateGrid) (indices : List Nat) : Option SolveStep :=
  let valueCells := (List.range' 1 grid.size).filterMap (fun num =>
    let cells := indices.filter (fun i =>
      cellVal grid i = 0 && (cellCands grid i).contains num)
    if cells.length = 2 then some (num, cells) else none)
  (ijPairs valueCells.length).findSome? (fun ij =>
    let v1 := valueCells.getD ij.1 (0, [])
    let v2 := valueCells.getD ij.2 (0, [])
    if v1.2 == v2.2 then
      let pairCells := v1.2
      let pairValues := [v1.1, v2.1]
      let eliminations := pairCells.filterMap (fun cell =>
        let otherCands := (cellCands grid cell).filter (fun v => !pairValues.contains v)
        if otherCands.length > 0 then some (cell, otherCands) else none)
      if eliminations.length > 0 then
        some { step := 0, type := .hiddenPair, cells := pairCells,
               values := pairValues, eliminatedCandidates := some eliminations }
      else none
    else none)

/-- `findHiddenPair`: all rows, then all columns, then all boxes. -/
def findHiddenPair (grid : CandidateGrid) : Option SolveStep :=
  let numBoxes := (grid.size / grid.blockRows) * (grid.size / grid.blockCols)
  ((List.range grid.size).findSome? (fun row =>
    hiddenPairInUnit grid (getRowIndices row grid.size))).orElse (fun _ =>
  ((List.range grid.size).findSome? (fun col =>
    hiddenPairInUnit grid (getColIndices col grid.size))).orElse (fun _ =>
  (List.range numBoxes).findSome? (fun box =>
    hiddenPairInUnit grid (getBoxIndices box grid.size grid.blockRows grid.blockCols))))

/-- Row half of `findXWing` for a fixed value. -/
def xWingRows (grid : CandidateGrid) (num : Nat) : Option SolveStep :=
  let size := grid.size
  let rowsWith2 := (List.range size).filterMap (fun row =>
    let cols := (List.range size).filter (fun col =>
      cellVal grid (row * size + col) = 0 && (cellCands grid (row * size + col)).contains num)
    if cols.length = 2 then some (row, cols) else none)
  (ijPairs rowsWith2.length).findSome? (fun ij =>
    let r1 := rowsWith2.getD ij.1 (0, [])
    let r2 := rowsWith2.getD ij.2 (0, [])
    if r1.2 == r2.2 then
      let eliminations := r1.2.flatMap (fun col =>
        (List.range size).filterMap (fun row =>
          if row ≠ r1.1 && row ≠ r2.1 && cellVal grid (row * size + col) = 0 &&
              (cellCands grid (row * size + col)).contains num then
            some (row * size + col, [num])
          else none))
      if eliminations.length > 0 then
        some { step := 0, type := .xWing,
               cells := [r1.1 * size + r1.2.getD 0 0, r1.1 * size + r1.2.getD 1 0,
                         r2.1 * size + r2.2.getD 0 0, r2.1 * size + r2.2.getD 1 0],
               values := [num], eliminatedCandidates := some eliminations }
      else none
    else none)

/-- Column half of `findXWing` for a fixed value. -/
def xWingCols (grid : CandidateGrid) (num : Nat) : Option SolveStep :=
  let size := grid.size
  let colsWith2 := (List.range size).filterMap (fun col =>
    let rows := (List.range size).filter (fun row =>
      cellVal grid (row * size + col) = 0 && (cellCands grid (row * size + col)).contains num)
    if rows.length = 2 then some (col, rows) else none)
  (ijPairs colsWith2.length).findSome? (fun ij =>
    let c1 := colsWith2.getD ij.1 (0, [])
    let c2 := colsWith2.getD ij.2 (0, [])
    if c1.2 == c2.2 then
      let eliminations := c1.2.flatMap (fun row =>
        (List.range size).filterMap (fun col =>
          if col ≠ c1.1 && col ≠ c2.1 && cellVal grid (row * size + col) = 0 &&
              (cellCands grid (row * size + col)).contains num then
            some (row * size + col, [num])
          else none))
      if eliminations.length > 0 then
        some { step := 0, type := .xWing,
               cells := [c1.2.getD 0 0 * size + c1.1, c1.2.getD 1 0 * size + c1.1,
                         c1.2.getD 0 0 * size + c2.1, c1.2.getD 1 0 * size + c2.1],
               values := [num], eliminatedCandidates := some eliminations }
      else none
    else none)

/-- `findXWing`: for each value ascending, the row pattern then the column
pattern. -/
def findXWing (grid : CandidateGrid) : Option SolveStep :=
  (List.range' 1 grid.size).findSome? (fun num =>
    (xWingRows grid num).orElse (fun _ => xWingCols grid num))

/-- All candidate positions of `num` in a box that are confined to one line,
as used by `findPointingPair`: the row check, then the column check. -/
def pointingInBox (grid : CandidateGrid) (box num : Nat) : Option SolveStep :=
  let size := grid.size
  let boxIndices := getBoxIndices box size grid.blockRows grid.blockCols
  let cellsWithNum := boxIndices.filter (fun i =>
    cellVal grid i = 0 && (cellCands grid i).contains num)
  if cellsWithNum.length < 2 || cellsWithNum.length > grid.blockRows then none
  else
    let rows := cellsWithNum.map (fun i => i / size)
    let rowStep :=
      if rows.all (fun r => r = rows.headD 0) then
        let row := rows.headD 0
        let eliminations := (List.range size).filterMap (fun col =>
          let idx := row * size + col
          if !boxIndices.contains idx && cellVal grid idx = 0 &&
              (cellCands grid idx).contains num then
            some (idx, [num])
          else none)
        if eliminations.length > 0 then
          some { step := 0, type := .pointingPair, cells := cellsWithNum,
                 values := [num], eliminatedCandidates := some eliminations }
        else none
      else none
    rowStep.orElse (fun _ =>
      let cols := cellsWithNum.map (fun i => i % size)
      if cols.all (fun c => c = cols.headD 0) then
        let col := cols.headD 0
        let eliminations := (List.range size).filterMap (fun row =>
          let idx := row * size + col
          if !boxIndices.contains idx && cellVal grid idx = 0 &&
              (cellCands grid idx).contains num then
            some (idx, [num])
          else none)
        if eliminations.length > 0 then
          some { step := 0, type := .pointingPair, cells := cellsWithNum,
                 values := [num], eliminatedCandidates := some eliminations }
        else none
      else none)

/-- `findPointingPair`: boxes ascending, values ascending inside each box. -/
def findPointingPair (grid : CandidateGrid) : Option SolveStep :=
  let numBoxes := (grid.size / grid.blockRows) * (grid.size / grid.blockCols)
  (List.range numBoxes).findSome? (fun box =>
    (List.range' 1 grid.size).findSome? (fun num => pointingInBox grid box num))

/-- `applyStep`: placement steps call `placeValue` unconditionally;
elimination steps delete the listed candidate values. -/
def applyStep (grid : CandidateGrid) (step : SolveStep) : CandidateGrid :=
  if step.type = .singleCandidate || step.type = .hiddenSingle then
    placeValue grid (step.cells.getD 0 0) (step.values.getD 0 0)
  else
    match step.eliminatedCandidates with
    | some elims =>
      { grid with candidates :=
          elims.foldl (fun cands el =>
            el.2.foldl (fun cands2 v =>
              cands2.set el.1 ((cands2.getD el.1 []).erase v)) cands) grid.candidates }
    | none => grid

/-- `isSolved`. -/
def isSolved (grid : CandidateGrid) : Bool :=
  grid.values.all (fun v => v ≠ 0)

/-- The fixed technique priority of `solveWithSteps` and `getHint`. -/
def findTechnique (grid : CandidateGrid) : Option SolveStep :=
  (findNakedSingle grid).orElse (fun _ =>
  (findHiddenSingle grid).orElse (fun _ =>
  (findNakedPair grid).orElse (fun _ =>
  (findHiddenPair grid).orElse (fun _ =>
  (findPointingPair grid).orElse (fun _ =>
  findXWing grid)))))

/-- The `while (!isSolved(grid))` loop of `solveWithSteps`.  Each applied
step either fills an empty cell or strictly shrinks some candidate set, so
the fuel passed by `solveWithSteps` can never run out on a real run. -/
def solveLoop : Nat → CandidateGrid → List SolveStep → Nat → CandidateGrid × List SolveStep
  | 0, grid, steps, _ => (grid, steps)
  | fuel + 1, grid, steps, stepNum =>
    if isSolved grid then (grid, steps)
    else
      match findTechnique grid with
      | none => (grid, steps)
      | some step =>
        let s := { step with step := stepNum + 1 }
        solveLoop fuel (applyStep grid s) (steps ++ [s]) (stepNum + 1)

/-- Result record of `solveWithSteps` (without the wall-clock `timeMs`). -/
structure SolverResult where
  solved : Bool
  solution : List Nat
  techniques : List SolveStep
deriving Repr, DecidableEq

/-- `solveWithSteps`. -/
def solveWithSteps (puzzle : List Nat) (size blockRows blockCols : Nat) : SolverResult :=
  let grid := initializeCandidates puzzle size blockRows blockCols
  let res := solveLoop (size * size * size + size * size + 1) grid [] 0
  ⟨isSolved res.1, res.1.values, res.2⟩

end HS

/-! ## Puzzle generator (`src/solver/generator.ts`, `src/types.ts`)

`SeededRandom` state updates are `(seed * 1103515245 + 12345) & 0x7fffffff`
on JS numbers; modelled in exact integer arithmetic as `% 2^31` (for states
large enough that the float product loses low bits the JS value can differ,
but it is still a pure function of the state, which is what the claims
use).  `next()` returns `seed / 0x7fffffff`; `Math.floor(next() * k)` is
modelled as exact `seed * k / 0x7fffffff` in `Nat`.  `Date.now()` is an
explicit `clock` argument. -/

namespace Gen

/-- `Difficulty` (`src/types.ts`). -/
inductive Difficulty where
  | easy
  | medium
  | hard
  | expert
  | custom
deriving Repr, DecidableEq

/-- `Symmetry` (`src/types.ts`). -/
inductive Symmetry where
  | none
  | rotational
  | horizontal
  | vertical
  | diagonal
deriving Repr, DecidableEq

/-- `PuzzleConfig` (`src/types.ts`). -/
structure PuzzleConfig where
  size : Nat
  blockRows : Nat
  blockCols : Nat
deriving Repr, DecidableEq

/-- `SUPPORTED_SIZES` (`src/types.ts`). -/
def SUPPORTED_SIZES : List PuzzleConfig :=
  [⟨4, 2, 2⟩, ⟨6, 2, 3⟩, ⟨9, 3, 3⟩, ⟨12, 3, 4⟩, ⟨16, 4, 4⟩]

/-- `DIFFICULTY_SETTINGS[d].minGivens` (`src/types.ts`). -/
def minGivensOf : Difficulty → Nat
  | .easy => 36
  | .medium => 30
  | .hard => 25
  | .expert => 17
  | .custom => 17

/-- `DIFFICULTY_SETTINGS[d].maxGivens` (`src/types.ts`). -/
def maxGivensOf : Difficulty → Nat
  | .easy => 45
  | .medium => 36
  | .hard => 30
  | .expert => 25
  | .custom => 45

/-- `Puzzle` (`src/types.ts`). -/
structure Puzzle where
  size : Nat
  blockRows : Nat
  blockCols : Nat
  cells : List Nat
  difficulty : Difficulty
  symmetry : Symmetry
  seed : Nat
  solution : List Nat
deriving Repr, DecidableEq

/-- `SeededRandom.next`, state part: the new internal state (which is also
the numerator of the returned fraction `seed / 0x7fffffff`). -/
def rngNext (s : Nat) : Nat :=
  (s * 1103515245 + 12345) % 2147483648

/-- `SeededRandom.nextInt(min, max)`: value and new state.
`Math.floor(seed / 0x7fffffff * (max - min + 1)) + min` in exact
arithmetic. -/
def nextInt (lo hi s : Nat) : Nat × Nat :=
  let s2 := rngNext s
  (s2 * (hi - lo + 1) / 2147483647 + lo, s2)

/-- Swap two positions of a list; the JS destructuring swap, which in
`SeededRandom.shuffle` always has both indices in bounds except in the
degenerate corner `seed = 0x7fffffff` (where `next()` returns exactly 1 and
JS would write past the array); out-of-range indices leave the list
unchanged here. -/
def listSwap {α : Type} (l : List α) (i j : Nat) : List α :=
  if h : i < l.length ∧ j < l.length then
    (l.set i (l.get ⟨j, h.2⟩)).set j (l.get ⟨i, h.1⟩)
  else l

/-- The Fisher–Yates loop of `SeededRandom.shuffle`: index `i` descending
from `length - 1` to `1`, `j = nextInt(0, i)`. -/
def shuffleAux {α : Type} : Nat → List α → Nat → List α × Nat
  | 0, l, s => (l, s)
  | i + 1, l, s =>
    let js := nextInt 0 (i + 1) s
    shuffleAux i (listSwap l (i + 1) js.1) js.2

/-- `SeededRandom.shuffle` (on a copy; the JS original copies first). -/
def shuffle {α : Type} (l : List α) (s : Nat) : List α × Nat :=
  shuffleAux (l.length - 1) l s

/-- `isValidPlacement`: row, column and box of `(row, col)` must not already
contain `num`. -/
def isValidPlacement (grid : List Nat) (row col num size blockRows blockCols : Nat) : Bool :=
  ((List.range size).all (fun c => grid.getD (row * size + c) 0 ≠ num)) &&
  ((List.range size).all (fun r => grid.getD (r * size + col) 0 ≠ num)) &&
  (let boxStartRow := row / blockRows * blockRows
   let boxStartCol := col / blockCols * blockCols
   (List.range blockRows).all (fun dr =>
     (List.range blockCols).all (fun dc =>
       grid.getD ((boxStartRow + dr) * size + (boxStartCol + dc)) 0 ≠ num)))

/-- The `for (const num of candidates)` loop of `fillGrid`: place a valid
candidate, recurse through `go`; on failure reset the cell to `0` and try
the next candidate. -/
def fillCands (size index : Nat) (valid : List Nat → Nat → Bool)
    (go : List Nat → Nat → Bool × List Nat × Nat) :
    List Nat → List Nat → Nat → Bool × List Nat × Nat
  | [], grid, s => (false, grid, s)
  | num :: rest, grid, s =>
    if valid grid num then
      let res := go (grid.set index num) s
      if res.1 then res
      else fillCands size index valid go rest (res.2.1.set index 0) res.2.2
    else fillCands size index valid go rest grid s

/-- `fillGrid` of `generateSolution`: randomized backtracking fill in
row-major cell order.  `fuel` bounds the recursion depth;
`generateSolution` passes `size * size + 1`, which can never run out since
the index increases by one per level. -/
def fillGrid (size blockRows blockCols : Nat) :
    Nat → Nat → List Nat → Nat → Bool × List Nat × Nat
  | 0, _, grid, s => (false, grid, s)
  | fuel + 1, index, grid, s =>
    if index ≥ size * size then (true, grid, s)
    else
      let cs := shuffle (List.range' 1 size) s
      fillCands size index
        (fun g num => isValidPlacement g (index / size) (index % size) num size blockRows blockCols)
        (fun g s2 => fillGrid size blockRows blockCols fuel (index + 1) g s2)
        cs.1 grid cs.2

/-- `generateSolution`: backtracking fill over an all-zero grid; the boolean
result of `fillGrid(0)` is discarded. -/
def generateSolution (size blockRows blockCols : Nat) (s : Nat) : List Nat × Nat :=
  let res := fillGrid size blockRows blockCols (size * size + 1) 0
    (List.replicate (size * size) 0) s
  (res.2.1, res.2.2)

/-- `getSymmetricCells`: the symmetry orbit of a cell, deduplicated via
`[...new Set(cells)]`. -/
def getSymmetricCells (index size : Nat) (symmetry : Symmetry) : List Nat :=
  let row := index / size
  let col := index % size
  let cells := [index] ++
    (match symmetry with
     | .rotational => [(size - 1 - row) * size + (size - 1 - col)]
     | .horizontal => [row * size + (size - 1 - col)]
     | .vertical => [(size - 1 - row) * size + col]
     | .diagonal =>
       [col * size + row] ++
       (if row ≠ col then
          [(size - 1 - col) * size + (size - 1 - row),
           (size - 1 - row) * size + (size - 1 - col)]
        else [])
     | .none => [])
  HS.jsDedup cells

/-- `getGivensRange`: `Math.round(base * (size/9)^2)` on both ends, in exact
arithmetic (`Math.round` is round-half-up; no half ties are reachable since
`2 * base * size^2` is even while `81 * (2k+1)` is odd). -/
def getGivensRange (size : Nat) (difficulty : Difficulty) : Nat × Nat :=
  ((2 * (minGivensOf difficulty * size * size) + 81) / 162,
   (2 * (maxGivensOf difficulty * size * size) + 81) / 162)

/-- `assessDifficulty` technique weights. -/
def scoreOf : HS.TechniqueType → Nat
  | .singleCandidate => 1
  | .hiddenSingle => 2
  | .nakedPair => 4
  | .hiddenPair => 5
  | .pointingPair => 4
  | .xWing => 8
  | _ => 10

/-- `assessDifficulty`: run the propagation engine, weight the steps,
classify.  An unsolved run is Expert with score 100. -/
def assessDifficulty (puzzle : List Nat) (size blockRows blockCols : Nat) :
    Difficulty × Nat :=
  let result := HS.solveWithSteps puzzle size blockRows blockCols
  if !result.solved then (.expert, 100)
  else
    let score := (result.techniques.map (fun st => scoreOf st.type)).sum
    let hasAdvanced := result.techniques.countP (fun st => st.type == .xWing) > 0
    let hasIntermediate :=
      result.techniques.countP (fun st => st.type == .nakedPair) +
        result.techniques.countP (fun st => st.type == .hiddenPair) > 0
    let difficulty :=
      if hasAdvanced || score > 150 then Difficulty.expert
      else if hasIntermediate || score > 80 then Difficulty.hard
      else if score > 40 then Difficulty.medium
      else Difficulty.easy
    (difficulty, score)

/-- The symmetry-grouping pass of `generatePuzzle`: partition the shuffled
cell list into symmetry orbits, in first-encounter order. -/
def groupCells (size : Nat) (symmetry : Symmetry) (cells : List Nat) : List (List Nat) :=
  (cells.foldl (fun acc cell =>
    if acc.1.contains cell then acc
    else
      let group := getSymmetricCells cell size symmetry
      (group.foldl HS.jsInsert acc.1, acc.2 ++ [group])) ([], [])).2

/-- The clue-removal loop of `generatePuzzle`.  State: current board and
the list of removed cells (a JS `Set`; it never receives duplicates).
Returns the final board. -/
def removeLoop (size blockRows blockCols : Nat) (symmetry : Symmetry)
    (targetCount minGivens totalCells : Nat) :
    List Nat → List Nat → List Nat → List Nat
  | [], puzzle, _ => puzzle
  | cellIndex :: rest, puzzle, removed =>
    if removed.contains cellIndex then
      removeLoop size blockRows blockCols symmetry targetCount minGivens totalCells
        rest puzzle removed
    else
      let givensLeft := totalCells - removed.length
      if givensLeft ≤ targetCount then puzzle
      else
        let cellsToRemove :=
          if symmetry = .none then [cellIndex]
          else (getSymmetricCells cellIndex size symmetry).filter
            (fun c => !removed.contains c)
        if cellsToRemove.length = 0 then
          removeLoop size blockRows blockCols symmetry targetCount minGivens totalCells
            rest puzzle removed
        else if givensLeft - cellsToRemove.length < minGivens then
          removeLoop size blockRows blockCols symmetry targetCount minGivens totalCells
            rest puzzle removed
        else
          let savedValues := cellsToRemove.map (fun c => puzzle.getD c 0)
          let puzzle2 := cellsToRemove.foldl (fun p c => p.set c 0) puzzle
          if DLX.hasUniqueSolution size blockRows blockCols puzzle2 then
            removeLoop size blockRows blockCols symmetry targetCount minGivens totalCells
              rest puzzle2 (removed ++ cellsToRemove)
          else
            removeLoop size blockRows blockCols symmetry targetCount minGivens totalCells
              rest ((cellsToRemove.zip savedValues).foldl
                (fun p cv => p.set cv.1 cv.2) puzzle2) removed

/-- `generatePuzzle`.  `clock` stands for `Date.now()`, consulted only when
no seed is supplied. -/
def generatePuzzle (clock : Nat) (config : PuzzleConfig)
    (difficulty : Difficulty := .medium) (symmetry : Symmetry := .rotational)
    (seed : Option Nat := none) (targetGivens : Option Nat := none) : Puzzle :=
  let size := config.size
  let blockRows := config.blockRows
  let blockCols := config.blockCols
  let s0 := seed.getD clock
  let actualSeed := s0
  let sol := generateSolution size blockRows blockCols s0
  let solution := sol.1
  let totalCells := size * size
  let givensRange := getGivensRange size difficulty
  let tc := match targetGivens with
    | some t => (t, sol.2)
    | none => nextInt givensRange.1 givensRange.2 sol.2
  let shuffled := shuffle (List.range totalCells) tc.2
  let cellsToTry :=
    if symmetry ≠ .none then
      let grouped := groupCells size symmetry shuffled.1
      (shuffle grouped shuffled.2).1.flatten
    else shuffled.1
  let puzzle := removeLoop size blockRows blockCols symmetry tc.1 givensRange.1
    totalCells cellsToTry solution []
  let assessment := assessDifficulty puzzle size blockRows blockCols
  { size := size, blockRows := blockRows, blockCols := blockCols,
    cells := puzzle, difficulty := assessment.1, symmetry := symmetry,
    seed := actualSeed, solution := solution }

end Gen

/-! ## Pointer-level model of the dancing-links structure (`src/solver/dlx.ts`)

For the state-restoration property the linked structure itself matters, so
here the node graph is modelled exactly: nodes are numbered in JS
allocation order (header `0`, then the `4n²` column nodes in id order —
so the node for column id `c` is `c + 1`, matching `this.columns[colId + 1]`
— then the row nodes, four per candidate row in constraint order), and the
state holds every mutable field (`left`, `right`, `up`, `down`,
`column.size`) as a list indexed by node number.  `column` and `row` fields
are immutable after construction. -/

namespace Ptr

/-- All mutable pointer/counter fields of the node arena, plus the
immutable `column` (`colOf`) and `row` (`rowOf`) fields. -/
structure PState where
  left : List Nat
  right : List Nat
  up : List Nat
  down : List Nat
  size : List Nat
  colOf : List Nat
  rowOf : List Nat
deriving Repr, DecidableEq

def getL (s : PState) (x : Nat) : Nat := s.left.getD x 0
def getR (s : PState) (x : Nat) : Nat := s.right.getD x 0
def getU (s : PState) (x : Nat) : Nat := s.up.getD x 0
def getDn (s : PState) (x : Nat) : Nat := s.down.getD x 0
def getSz (s : PState) (x : Nat) : Nat := s.size.getD x 0
def getCol (s : PState) (x : Nat) : Nat := s.colOf.getD x 0
def getRow (s : PState) (x : Nat) : Nat := s.rowOf.getD x 0

def setL (s : PState) (x v : Nat) : PState := { s with left := s.left.set x v }
def setR (s : PState) (x v : Nat) : PState := { s with right := s.right.set x v }
def setU (s : PState) (x v : Nat) : PState := { s with up := s.up.set x v }
def setDn (s : PState) (x v : Nat) : PState := { s with down := s.down.set x v }
def decSz (s : PState) (x : Nat) : PState := { s with size := s.size.set x (getSz s x - 1) }
def incSz (s : PState) (x : Nat) : PState := { s with size := s.size.set x (getSz s x + 1) }

/-- Allocate one row node (`addRow` body): vertical insertion at the bottom
of column-id `colId` (node `colId + 1`), `column.size++`. -/
def addNode (s : PState) (colId rowId : Nat) : PState × Nat :=
  let node := s.left.length
  let colNode := colId + 1
  let bottom := getU s colNode
  let s :=
    { s with
      left := s.left ++ [node], right := s.right ++ [node],
      up := s.up ++ [bottom], down := s.down ++ [colNode],
      size := s.size ++ [0], colOf := s.colOf ++ [colNode],
      rowOf := s.rowOf ++ [rowId] }
  let s := setDn s bottom node
  let s := setU s colNode node
  let s := incSz s colNode
  (s, node)

/-- `DLXSolver.addRow`: nodes for the four constraints, linked into a
horizontal ring in order. -/
def addRow (s : PState) (rowId : Nat) (constraintIds : List Nat) : PState :=
  let res := constraintIds.foldl (fun (acc : PState × Option Nat × Option Nat) colId =>
    let (s, first, prev) := acc
    let (s, node) := addNode s colId rowId
    match first, prev with
    | some f, some p =>
      let s := setL s node p
      let s := setR s node f
      let s := setR s p node
      let s := setL s f node
      (s, some f, some node)
    | _, _ =>
      let s := setL s node node
      let s := setR s node node
      (s, some node, some node)) (s, none, none)
  res.1

/-- `DLXSolver.buildMatrix` on the pointer arena. -/
def buildMatrix (size blockRows blockCols : Nat) (puzzle : List Nat) (s : PState) : PState :=
  (List.range size).foldl (fun s row =>
    (List.range size).foldl (fun s col =>
      let cellIdx := row * size + col
      let given := puzzle.getD cellIdx 0
      let nums := if given > 0 then [given] else List.range' 1 size
      nums.foldl (fun s num =>
        addRow s (cellIdx * size + num - 1)
          (DLX.getConstraints size blockRows blockCols row col num)) s) s) s

/-- `DLXSolver.cover`, inner `while (node !== row)` walk (rightward). -/
def coverNodes : Nat → PState → Nat → Nat → PState
  | 0, s, _, _ => s
  | fuel + 1, s, row, node =>
    if node = row then s
    else
      let s := setU s (getDn s node) (getU s node)
      let s := setDn s (getU s node) (getDn s node)
      let s := decSz s (getCol s node)
      coverNodes fuel s row (getR s node)

/-- `DLXSolver.cover`, outer `while (row !== col)` walk (downward). -/
def coverRowsWalk : Nat → PState → Nat → Nat → PState
  | 0, s, _, _ => s
  | fuel + 1, s, c, row =>
    if row = c then s
    else
      let s := coverNodes (s.left.length + 1) s row (getR s row)
      coverRowsWalk fuel s c (getDn s row)

/-- `DLXSolver.cover`. -/
def cover (s : PState) (c : Nat) : PState :=
  let s := setL s (getR s c) (getL s c)
  let s := setR s (getL s c) (getR s c)
  coverRowsWalk (s.left.length + 1) s c (getDn s c)

/-- `DLXSolver.uncover`, inner walk (leftward). -/
def uncoverNodes : Nat → PState → Nat → Nat → PState
  | 0, s, _, _ => s
  | fuel + 1, s, row, node =>
    if node = row then s
    else
      let s := incSz s (getCol s node)
      let s := setU s (getDn s node) node
      let s := setDn s (getU s node) node
      uncoverNodes fuel s row (getL s node)

/-- `DLXSolver.uncover`, outer walk (upward). -/
def uncoverRowsWalk : Nat → PState → Nat → Nat → PState
  | 0, s, _, _ => s
  | fuel + 1, s, c, row =>
    if row = c then s
    else
      let s := uncoverNodes (s.left.length + 1) s row (getL s row)
      uncoverRowsWalk fuel s c (getU s row)

/-- `DLXSolver.uncover`. -/
def uncover (s : PState) (c : Nat) : PState :=
  let s := uncoverRowsWalk (s.left.length + 1) s c (getU s c)
  let s := setL s (getR s c) c
  let s := setR s (getL s c) c
  s

/-- MRV scan of `DLXSolver.search`: walk the header ring, strict `<`. -/
def pickMin : Nat → PState → Nat → Nat → Nat
  | 0, _, _, best => best
  | fuel + 1, s, node, best =>
    if node = 0 then best
    else pickMin fuel s (getR s node) (if getSz s node < getSz s best then node else best)

/-- Cover the columns of every node right of `row` (the loop before the
recursive call in `search`). -/
def coverNeighbors : Nat → PState → Nat → Nat → PState
  | 0, s, _, _ => s
  | fuel + 1, s, row, node =>
    if node = row then s
    else
      let s2 := cover s (getCol s node)
      coverNeighbors fuel s2 row (getR s2 node)

/-- Uncover the columns of every node left of `row` (the backtrack loop in
`search`). -/
def uncoverNeighbors : Nat → PState → Nat → Nat → PState
  | 0, s, _, _ => s
  | fuel + 1, s, row, node =>
    if node = row then s
    else
      let s2 := uncover s (getCol s node)
      uncoverNeighbors fuel s2 row (getL s2 node)

/-- The `while (row !== minCol)` branching loop of `DLXSolver.search`.
On an inner `true` the loop returns immediately — without uncovering. -/
def searchRowsLoop (go : PState → List Nat → DLX.SState → DLX.SState × Bool × PState) :
    Nat → PState → Nat → Nat → List Nat → DLX.SState → DLX.SState × Bool × PState
  | 0, s, _, _, _, st => (st, false, s)
  | fuel + 1, s, minCol, row, part, st =>
    if row = minCol then (st, false, s)
    else
      let s1 := coverNeighbors (s.left.length + 1) s row (getR s row)
      let res := go s1 (part ++ [getRow s1 row]) st
      if res.2.1 then res
      else
        let s2 := uncoverNeighbors (res.2.2.left.length + 1) res.2.2 row (getL res.2.2 row)
        searchRowsLoop go fuel s2 minCol (getDn s2 row) part res.1

/-- `DLXSolver.search` on the pointer arena.  Returns the bookkeeping, the
boolean result, and the final state of the links. -/
def search (fuel : Nat) (limit : Nat) (s : PState) (part : List Nat)
    (st : DLX.SState) : DLX.SState × Bool × PState :=
  match fuel with
  | 0 => (st, false, s)
  | fuel + 1 =>
    if getR s 0 = 0 then
      let st' : DLX.SState := ⟨st.solutions ++ [part], st.count + 1⟩
      (st', decide (st'.count ≥ limit), s)
    else
      let minCol := pickMin (s.left.length + 1) s (getR s (getR s 0)) (getR s 0)
      if getSz s minCol = 0 then (st, false, s)
      else
        let s1 := cover s minCol
        let res := searchRowsLoop
          (fun s' part' st' => search fuel limit s' part' st')
          (s.left.length + 1) s1 minCol (getDn s1 minCol) part st
        if res.2.1 then res
        else (res.1, false, uncover res.2.2 minCol)

end Ptr

end RetroSudoku

namespace RetroSudoku

/-! ## Concrete matrix states for the restoration analysis

`ptrFresh` is the freshly built dancing-links state for the empty 2×2
board (`size = 2`, `blockRows = 1`, `blockCols = 2`, the smallest
supported-shape board with two completions, so the bounded search with
`maxSolutions = 2` takes the early `return true`).  `ptrStopped` is the
state the links are left in by that early return. -/

namespace Ptr

end Ptr

end RetroSudoku

namespace RetroSudoku.HS

/-- Grids reachable from `initializeCandidates` by applying steps. -/
inductive Reachable (puzzle : List Nat) (size blockRows blockCols : Nat) :
    CandidateGrid → Prop where
  | init : Reachable puzzle size blockRows blockCols
      (initializeCandidates puzzle size blockRows blockCols)
  | step : ∀ g s, Reachable puzzle size blockRows blockCols g →
      Reachable puzzle size blockRows blockCols (applyStep g s)

lemma getD_set_of_ne {α : Type} (l : List α) (i j : Nat) (a d : α) (h : i ≠ j) :
    (l.set i a).getD j d = l.getD j d := by
  simp [List.getD_eq_getElem?_getD, List.getElem?_set_ne h]

lemma getD_set_self {α : Type} (l : List α) (i : Nat) (a d : α) (h : i < l.length) :
    (l.set i a).getD i d = a := by
  simp [List.getD_eq_getElem?_getD, List.getElem?_set_self h]

lemma getD_set_oob {α : Type} (l : List α) (i j : Nat) (a d : α) (h : l.length ≤ i) :
    (l.set i a).getD j d = l.getD j d := by
  rw [List.set_eq_of_length_le h]

lemma getD_set_empty (cands : List (List Nat)) (p : Nat) (x : List Nat) (j : Nat)
    (h : cands.getD j [] = []) (hx : p = j → x = []) :
    (cands.set p x).getD j [] = [] := by
  rcases eq_or_ne p j with rfl | hne
  · by_cases hp : p < cands.length
    · rw [getD_set_self _ _ _ _ hp, hx rfl]
    · rw [getD_set_oob _ _ _ _ _ (by omega)]
      exact h
  · rw [getD_set_of_ne _ _ _ _ _ hne]
    exact h

lemma foldl_cellCands_empty {β : Type} (l : List β) (f : CandidateGrid → β → CandidateGrid)
    (hf : ∀ g b j, cellCands g j = [] → cellCands (f g b) j = []) :
    ∀ g j, cellCands g j = [] → cellCands (l.foldl f g) j = [] := by
  induction l with
  | nil => intro g j h; simpa using h
  | cons b bs ih => intro g j h; exact ih _ _ (hf _ _ _ h)

lemma foldl_erase_empty (ps : List Nat) (v : Nat) :
    ∀ (cands : List (List Nat)) j, cands.getD j [] = [] →
      (ps.foldl (fun cands p => cands.set p ((cands.getD p []).erase v)) cands).getD j [] = [] := by
  induction ps with
  | nil => intro cands j h; simpa using h
  | cons p ps ih =>
    intro cands j h
    refine ih _ _ (getD_set_empty _ _ _ _ h ?_)
    rintro rfl
    rw [h]
    rfl

lemma foldl_erase_at_empty (vs : List Nat) (p : Nat) :
    ∀ (cands : List (List Nat)) j, cands.getD j [] = [] →
      (vs.foldl (fun cands2 v => cands2.set p ((cands2.getD p []).erase v)) cands).getD j [] = [] := by
  induction vs with
  | nil => intro cands j h; simpa using h
  | cons v vs ih =>
    intro cands j h
    refine ih _ _ (getD_set_empty _ _ _ _ h ?_)
    rintro rfl
    rw [h]
    rfl

lemma elims_foldl_empty (elims : List (Nat × List Nat)) :
    ∀ (cands : List (List Nat)) j, cands.getD j [] = [] →
      (elims.foldl (fun cands el =>
        el.2.foldl (fun cands2 v => cands2.set el.1 ((cands2.getD el.1 []).erase v)) cands)
        cands).getD j [] = [] := by
  induction elims with
  | nil => intro cands j h; simpa using h
  | cons el els ih =>
    intro cands j h
    exact ih _ _ (foldl_erase_at_empty _ _ _ _ h)

lemma eliminateFromPeers_values (g : CandidateGrid) (i v : Nat) :
    (eliminateFromPeers g i v).values = g.values := rfl

lemma eliminateFromPeers_cellCands_empty (g : CandidateGrid) (i v j : Nat)
    (h : cellCands g j = []) : cellCands (eliminateFromPeers g i v) j = [] := by
  unfold eliminateFromPeers cellCands at *
  exact foldl_erase_empty _ _ _ _ h

lemma cellVal_eliminateFromPeers (g : CandidateGrid) (i v j : Nat) :
    cellVal (eliminateFromPeers g i v) j = cellVal g j := rfl

lemma foldl_values_eq {β : Type} (l : List β) (f : CandidateGrid → β → CandidateGrid)
    (hf : ∀ g b, (f g b).values = g.values) :
    ∀ g, (l.foldl f g).values = g.values := by
  induction l with
  | nil => intro g; rfl
  | cons b bs ih => intro g; rw [List.foldl_cons, ih, hf]

lemma initializeCandidates_values (puzzle : List Nat) (n br bc : Nat) :
    (initializeCandidates puzzle n br bc).values = puzzle := by
  unfold initializeCandidates
  rw [foldl_values_eq]
  intro g i
  dsimp only
  split <;> rfl

lemma foldl_list_length {β : Type} (l : List β) (f : List (List Nat) → β → List (List Nat))
    (hf : ∀ c b, (f c b).length = c.length) :
    ∀ c, (l.foldl f c).length = c.length := by
  induction l with
  | nil => intro c; rfl
  | cons b bs ih => intro c; rw [List.foldl_cons, ih, hf]

lemma eliminateFromPeers_candidates_length (g : CandidateGrid) (i v : Nat) :
    (eliminateFromPeers g i v).candidates.length = g.candidates.length := by
  unfold eliminateFromPeers
  exact foldl_list_length _ _ (fun c b => by simp) _

lemma foldl_cand_length {β : Type} (l : List β) (f : CandidateGrid → β → CandidateGrid)
    (hf : ∀ g b, (f g b).candidates.length = g.candidates.length) :
    ∀ g, (l.foldl f g).candidates.length = g.candidates.length := by
  induction l with
  | nil => intro g; rfl
  | cons b bs ih => intro g; rw [List.foldl_cons, ih, hf]

lemma initializeCandidates_candidates_length (puzzle : List Nat) (n br bc : Nat) :
    (initializeCandidates puzzle n br bc).candidates.length = puzzle.length := by
  unfold initializeCandidates
  rw [foldl_cand_length]
  · simp
  · intro g i
    dsimp only
    split
    · exact eliminateFromPeers_candidates_length _ _ _
    · rfl

lemma foldl_set_erase_length (vs : List Nat) (p : Nat) :
    ∀ (c : List (List Nat)),
      (vs.foldl (fun c2 v => c2.set p ((c2.getD p []).erase v)) c).length = c.length := by
  induction vs with
  | nil => intro c; rfl
  | cons v vs ih => intro c; rw [List.foldl_cons, ih, List.length_set]

lemma elims_foldl_length (elims : List (Nat × List Nat)) :
    ∀ (c : List (List Nat)),
      (elims.foldl (fun cands el =>
        el.2.foldl (fun cands2 v => cands2.set el.1 ((cands2.getD el.1 []).erase v)) cands)
        c).length = c.length := by
  induction elims with
  | nil => intro c; rfl
  | cons el els ih => intro c; rw [List.foldl_cons, ih, foldl_set_erase_length]

lemma applyStep_values_length (g : CandidateGrid) (s : SolveStep) :
    (applyStep g s).values.length = g.values.length := by
  unfold applyStep
  split
  · unfold placeValue
    rw [eliminateFromPeers_values]
    exact List.length_set ..
  · split <;> rfl

lemma applyStep_candidates_length (g : CandidateGrid) (s : SolveStep) :
    (applyStep g s).candidates.length = g.candidates.length := by
  unfold applyStep
  split
  · unfold placeValue
    rw [eliminateFromPeers_candidates_length]
    exact List.length_set ..
  · split
    · exact elims_foldl_length _ _
    · rfl

lemma reachable_values_length {puzzle : List Nat} {n br bc : Nat} {g : CandidateGrid}
    (hg : Reachable puzzle n br bc g) : g.values.length = puzzle.length := by
  induction hg with
  | init => rw [initializeCandidates_values]
  | step g s _ ih => rw [applyStep_values_length, ih]

lemma reachable_candidates_length {puzzle : List Nat} {n br bc : Nat} {g : CandidateGrid}
    (hg : Reachable puzzle n br bc g) : g.candidates.length = puzzle.length := by
  induction hg with
  | init => exact initializeCandidates_candidates_length _ _ _ _
  | step g s _ ih => rw [applyStep_candidates_length, ih]

lemma initializeCandidates_cellCands_empty (puzzle : List Nat) (n br bc : Nat) (j : Nat)
    (h : puzzle.getD j 0 ≠ 0) :
    cellCands (initializeCandidates puzzle n br bc) j = [] := by
  have hj : j < puzzle.length := by
    by_contra hj
    exact h (List.getD_eq_default _ _ (by omega))
  unfold initializeCandidates
  refine foldl_cellCands_empty _ _ ?_ _ _ ?_
  · intro g i j2 hc
    dsimp only
    split
    · exact eliminateFromPeers_cellCands_empty _ _ _ _ hc
    · exact hc
  · show (puzzle.map _).getD j [] = []
    rw [List.getD_eq_getElem _ _ (by simpa using hj)]
    rw [List.getElem_map]
    rw [List.getD_eq_getElem _ _ hj] at h
    simp [h]

/-- The forward half of the candidate-grid invariant: a filled cell always
has an empty candidate set, in every grid reachable from
`initializeCandidates` by applied steps. -/
lemma reachable_filled_cellCands_empty
    {puzzle : List Nat} {n br bc : Nat} {g : CandidateGrid}
    (hg : Reachable puzzle n br bc g) :
    ∀ i, cellVal g i ≠ 0 → cellCands g i = [] := by
  induction hg with
  | init =>
    intro i hi
    refine initializeCandidates_cellCands_empty _ _ _ _ _ ?_
    simpa [cellVal, initializeCandidates_values] using hi
  | step g s hg ih =>
    intro i hi
    have hlen : g.candidates.length = g.values.length := by
      rw [reachable_candidates_length hg, reachable_values_length hg]
    unfold applyStep at hi ⊢
    by_cases hp :
        (s.type = TechniqueType.singleCandidate || s.type = TechniqueType.hiddenSingle : Bool)
          = true
    · rw [if_pos hp] at hi ⊢
      unfold placeValue at hi ⊢
      rw [cellVal_eliminateFromPeers] at hi
      refine eliminateFromPeers_cellCands_empty _ _ _ _ ?_
      rcases eq_or_ne (s.cells.getD 0 0) i with heq | hne
      · subst heq
        show (g.candidates.set _ []).getD _ [] = []
        by_cases hr : s.cells.getD 0 0 < g.candidates.length
        · exact getD_set_self _ _ _ _ hr
        · rw [getD_set_oob _ _ _ _ _ (by omega)]
          refine ih _ ?_
          have hv : cellVal { g with
              values := g.values.set (s.cells.getD 0 0) (s.values.getD 0 0),
              candidates := g.candidates.set (s.cells.getD 0 0) [] }
              (s.cells.getD 0 0) = cellVal g (s.cells.getD 0 0) := by
            show (g.values.set _ _).getD _ 0 = g.values.getD _ 0
            rw [List.set_eq_of_length_le (by omega)]
          rw [hv] at hi
          exact hi
      · show (g.candidates.set _ []).getD i [] = []
        have hv : cellVal g i ≠ 0 := by
          show g.values.getD i 0 ≠ 0
          have := hi
          show ¬ _
          intro hq
          apply this
          show (g.values.set _ _).getD i 0 = 0
          rw [getD_set_of_ne _ _ _ _ _ hne]
          exact hq
        rw [getD_set_of_ne _ _ _ _ _ hne]
        exact ih i hv
    · rw [if_neg hp] at hi ⊢
      cases he : s.eliminatedCandidates with
      | some elims =>
        rw [he] at hi
        exact elims_foldl_empty _ _ _ (ih i hi)
      | none =>
        rw [he] at hi
        exact ih i hi

end RetroSudoku.HS

namespace RetroSudoku.HS

/-- `applyStep` on a placement step writes the value unconditionally: no
precondition on the candidate set is checked anywhere on the path
(`applyStep` → `placeValue`). -/
lemma applyStep_places_unconditionally
    (g : CandidateGrid) (s : SolveStep) (i v : Nat)
    (ht : s.type = TechniqueType.singleCandidate ∨ s.type = TechniqueType.hiddenSingle)
    (hc : s.cells.getD 0 0 = i) (hv : s.values.getD 0 0 = v)
    (hlen : i < g.values.length) :
    cellVal (applyStep g s) i = v := by
  subst hc
  subst hv
  have hp :
      (s.type = TechniqueType.singleCandidate || s.type = TechniqueType.hiddenSingle : Bool)
        = true := by
    rcases ht with h | h <;> simp [h]
  unfold applyStep
  rw [if_pos hp]
  unfold placeValue
  rw [cellVal_eliminateFromPeers]
  exact getD_set_self _ _ _ _ hlen

end RetroSudoku.HS

/-- **C6, counterexample.**  The claim says a placement step whose target
value is absent from the target cell's candidate set fails loudly rather
than silently placing the value.  On the board `[0,2,3,4, 0,…,0]` the cell
`0` has candidate set `{1}`, yet applying a Single Candidate step that
places `3` there returns normally and silently places the `3`: `applyStep`
checks nothing. -/
theorem C6_counterexample :
    3 ∉ RetroSudoku.HS.cellCands
        (RetroSudoku.HS.initializeCandidates
          [0,2,3,4, 0,0,0,0, 0,0,0,0, 0,0,0,0] 4 2 2) 0 ∧
    RetroSudoku.HS.cellVal
      (RetroSudoku.HS.applyStep
        (RetroSudoku.HS.initializeCandidates
          [0,2,3,4, 0,0,0,0, 0,0,0,0, 0,0,0,0] 4 2 2)
        { step := 0, type := .singleCandidate, cells := [0], values := [3] }) 0 = 3 :=
  ⟨by decide, by decide⟩

/-- **C6, amended.**  Applying a placement step (Single Candidate or Hidden
Single) sets the target cell to the step's value unconditionally — even
when the value is absent from the target cell's candidate set, the step is
applied with no error and no check (silent placement, not a loud failure
and not a no-op). -/
theorem C6_amended :
    ∀ (g : RetroSudoku.HS.CandidateGrid) (s : RetroSudoku.HS.SolveStep) (i v : Nat),
      (s.type = RetroSudoku.HS.TechniqueType.singleCandidate ∨
        s.type = RetroSudoku.HS.TechniqueType.hiddenSingle) →
      s.cells.getD 0 0 = i → s.values.getD 0 0 = v →
      i < g.values.length →
      v ∉ RetroSudoku.HS.cellCands g i →
      RetroSudoku.HS.cellVal (RetroSudoku.HS.applyStep g s) i = v :=
  fun g s i v ht hc hv hlen _ =>
    RetroSudoku.HS.applyStep_places_unconditionally g s i v ht hc hv hlen

/-- **C6, witness** for the amended theorem: a Hidden Single step placing
`2` in cell `5`, whose candidate set `{1,3,4}` does not contain `2`, is
silently applied. -/
theorem C6_witness :
    (2 ∉ RetroSudoku.HS.cellCands
        (RetroSudoku.HS.initializeCandidates
          [0,2,3,4, 0,0,0,0, 0,0,0,0, 0,0,0,0] 4 2 2) 5) ∧
    RetroSudoku.HS.cellVal
      (RetroSudoku.HS.applyStep
        (RetroSudoku.HS.initializeCandidates
          [0,2,3,4, 0,0,0,0, 0,0,0,0, 0,0,0,0] 4 2 2)
        { step := 0, type := .hiddenSingle, cells := [5], values := [2] }) 5 = 2 :=
  ⟨by decide,
    C6_amended _ _ 5 2 (Or.inr rfl) rfl rfl (by decide) (by decide)⟩

/-- **C10, counterexample.**  The claim says `candidates[i]` is empty iff
`values[i] ≠ 0` on every reachable grid.  `initializeCandidates` itself
(reachable by the empty step sequence) refutes the backward direction: on
the contradictory board `[0,2,3,4, 1,0,…,0]` cell `0` is empty
(`values[0] = 0`) yet its candidate set is empty — the row gives eliminate
`2,3,4` and the column give eliminates `1`. -/
theorem C10_counterexample :
    RetroSudoku.HS.Reachable [0,2,3,4, 1,0,0,0, 0,0,0,0, 0,0,0,0] 4 2 2
      (RetroSudoku.HS.initializeCandidates [0,2,3,4, 1,0,0,0, 0,0,0,0, 0,0,0,0] 4 2 2) ∧
    RetroSudoku.HS.cellVal
      (RetroSudoku.HS.initializeCandidates [0,2,3,4, 1,0,0,0, 0,0,0,0, 0,0,0,0] 4 2 2) 0 = 0 ∧
    RetroSudoku.HS.cellCands
      (RetroSudoku.HS.initializeCandidates [0,2,3,4, 1,0,0,0, 0,0,0,0, 0,0,0,0] 4 2 2) 0 = [] :=
  ⟨RetroSudoku.HS.Reachable.init, by decide, by decide⟩

/-- **C10, amended.**  Only the forward direction of the invariant holds:
in every `CandidateGrid` reachable from `initializeCandidates` by any
sequence of applied steps, every filled cell (`values[i] ≠ 0`) has an empty
candidate set.  (The backward direction fails: an empty cell of a
contradictory board can have all its candidates eliminated at
initialization.) -/
theorem C10_amended :
    ∀ (puzzle : List Nat) (n br bc : Nat) (g : RetroSudoku.HS.CandidateGrid),
      RetroSudoku.HS.Reachable puzzle n br bc g →
      ∀ i, RetroSudoku.HS.cellVal g i ≠ 0 → RetroSudoku.HS.cellCands g i = [] :=
  fun _ _ _ _ _ hg => RetroSudoku.HS.reachable_filled_cellCands_empty hg

/-- **C10, witness** for the amended theorem: cell `1` of the same board is
filled with `2`, and its candidate set is indeed empty. -/
theorem C10_witness :
    RetroSudoku.HS.cellVal
      (RetroSudoku.HS.initializeCandidates [0,2,3,4, 1,0,0,0, 0,0,0,0, 0,0,0,0] 4 2 2) 1 ≠ 0 ∧
    RetroSudoku.HS.cellCands
      (RetroSudoku.HS.initializeCandidates [0,2,3,4, 1,0,0,0, 0,0,0,0, 0,0,0,0] 4 2 2) 1 = [] :=
  ⟨by decide,
    C10_amended [0,2,3,4, 1,0,0,0, 0,0,0,0, 0,0,0,0] 4 2 2 _
      RetroSudoku.HS.Reachable.init 1 (by decide)⟩

namespace RetroSudoku.Gen

/-- The classification if-chain of `assessDifficulty`, with its boolean
conditions restated as propositions. -/
lemma classify_bool_prop (cxw cnp chp score : Nat) :
    (if cxw > 0 || score > 150 then Difficulty.expert
     else if cnp + chp > 0 || score > 80 then Difficulty.hard
     else if score > 40 then Difficulty.medium
     else Difficulty.easy) =
    (if 0 < cxw ∨ 150 < score then Difficulty.expert
     else if 0 < cnp + chp ∨ 80 < score then Difficulty.hard
     else if 40 < score then Difficulty.medium
     else Difficulty.easy) := by
  by_cases h1 : 0 < cxw ∨ 150 < score <;>
    by_cases h2 : 0 < cnp + chp ∨ 80 < score <;>
      by_cases h3 : 40 < score <;>
        simp_all [Bool.or_eq_true, decide_eq_true_eq]

/-- Modelled from the claim sentence of C9 (spec §4.3 step 3): classify by
the engine's step list with "any pair or confinement (pointing) technique
usage" triggering Hard.  This is the rule the claim states; it is compared
against `assessDifficulty` below. -/
def claimClassify (res : HS.SolverResult) : Difficulty :=
  if !res.solved then .expert
  else
    let score := (res.techniques.map (fun st => scoreOf st.type)).sum
    if res.techniques.countP (fun st => st.type == HS.TechniqueType.xWing) > 0
        || score > 150 then .expert
    else if res.techniques.countP (fun st => st.type == HS.TechniqueType.nakedPair)
        + res.techniques.countP (fun st => st.type == HS.TechniqueType.hiddenPair)
        + res.techniques.countP (fun st => st.type == HS.TechniqueType.pointingPair) > 0
        || score > 80 then .hard
    else if score > 40 then .medium
    else .easy

/-- A 6x6 (2x3-block) board the engine solves with hidden singles, one
Pointing Pair, then naked singles: no Naked/Hidden Pair, no X-Wing,
weighted score 38. -/
def pointingOnlyBoard : List Nat :=
  [0, 0, 4, 0, 0, 3,
   2, 0, 0, 1, 0, 0,
   0, 4, 0, 0, 3, 0,
   0, 0, 0, 0, 0, 5,
   0, 0, 0, 0, 6, 0,
   5, 0, 0, 0, 0, 0]

/-- The full engine run on `pointingOnlyBoard` (checked by `rfl` below). -/
def pointingOnlyRun : HS.SolverResult :=
  { solved := true,
    solution := [6, 1, 4, 2, 5, 3, 2, 5, 3, 1, 4, 6, 1, 4, 5, 6, 3, 2, 3, 2, 6, 4, 1, 5, 4, 3, 2, 5, 6, 1, 5, 6, 1, 3, 2,
                 4],
    techniques := [{ step := 1,
                     type := RetroSudoku.HS.TechniqueType.hiddenSingle,
                     cells := [14],
                     values := [5],
                     eliminatedCandidates := none },
                   { step := 2,
                     type := RetroSudoku.HS.TechniqueType.hiddenSingle,
                     cells := [27],
                     values := [5],
                     eliminatedCandidates := none },
                   { step := 3,
                     type := RetroSudoku.HS.TechniqueType.hiddenSingle,
                     cells := [24],
                     values := [4],
                     eliminatedCandidates := none },
                   { step := 4,
                     type := RetroSudoku.HS.TechniqueType.hiddenSingle,
                     cells := [18],
                     values := [3],
                     eliminatedCandidates := none },
                   { step := 5,
                     type := RetroSudoku.HS.TechniqueType.hiddenSingle,
                     cells := [33],
                     values := [3],
                     eliminatedCandidates := none },
                   { step := 6,
                     type := RetroSudoku.HS.TechniqueType.hiddenSingle,
                     cells := [21],
                     values := [4],
                     eliminatedCandidates := none },
                   { step := 7,
                     type := RetroSudoku.HS.TechniqueType.pointingPair,
                     cells := [19, 20],
                     values := [2],
                     eliminatedCandidates := some [(22, [2])] },
                   { step := 8,
                     type := RetroSudoku.HS.TechniqueType.singleCandidate,
                     cells := [22],
                     values := [1],
                     eliminatedCandidates := none },
                   { step := 9,
                     type := RetroSudoku.HS.TechniqueType.hiddenSingle,
                     cells := [12],
                     values := [1],
                     eliminatedCandidates := none },
                   { step := 10,
                     type := RetroSudoku.HS.TechniqueType.singleCandidate,
                     cells := [0],
                     values := [6],
                     eliminatedCandidates := none },
                   { step := 11,
                     type := RetroSudoku.HS.TechniqueType.singleCandidate,
                     cells := [3],
                     values := [2],
                     eliminatedCandidates := none },
                   { step := 12,
                     type := RetroSudoku.HS.TechniqueType.singleCandidate,
                     cells := [4],
                     values := [5],
                     eliminatedCandidates := none },
                   { step := 13,
                     type := RetroSudoku.HS.TechniqueType.singleCandidate,
                     cells := [1],
                     values := [1],
                     eliminatedCandidates := none },
                   { step := 14,
                     type := RetroSudoku.HS.TechniqueType.singleCandidate,
                     cells := [8],
                     values := [3],
                     eliminatedCandidates := none },
                   { step := 15,
                     type := RetroSudoku.HS.TechniqueType.singleCandidate,
                     cells := [7],
                     values := [5],
                     eliminatedCandidates := none },
                   { step := 16,
                     type := RetroSudoku.HS.TechniqueType.singleCandidate,
                     cells := [10],
                     values := [4],
                     eliminatedCandidates := none },
                   { step := 17,
                     type := RetroSudoku.HS.TechniqueType.singleCandidate,
                     cells := [11],
                     values := [6],
                     eliminatedCandidates := none },
                   { step := 18,
                     type := RetroSudoku.HS.TechniqueType.singleCandidate,
                     cells := [15],
                     values := [6],
                     eliminatedCandidates := none },
                   { step := 19,
                     type := RetroSudoku.HS.TechniqueType.singleCandidate,
                     cells := [17],
                     values := [2],
                     eliminatedCandidates := none },
                   { step := 20,
                     type := RetroSudoku.HS.TechniqueType.singleCandidate,
                     cells := [29],
                     values := [1],
                     eliminatedCandidates := none },
                   { step := 21,
                     type := RetroSudoku.HS.TechniqueType.singleCandidate,
                     cells := [26],
                     values := [2],
                     eliminatedCandidates := none },
                   { step := 22,
                     type := RetroSudoku.HS.TechniqueType.singleCandidate,
                     cells := [20],
                     values := [6],
                     eliminatedCandidates := none },
                   { step := 23,
                     type := RetroSudoku.HS.TechniqueType.singleCandidate,
                     cells := [19],
                     values := [2],
                     eliminatedCandidates := none },
                   { step := 24,
                     type := RetroSudoku.HS.TechniqueType.singleCandidate,
                     cells := [25],
                     values := [3],
                     eliminatedCandidates := none },
                   { step := 25,
                     type := RetroSudoku.HS.TechniqueType.singleCandidate,
                     cells := [31],
                     values := [6],
                     eliminatedCandidates := none },
                   { step := 26,
                     type := RetroSudoku.HS.TechniqueType.singleCandidate,
                     cells := [32],
                     values := [1],
                     eliminatedCandidates := none },
                   { step := 27,
                     type := RetroSudoku.HS.TechniqueType.singleCandidate,
                     cells := [34],
                     values := [2],
                     eliminatedCandidates := none },
                   { step := 28,
                     type := RetroSudoku.HS.TechniqueType.singleCandidate,
                     cells := [35],
                     values := [4],
                     eliminatedCandidates := none }] }

lemma pointingOnlyRun_eq :
    HS.solveWithSteps pointingOnlyBoard 6 2 3 = pointingOnlyRun := by rfl

end RetroSudoku.Gen

/-- **C9, counterexample.**  The claim says `assessDifficulty` classifies by
the stated rule, in which any confinement (pointing) usage gives Hard.  On
`pointingOnlyBoard` the engine solves using a Pointing Pair, no pairs, no
X-Wing, score 38: the code classifies Easy (its `hasIntermediate` counts
only Naked/Hidden Pair), while the claimed rule gives Hard. -/
theorem C9_counterexample :
    (RetroSudoku.Gen.assessDifficulty RetroSudoku.Gen.pointingOnlyBoard 6 2 3).1 =
      RetroSudoku.Gen.Difficulty.easy ∧
    RetroSudoku.Gen.claimClassify
      (RetroSudoku.HS.solveWithSteps RetroSudoku.Gen.pointingOnlyBoard 6 2 3) =
      RetroSudoku.Gen.Difficulty.hard := by
  constructor
  · show (RetroSudoku.Gen.assessDifficulty _ 6 2 3).1 = _
    unfold RetroSudoku.Gen.assessDifficulty
    rw [RetroSudoku.Gen.pointingOnlyRun_eq]
    decide
  · rw [RetroSudoku.Gen.pointingOnlyRun_eq]
    decide

/-- **C9, amended.**  `assessDifficulty` classifies exactly by the code's
rule applied to the engine's step list: unsolved ⇒ Expert; otherwise any
X-Wing usage or weighted score > 150 ⇒ Expert; otherwise any Naked-Pair or
Hidden-Pair usage (Pointing-Pair usage does *not* count) or score > 80 ⇒
Hard; otherwise score > 40 ⇒ Medium; else Easy. -/
theorem C9_amended :
    ∀ (p : List Nat) (n br bc : Nat),
      (RetroSudoku.Gen.assessDifficulty p n br bc).1 =
        (let res := RetroSudoku.HS.solveWithSteps p n br bc
         let score := (res.techniques.map (fun st => RetroSudoku.Gen.scoreOf st.type)).sum
         if res.solved = false then RetroSudoku.Gen.Difficulty.expert
         else if 0 < res.techniques.countP
                (fun st => st.type == RetroSudoku.HS.TechniqueType.xWing) ∨ 150 < score then
           RetroSudoku.Gen.Difficulty.expert
         else if 0 < res.techniques.countP
                  (fun st => st.type == RetroSudoku.HS.TechniqueType.nakedPair)
                + res.techniques.countP
                  (fun st => st.type == RetroSudoku.HS.TechniqueType.hiddenPair) ∨
              80 < score then
           RetroSudoku.Gen.Difficulty.hard
         else if 40 < score then RetroSudoku.Gen.Difficulty.medium
         else RetroSudoku.Gen.Difficulty.easy) := by
  intro p n br bc
  unfold RetroSudoku.Gen.assessDifficulty
  dsimp only
  cases hres : (RetroSudoku.HS.solveWithSteps p n br bc).solved
  · simp [hres]
  · simp only [hres, Bool.not_true, Bool.false_eq_true, if_false, if_true]
    exact RetroSudoku.Gen.classify_bool_prop _ _ _ _

/-- **C4.**  `generatePuzzle` is deterministic in its seed: with a seed
supplied, the result does not depend on the `Date.now()` clock value (the
only non-deterministic input), so two invocations with identical arguments
are identical — the pseudo-random state evolves purely from the supplied
seed. -/
theorem C4_seed_determinism :
    ∀ (clock1 clock2 : Nat) (config : RetroSudoku.Gen.PuzzleConfig)
      (difficulty : RetroSudoku.Gen.Difficulty) (symmetry : RetroSudoku.Gen.Symmetry)
      (seed : Nat) (targetGivens : Option Nat),
      RetroSudoku.Gen.generatePuzzle clock1 config difficulty symmetry (some seed) targetGivens =
        RetroSudoku.Gen.generatePuzzle clock2 config difficulty symmetry (some seed) targetGivens :=
  fun _ _ _ _ _ _ _ => rfl


namespace RetroSudoku.DLX

/-! ### Exact-cover analysis of the search -/

/-- `rl` covers every live column exactly once (the defining property of a
recorded solution's rows). -/
def ExactCoverList (cols : List Nat) (rl : List DRow) : Prop :=
  ∀ c ∈ cols, rl.countP (fun r => r.cols.contains c) = 1

lemma mem_coverCols {cols : List Nat} {r : DRow} {c : Nat} :
    c ∈ coverCols cols r ↔ c ∈ cols ∧ c ∉ r.cols := by
  simp [coverCols, List.mem_filter]

lemma mem_coverRows {rows : List DRow} {r r2 : DRow} :
    r2 ∈ coverRows rows r ↔ r2 ∈ rows ∧ ∀ c ∈ r2.cols, c ∉ r.cols := by
  simp [coverRows, List.mem_filter, List.all_eq_true]

/-- Soundness of the branching loop, parameterized by the recursive call's
soundness property. -/
lemma searchRows_sound
    (cols : List Nat) (rows : List DRow)
    (go : List Nat → List DRow → List Nat → SState → SState × Bool)
    (part : List Nat)
    (P : List Nat → List DRow → List Nat → List Nat → Prop)
    (hgo : ∀ cols2 rows2 part2 st sol, sol ∈ (go cols2 rows2 part2 st).1.solutions →
      sol ∈ st.solutions ∨ P cols2 rows2 part2 sol) :
    ∀ brs st sol, sol ∈ (searchRows cols rows go part brs st).1.solutions →
      sol ∈ st.solutions ∨
      ∃ r ∈ brs, P (coverCols cols r) (coverRows rows r) (part ++ [r.id]) sol := by
  intro brs
  induction brs with
  | nil => intro st sol h; exact Or.inl h
  | cons r rs ih =>
    intro st sol h
    rw [searchRows] at h
    by_cases hstop : (go (coverCols cols r) (coverRows rows r) (part ++ [r.id]) st).2 = true
    · rw [if_pos hstop] at h
      rcases hgo _ _ _ _ _ h with h | h
      · exact Or.inl h
      · exact Or.inr ⟨r, List.mem_cons_self .., h⟩
    · rw [if_neg hstop] at h
      rcases ih _ _ h with h | ⟨r2, hr2, h⟩
      · rcases hgo _ _ _ _ _ h with h | h
        · exact Or.inl h
        · exact Or.inr ⟨r, List.mem_cons_self .., h⟩
      · exact Or.inr ⟨r2, List.mem_cons_of_mem _ hr2, h⟩

/-- Soundness of `search`: every solution it records beyond those already
present is `part` followed by the ids of a list of live rows that covers
every live column exactly once. -/
lemma search_sound : ∀ (fuel : Nat) (cols : List Nat) (rows : List DRow) (limit : Nat)
    (part : List Nat) (st : SState) (sol : List Nat),
    sol ∈ (search fuel cols rows limit part st).1.solutions →
    sol ∈ st.solutions ∨
    ∃ rl : List DRow, sol = part ++ rl.map DRow.id ∧ (∀ r ∈ rl, r ∈ rows) ∧
      ExactCoverList cols rl := by
  intro fuel
  induction fuel with
  | zero => intro cols rows limit part st sol h; exact Or.inl h
  | succ fuel ih =>
    intro cols rows limit part st sol h
    cases cols with
    | nil =>
      rw [search] at h
      rcases List.mem_append.mp h with h | h
      · exact Or.inl h
      · refine Or.inr ⟨[], ?_, by simp, by simp [ExactCoverList]⟩
        simpa using List.mem_singleton.mp h
    | cons c cs =>
      rw [search] at h
      by_cases hz : colSize rows (pickMinCol rows c cs) = 0
      · rw [if_pos hz] at h
        exact Or.inl h
      · rw [if_neg hz] at h
        rcases searchRows_sound (c :: cs) rows _ part
            (fun cols2 rows2 part2 sol =>
              ∃ rl : List DRow, sol = part2 ++ rl.map DRow.id ∧
                (∀ r ∈ rl, r ∈ rows2) ∧ ExactCoverList cols2 rl)
            (fun cols2 rows2 part2 st2 sol2 hs =>
              ih cols2 rows2 limit part2 st2 sol2 hs)
            _ _ _ h with h | ⟨r, hrbr, rl, hsol, hmem, hcov⟩
        · exact Or.inl h
        · have hr : r ∈ rows := (List.mem_filter.mp hrbr).1
          refine Or.inr ⟨r :: rl, ?_, ?_, ?_⟩
          · simpa using hsol
          · intro r2 hr2
            rcases List.mem_cons.mp hr2 with rfl | hr2
            · exact hr
            · exact (mem_coverRows.mp (hmem r2 hr2)).1
          · intro c2 hc2
            rw [List.countP_cons]
            by_cases hcr : c2 ∈ r.cols
            · have h0 : List.countP (fun r2 => r2.cols.contains c2) rl = 0 := by
                rw [List.countP_eq_zero]
                intro r2 hr2
                have h2 := (mem_coverRows.mp (hmem r2 hr2)).2
                simp only [List.elem_iff, decide_eq_true_eq]
                exact fun hmem2 => h2 c2 hmem2 hcr
              rw [h0]
              simp [List.elem_iff, hcr]
            · have hc2' : c2 ∈ coverCols (c :: cs) r := mem_coverCols.mpr ⟨hc2, hcr⟩
              have h1 := hcov c2 hc2'
              rw [h1]
              simp [List.elem_iff, hcr]

end RetroSudoku.DLX

namespace RetroSudoku.DLX

lemma setGetD_ne {α : Type} (l : List α) (i j : Nat) (a d : α) (h : i ≠ j) :
    (l.set i a).getD j d = l.getD j d := by
  simp [List.getD_eq_getElem?_getD, List.getElem?_set_ne h]

lemma setGetD_lt {α : Type} (l : List α) (i : Nat) (a d : α) (h : i < l.length) :
    (l.set i a).getD i d = a := by
  simp [List.getD_eq_getElem?_getD, List.getElem?_set_self h]

/-- Shape of the rows `buildMatrix` constructs, under the Board invariant
that all values are at most `n`. -/
lemma mem_buildMatrix {n br bc : Nat} {puzzle : List Nat} {r : DRow}
    (hv : ∀ v ∈ puzzle, v ≤ n)
    (h : r ∈ buildMatrix n br bc puzzle) :
    ∃ row col num, row < n ∧ col < n ∧ 1 ≤ num ∧ num ≤ n ∧
      (puzzle.getD (row * n + col) 0 > 0 → num = puzzle.getD (row * n + col) 0) ∧
      r = ⟨(row * n + col) * n + num - 1, getConstraints n br bc row col num⟩ := by
  unfold buildMatrix at h
  rcases List.mem_flatMap.mp h with ⟨row, hrow, h⟩
  rcases List.mem_flatMap.mp h with ⟨col, hcol, h⟩
  rcases List.mem_map.mp h with ⟨num, hnum, h⟩
  by_cases hg : puzzle.getD (row * n + col) 0 > 0
  · rw [if_pos hg] at hnum
    have he : num = puzzle.getD (row * n + col) 0 := List.mem_singleton.mp hnum
    have hlt : row * n + col < puzzle.length := by
      by_contra hge
      rw [List.getD_eq_default _ _ (by omega)] at hg
      omega
    have hle : puzzle.getD (row * n + col) 0 ≤ n := by
      rw [List.getD_eq_getElem _ _ hlt]
      exact hv _ (List.getElem_mem hlt)
    exact ⟨row, col, num, List.mem_range.mp hrow, List.mem_range.mp hcol,
      by omega, by omega, fun _ => he, h.symm⟩
  · rw [if_neg hg] at hnum
    have hb := List.mem_range'_1.mp hnum
    exact ⟨row, col, num, List.mem_range.mp hrow, List.mem_range.mp hcol,
      hb.1, by omega, fun hgt => absurd hgt hg, h.symm⟩

/-- Row-id arithmetic: the decoded cell and value of `rowId = cell*n+num-1`. -/
lemma rowId_div_mod {n cell num : Nat} (hn : 0 < n) (h1 : 1 ≤ num) (h2 : num ≤ n) :
    (cell * n + num - 1) / n = cell ∧ (cell * n + num - 1) % n = num - 1 := by
  have he : cell * n + num - 1 = n * cell + (num - 1) := by
    have : cell * n = n * cell := Nat.mul_comm ..
    omega
  rw [he]
  constructor
  · rw [Nat.mul_add_div hn, Nat.div_eq_of_lt (by omega)]
    omega
  · rw [Nat.mul_add_mod, Nat.mod_eq_of_lt (by omega)]


lemma getD_set_getD {α : Type} (l : List α) (i : Nat) (v d : α) :
    (l.set i v).getD i d = v ∨ (l.set i v).getD i d = l.getD i d := by
  by_cases hi : i < l.length
  · exact Or.inl (setGetD_lt _ _ _ _ hi)
  · rw [List.set_eq_of_length_le (by omega)]
    exact Or.inr rfl

/-- The decoding fold never changes a position all of whose writers write
the value already there. -/
lemma applyRows_getD_eq (n : Nat) (target : Nat) :
    ∀ (ids : List Nat) (res : List Nat) (k : Nat),
      (∀ id ∈ ids, id / n = k → id % n + 1 = target) →
      res.getD k 0 = target →
      (applyRows n res ids).getD k 0 = target := by
  intro ids
  induction ids with
  | nil => intro res k _ h0; exact h0
  | cons id rest ih =>
    intro res k hw h0
    show (applyRows n (res.set (id / n) (id % n + 1)) rest).getD k 0 = target
    refine ih _ _ (fun id2 h2 => hw id2 (List.mem_cons_of_mem _ h2)) ?_
    by_cases hk : id / n = k
    · rw [hk]
      rcases getD_set_getD res k (id % n + 1) 0 with h | h <;> rw [h]
      · exact hw id (List.mem_cons_self ..) hk
      · exact h0
    · rw [setGetD_ne _ _ _ _ _ hk]
      exact h0

/-- `solve` (with the default `findAll = false`, hence solution limit 2)
unfolds to a match on the recorded solutions. -/
lemma solve_eq (n br bc : Nat) (puzzle : List Nat) :
    solve n br bc puzzle =
      (match (search (4 * n * n + 1) (List.range (4 * n * n))
          (buildMatrix n br bc puzzle) 2 [] ⟨[], 0⟩).1.solutions with
      | [] => ⟨false, [], 0⟩
      | sol :: _ =>
        ⟨true, applyRows n puzzle sol,
          (search (4 * n * n + 1) (List.range (4 * n * n))
            (buildMatrix n br bc puzzle) 2 [] ⟨[], 0⟩).1.count⟩) := rfl

/-- The mutual non-conflict predicate on a board's pre-filled cells: no two
distinct givens sharing a row, column or box hold the same value. -/
def NonConflicting (n br bc : Nat) (puzzle : List Nat) : Prop :=
  ∀ i ∈ List.range (n * n), ∀ j ∈ List.range (n * n),
    i ≠ j → puzzle.getD i 0 ≠ 0 → puzzle.getD j 0 ≠ 0 →
    (i / n = j / n ∨ i % n = j % n ∨
      getBox n br bc (i / n) (i % n) = getBox n br bc (j / n) (j % n)) →
    puzzle.getD i 0 ≠ puzzle.getD j 0

instance (n br bc : Nat) (puzzle : List Nat) :
    Decidable (NonConflicting n br bc puzzle) := by
  unfold NonConflicting
  infer_instance

end RetroSudoku.DLX

namespace RetroSudoku.DLX

lemma two_mem_countP {α : Type} (l : List α) (p : α → Bool) (a b : α)
    (ha : a ∈ l) (hb : b ∈ l) (hab : a ≠ b) (hpa : p a = true) (hpb : p b = true) :
    2 ≤ l.countP p := by
  rw [List.countP_eq_length_filter]
  have ha2 : a ∈ l.filter p := List.mem_filter.mpr ⟨ha, hpa⟩
  have hb2 : b ∈ l.filter p := List.mem_filter.mpr ⟨hb, hpb⟩
  rcases hfil : l.filter p with _ | ⟨x, _ | ⟨y, t⟩⟩
  · rw [hfil] at ha2; simp at ha2
  · rw [hfil] at ha2 hb2
    rw [List.mem_singleton.mp ha2, List.mem_singleton.mp hb2] at hab
    exact absurd rfl hab
  · simp

lemma countP_eq_one_unique {α : Type} {l : List α} {p : α → Bool} (h : l.countP p = 1) :
    ∃ a ∈ l, p a = true ∧ ∀ b ∈ l, p b = true → b = a := by
  have hpos : 0 < l.countP p := by omega
  rcases List.countP_pos_iff.mp hpos with ⟨a, ha, hpa⟩
  refine ⟨a, ha, hpa, fun b hb hpb => ?_⟩
  by_contra hne
  have h2 := two_mem_countP l p a b ha hb (fun he => hne (he ▸ rfl)) hpa hpb
  omega

/-- Cell/position arithmetic for `row * n + col` with `col < n`. -/
lemma cell_decomp {n row col : Nat} (hn : 0 < n) (hcol : col < n) :
    (row * n + col) / n = row ∧ (row * n + col) % n = col := by
  have he : row * n + col = n * row + col := by
    have : row * n = n * row := Nat.mul_comm ..
    omega
  rw [he]
  constructor
  · rw [Nat.mul_add_div hn, Nat.div_eq_of_lt hcol]
    omega
  · rw [Nat.mul_add_mod, Nat.mod_eq_of_lt hcol]

/-- A column id below `n²` lies in a matrix row exactly when it is that
row's cell constraint. -/
lemma mem_cols_lt_nsq {n br bc row col num c : Nat} (hc : c < n * n)
    (h1 : 1 ≤ num)
    (hin : c ∈ getConstraints n br bc row col num) :
    c = row * n + col := by
  unfold getConstraints at hin
  simp only [List.mem_cons, List.mem_singleton] at hin
  have e2 : 2 * n * n = n * n + n * n := by ring
  have e3 : 3 * n * n = n * n + n * n + n * n := by ring
  rcases hin with h | h | h | h
  · omega
  · omega
  · rw [e2] at h; omega
  · simp only [List.not_mem_nil, or_false] at h
    rw [e3] at h; omega

end RetroSudoku.DLX

/-- **C7.**  For every board whose pre-filled cells are mutually
non-conflicting and on which `solve` reports `solved = true`, the returned
solution agrees with the board at every given cell: the only matrix row of
a given cell is its fixed value, so decoding rewrites the cell with its own
value.  (The non-conflict hypothesis mirrors the claim; the agreement holds
for every board.) -/
theorem C7_given_cells_preserved :
    ∀ (n br bc : Nat) (puzzle : List Nat) (i : Nat),
      0 < n → (∀ v ∈ puzzle, v ≤ n) →
      RetroSudoku.DLX.NonConflicting n br bc puzzle →
      (RetroSudoku.DLX.solve n br bc puzzle).solved = true →
      puzzle.getD i 0 ≠ 0 →
      (RetroSudoku.DLX.solve n br bc puzzle).solution.getD i 0 = puzzle.getD i 0 := by
  intro n br bc puzzle i hn hv _ hs hg
  rw [RetroSudoku.DLX.solve_eq] at hs ⊢
  cases hsols : (RetroSudoku.DLX.search (4 * n * n + 1) (List.range (4 * n * n))
      (RetroSudoku.DLX.buildMatrix n br bc puzzle) 2 []
      ⟨[], 0⟩).1.solutions with
  | nil => rw [hsols] at hs; simp at hs
  | cons sol tail =>
    show (RetroSudoku.DLX.applyRows n puzzle sol).getD i 0 = puzzle.getD i 0
    have hmem : sol ∈ (RetroSudoku.DLX.search (4 * n * n + 1) (List.range (4 * n * n))
        (RetroSudoku.DLX.buildMatrix n br bc puzzle) 2 []
        ⟨[], 0⟩).1.solutions := by
      rw [hsols]; exact List.mem_cons_self ..
    rcases RetroSudoku.DLX.search_sound _ _ _ _ _ _ _ hmem with h | ⟨rl, hsol2, hrows, _⟩
    · simp at h
    · rw [hsol2]
      simp only [List.nil_append]
      refine RetroSudoku.DLX.applyRows_getD_eq n (puzzle.getD i 0) _ _ _ ?_ rfl
      intro id hid hdiv
      rcases List.mem_map.mp hid with ⟨r, hr, rfl⟩
      rcases RetroSudoku.DLX.mem_buildMatrix hv (hrows r hr) with
        ⟨row, col, num, hrow, hcol, h1, h2, hgiv, hre⟩
      rw [hre] at hdiv ⊢
      show ((row * n + col) * n + num - 1) % n + 1 = puzzle.getD i 0
      obtain ⟨hdiv2, hmod2⟩ :=
        @RetroSudoku.DLX.rowId_div_mod n (row * n + col) num hn h1 h2
      rw [hdiv2] at hdiv
      rw [hmod2]
      rw [hdiv] at hgiv
      have := hgiv (by omega)
      omega

/-- **C8.**  A board with two distinct given cells in the same row holding
the same (nonzero) value is unsatisfiable, and `solve` returns the ordinary
failure value `{solved := false, solution := [], solutionCount := 0}` — the
two cells' only matrix rows both claim the same row-value constraint
column, so no exact cover exists and the search records nothing. -/
theorem C8_duplicate_given_unsat :
    ∀ (n br bc : Nat) (puzzle : List Nat) (i j v : Nat),
      0 < n → (∀ w ∈ puzzle, w ≤ n) →
      i < n * n → j < n * n → i ≠ j → i / n = j / n →
      puzzle.getD i 0 = v → puzzle.getD j 0 = v → 0 < v →
      RetroSudoku.DLX.solve n br bc puzzle = ⟨false, [], 0⟩ := by
  intro n br bc puzzle i j v hn hv hi hj hij hrow hgi hgj hvpos
  rw [RetroSudoku.DLX.solve_eq]
  cases hsols : (RetroSudoku.DLX.search (4 * n * n + 1) (List.range (4 * n * n))
      (RetroSudoku.DLX.buildMatrix n br bc puzzle) 2 []
      ⟨[], 0⟩).1.solutions with
  | nil => rfl
  | cons sol tail =>
    exfalso
    have hmem : sol ∈ (RetroSudoku.DLX.search (4 * n * n + 1) (List.range (4 * n * n))
        (RetroSudoku.DLX.buildMatrix n br bc puzzle) 2 []
        ⟨[], 0⟩).1.solutions := by
      rw [hsols]; exact List.mem_cons_self ..
    rcases RetroSudoku.DLX.search_sound _ _ _ _ _ _ _ hmem with h | ⟨rl, _, hrows, hcov⟩
    · simp at h
    have hvn : v ≤ n := by
      have hil : i < puzzle.length := by
        by_contra hge
        rw [List.getD_eq_default _ _ (by omega)] at hgi
        omega
      rw [List.getD_eq_getElem _ _ hil] at hgi
      exact hgi ▸ hv _ (List.getElem_mem hil)
    -- the unique matrix row on a given cell's cell-constraint column
    have hcell : ∀ k : Nat, k < n * n → puzzle.getD k 0 = v →
        ∃ r ∈ rl, r.id = k * n + v - 1 ∧
          (n * n + (k / n) * n + v - 1) ∈ r.cols := by
      intro k hk hgk
      have hkcol : (k : Nat) ∈ List.range (4 * n * n) := by
        apply List.mem_range.mpr
        have e4 : 4 * n * n = n * n + n * n + n * n + n * n := by ring
        omega
      have h1 := hcov k hkcol
      have hpos : 0 < rl.countP (fun r => r.cols.contains k) := by omega
      rcases List.countP_pos_iff.mp hpos with ⟨r, hr, hpk⟩
      rcases RetroSudoku.DLX.mem_buildMatrix hv (hrows r hr) with
        ⟨row, col, num, hrowlt, hcollt, hn1, hn2, hgiv, hre⟩
      have hkin : (k : Nat) ∈ r.cols := by
        rw [List.elem_iff] at hpk; exact hpk
      rw [hre] at hkin
      have hkc : k = row * n + col :=
        RetroSudoku.DLX.mem_cols_lt_nsq (by omega) hn1 hkin
      have hnum : num = v := by
        have := hgiv (by rw [← hkc]; omega)
        rw [← hkc, hgk] at this
        exact this
      refine ⟨r, hr, ?_, ?_⟩
      · rw [hre, ← hkc, hnum]
      · rw [hre, hnum]
        have hdk : k / n = row := by
          rw [hkc]
          exact (RetroSudoku.DLX.cell_decomp hn hcollt).1
        rw [hdk]
        unfold RetroSudoku.DLX.getConstraints
        simp
    rcases hcell i hi hgi with ⟨ri, hri, hidi, hci⟩
    rcases hcell j hj hgj with ⟨rj, hrj, hidj, hcj⟩
    have hne : ri ≠ rj := by
      intro he
      apply hij
      have : ri.id = rj.id := by rw [he]
      rw [hidi, hidj] at this
      have d1 := (@RetroSudoku.DLX.rowId_div_mod n i v hn hvpos hvn).1
      have d2 := (@RetroSudoku.DLX.rowId_div_mod n j v hn hvpos hvn).1
      rw [← d1, ← d2, this]
    -- the shared row-value constraint column is covered twice
    have hcmem : (n * n + (i / n) * n + v - 1) ∈ List.range (4 * n * n) := by
      apply List.mem_range.mpr
      have hdiv : i / n < n := by
        rw [Nat.div_lt_iff_lt_mul hn]
        omega
      have hm1 : (i / n) * n ≤ (n - 1) * n := Nat.mul_le_mul_right _ (by omega)
      have hm2 : (n - 1) * n = n * n - n := by rw [Nat.sub_mul, one_mul]
      have hm3 : n ≤ n * n := Nat.le_mul_of_pos_left n hn
      have e4 : 4 * n * n = n * n + n * n + n * n + n * n := by ring
      omega
    have h1 := hcov _ hcmem
    have h2 := RetroSudoku.DLX.two_mem_countP rl
      (fun r => r.cols.contains (n * n + (i / n) * n + v - 1)) ri rj hri hrj hne
      (by rw [List.elem_iff]; exact hci)
      (by rw [List.elem_iff]; rw [hrow] at hci ⊢; exact hcj)
    omega



namespace RetroSudoku.DLX

lemma countP_add_disjoint {α : Type} (p q : α → Bool) :
    ∀ (l : List α), (∀ a ∈ l, ¬(p a = true ∧ q a = true)) →
      l.countP p + l.countP q = l.countP (fun a => p a || q a) := by
  intro l
  induction l with
  | nil => intro _; rfl
  | cons a l ih =>
    intro h
    have hd := h a (List.mem_cons_self ..)
    rw [List.countP_cons, List.countP_cons, List.countP_cons,
      ← ih (fun b hb => h b (List.mem_cons_of_mem _ hb))]
    by_cases hp : p a = true <;> by_cases hq : q a = true <;>
      simp [hp, hq] at hd ⊢ <;> omega

lemma countP_eq_sum_map {α : Type} (p : α → Bool) :
    ∀ (l : List α), l.countP p = (l.map (fun a => if p a then 1 else 0)).sum := by
  intro l
  induction l with
  | nil => rfl
  | cons a l ih =>
    rw [List.countP_cons, List.map_cons, List.sum_cons, ih]
    omega

/-- Exchange a sum of per-key counts for a single count over key
membership, for a duplicate-free key list. -/
lemma sum_countP_by_key {α : Type} (f : α → Nat) (q : α → Bool) (l : List α) :
    ∀ (ks : List Nat), ks.Nodup →
      (ks.map (fun k => l.countP (fun a => f a == k && q a))).sum =
        l.countP (fun a => ks.contains (f a) && q a) := by
  intro ks
  induction ks with
  | nil =>
    intro _
    simp [List.countP_eq_zero]
  | cons k ks ih =>
    intro hnd
    rw [List.map_cons, List.sum_cons, ih hnd.of_cons]
    rw [countP_add_disjoint]
    · apply List.countP_congr
      intro a _
      by_cases h1 : f a = k <;> by_cases h2 : q a = true <;>
        simp [h1, h2, List.elem_iff]
    · intro a _
      simp only [Bool.and_eq_true, beq_iff_eq, List.elem_iff, decide_eq_true_eq,
        not_and, and_imp]
      intro hfk _ hmem _
      rw [hfk] at hmem
      exact (List.nodup_cons.mp hnd).1 hmem

lemma nodup_rowIndices (row n : Nat) : (RetroSudoku.HS.getRowIndices row n).Nodup := by
  unfold RetroSudoku.HS.getRowIndices
  exact (List.nodup_range n).map (fun a b h => by omega)

lemma nodup_colIndices (col n : Nat) (hn : 0 < n) :
    (RetroSudoku.HS.getColIndices col n).Nodup := by
  unfold RetroSudoku.HS.getColIndices
  refine (List.nodup_range n).map (fun a b h => ?_)
  have : a * n = b * n := by omega
  exact Nat.eq_of_mul_eq_mul_right hn this

lemma mem_rowIndices {row n k : Nat} :
    k ∈ RetroSudoku.HS.getRowIndices row n ↔ ∃ c < n, k = row * n + c := by
  unfold RetroSudoku.HS.getRowIndices
  simp only [List.mem_map, List.mem_range]
  constructor
  · rintro ⟨c, hc, rfl⟩; exact ⟨c, hc, rfl⟩
  · rintro ⟨c, hc, rfl⟩; exact ⟨c, hc, rfl⟩

lemma mem_colIndices {col n k : Nat} :
    k ∈ RetroSudoku.HS.getColIndices col n ↔ ∃ r < n, k = r * n + col := by
  unfold RetroSudoku.HS.getColIndices
  simp only [List.mem_map, List.mem_range]
  constructor
  · rintro ⟨r, hr, rfl⟩; exact ⟨r, hr, rfl⟩
  · rintro ⟨r, hr, rfl⟩; exact ⟨r, hr, rfl⟩

end RetroSudoku.DLX

namespace RetroSudoku.DLX

lemma offset_lt {n x y : Nat} (hx : x < n) (hy : y < n) : x * n + y < n * n := by
  have h1 : (x + 1) * n ≤ n * n := mul_le_mul_right' (by omega) n
  have h2 : (x + 1) * n = x * n + n := by ring
  omega

lemma offset_inj {n x y x2 y2 : Nat} (hn : 0 < n) (hy : y < n) (hy2 : y2 < n)
    (he : x * n + y = x2 * n + y2) : x = x2 ∧ y = y2 := by
  have d1 := @cell_decomp n x y hn hy
  have d2 := @cell_decomp n x2 y2 hn hy2
  constructor
  · rw [← d1.1, ← d2.1, he]
  · rw [← d1.2, ← d2.2, he]

lemma ndivbc {n br bc : Nat} (hbc : 0 < bc) (hsz : br * bc = n) : n / bc = br := by
  rw [← hsz, Nat.mul_div_cancel _ hbc]

lemma getBox_lt {n br bc row col : Nat} (hbr : 0 < br) (hbc : 0 < bc)
    (hsz : br * bc = n) (hrow : row < n) (hcol : col < n) :
    getBox n br bc row col < n := by
  unfold getBox
  rw [ndivbc hbc hsz]
  have h1 : row / br < bc := by
    rw [Nat.div_lt_iff_lt_mul hbr]
    have : bc * br = n := by rw [Nat.mul_comm]; exact hsz
    omega
  have h2 : col / bc < br := by
    rw [Nat.div_lt_iff_lt_mul hbc]
    omega
  have h3 : (row / br + 1) * br ≤ bc * br := mul_le_mul_right' (by omega) br
  have h4 : (row / br + 1) * br = row / br * br + br := by ring
  have h5 : bc * br = n := by rw [Nat.mul_comm]; exact hsz
  omega

/-- A cell lies in box `B`'s index list iff `getBox` assigns it box `B`. -/
lemma cell_mem_boxIndices {n br bc B row col : Nat} (hbr : 0 < br) (hbc : 0 < bc)
    (hsz : br * bc = n) (hrow : row < n) (hcol : col < n) :
    ((row * n + col) ∈ RetroSudoku.HS.getBoxIndices B n br bc) ↔
      getBox n br bc row col = B := by
  have hn : 0 < n := by omega
  have hbpr : n / bc = br := ndivbc hbc hsz
  have hbcbr : bc * br = n := by rw [Nat.mul_comm]; exact hsz
  unfold RetroSudoku.HS.getBoxIndices
  rw [hbpr]
  simp only [List.mem_flatMap, List.mem_map, List.mem_range]
  constructor
  · rintro ⟨dr, hdr, dc, hdc, he⟩
    have hclt : B % br * bc + dc < n := by
      have h1 : B % br < br := Nat.mod_lt _ hbr
      have h2 : (B % br + 1) * bc ≤ br * bc := mul_le_mul_right' (by omega) bc
      have h3 : (B % br + 1) * bc = B % br * bc + bc := by ring
      omega
    have he2 : (B / br * br + dr) * n + (B % br * bc + dc) = row * n + col := by
      omega
    obtain ⟨hr, hc⟩ := offset_inj hn hclt hcol he2
    unfold getBox
    rw [hbpr, ← hr, ← hc]
    have d1 : (B / br * br + dr) / br = B / br :=
      (@cell_decomp br (B / br) dr hbr hdr).1
    have d2 : (B % br * bc + dc) / bc = B % br :=
      (@cell_decomp bc (B % br) dc hbc hdc).1
    rw [d1, d2]
    rw [Nat.mul_comm (B / br) br]
    exact Nat.div_add_mod B br
  · intro hB
    unfold getBox at hB
    rw [hbpr] at hB
    have hclt : col / bc < br := by
      rw [Nat.div_lt_iff_lt_mul hbc]
      omega
    have hd := @cell_decomp br (row / br) (col / bc) hbr hclt
    refine ⟨row % br, Nat.mod_lt _ hbr, col % bc, Nat.mod_lt _ hbc, ?_⟩
    have hB1 : B / br = row / br := by rw [← hB]; exact hd.1
    have hB2 : B % br = col / bc := by rw [← hB]; exact hd.2
    rw [hB1, hB2]
    have e1 : row / br * br + row % br = row := by
      rw [Nat.mul_comm (row / br) br]
      exact Nat.div_add_mod row br
    have e2 : col / bc * bc + col % bc = col := by
      rw [Nat.mul_comm (col / bc) bc]
      exact Nat.div_add_mod col bc
    rw [e1, e2]

/-- Membership of a row-value constraint column in a candidate row's
constraint list. -/
lemma mem_constraints_rowcol {n br bc row col num R v : Nat}
    (hn : 0 < n) (hrow : row < n) (hcol : col < n)
    (h1 : 1 ≤ num) (h2 : num ≤ n) (hR : R < n) (hv1 : 1 ≤ v) (hv2 : v ≤ n) :
    ((n * n + R * n + v - 1) ∈ getConstraints n br bc row col num) ↔
      (row = R ∧ num = v) := by
  have hc1 : row * n + col < n * n := offset_lt hrow hcol
  have hc2 : row * n + (num - 1) < n * n := offset_lt hrow (by omega)
  have hc2R : R * n + (v - 1) < n * n := offset_lt hR (by omega)
  have hc3 : col * n + (num - 1) < n * n := offset_lt hcol (by omega)
  have e2 : 2 * n * n = n * n + n * n := by ring
  have e3 : 3 * n * n = n * n + n * n + n * n := by ring
  unfold getConstraints
  simp only [List.mem_cons, List.mem_singleton, List.not_mem_nil, or_false]
  constructor
  · intro h
    rcases h with h | h | h | h
    · omega
    · have he : row * n + (num - 1) = R * n + (v - 1) := by omega
      obtain ⟨ha, hb⟩ := offset_inj hn (by omega) (by omega) he
      omega
    · rw [e2] at h; omega
    · rw [e3] at h; omega
  · rintro ⟨rfl, rfl⟩
    right; left
    omega

/-- Membership of a column-value constraint column. -/
lemma mem_constraints_colcol {n br bc row col num C v : Nat}
    (hn : 0 < n) (hrow : row < n) (hcol : col < n)
    (h1 : 1 ≤ num) (h2 : num ≤ n) (hC : C < n) (hv1 : 1 ≤ v) (hv2 : v ≤ n) :
    ((2 * n * n + C * n + v - 1) ∈ getConstraints n br bc row col num) ↔
      (col = C ∧ num = v) := by
  have hc1 : row * n + col < n * n := offset_lt hrow hcol
  have hc2 : row * n + (num - 1) < n * n := offset_lt hrow (by omega)
  have hc3 : col * n + (num - 1) < n * n := offset_lt hcol (by omega)
  have hc3C : C * n + (v - 1) < n * n := offset_lt hC (by omega)
  have e2 : 2 * n * n = n * n + n * n := by ring
  have e3 : 3 * n * n = n * n + n * n + n * n := by ring
  unfold getConstraints
  simp only [List.mem_cons, List.mem_singleton, List.not_mem_nil, or_false]
  constructor
  · intro h
    rcases h with h | h | h | h
    · omega
    · omega
    · have he : col * n + (num - 1) = C * n + (v - 1) := by omega
      obtain ⟨ha, hb⟩ := offset_inj hn (by omega) (by omega) he
      omega
    · rw [e3] at h; omega
  · rintro ⟨rfl, rfl⟩
    right; right; left
    rw [e2]

/-- Membership of a box-value constraint column. -/
lemma mem_constraints_boxcol {n br bc row col num B v : Nat}
    (hn : 0 < n) (hbr : 0 < br) (hbc : 0 < bc) (hsz : br * bc = n)
    (hrow : row < n) (hcol : col < n)
    (h1 : 1 ≤ num) (h2 : num ≤ n) (hB : B < n) (hv1 : 1 ≤ v) (hv2 : v ≤ n) :
    ((3 * n * n + B * n + v - 1) ∈ getConstraints n br bc row col num) ↔
      (getBox n br bc row col = B ∧ num = v) := by
  have hbox : getBox n br bc row col < n := getBox_lt hbr hbc hsz hrow hcol
  have hc1 : row * n + col < n * n := offset_lt hrow hcol
  have hc2 : row * n + (num - 1) < n * n := offset_lt hrow (by omega)
  have hc3 : col * n + (num - 1) < n * n := offset_lt hcol (by omega)
  have hc4 : getBox n br bc row col * n + (num - 1) < n * n := offset_lt hbox (by omega)
  have hc4B : B * n + (v - 1) < n * n := offset_lt hB (by omega)
  have e2 : 2 * n * n = n * n + n * n := by ring
  have e3 : 3 * n * n = n * n + n * n + n * n := by ring
  unfold getConstraints
  simp only [List.mem_cons, List.mem_singleton, List.not_mem_nil, or_false]
  constructor
  · intro h
    rcases h with h | h | h | h
    · omega
    · omega
    · rw [e2] at h; omega
    · rw [e3] at h
      have he : getBox n br bc row col * n + (num - 1) = B * n + (v - 1) := by omega
      obtain ⟨ha, hb⟩ := offset_inj hn (by omega) (by omega) he
      omega
  · rintro ⟨hb, rfl⟩
    right; right; right
    rw [e3, hb]

end RetroSudoku.DLX

namespace RetroSudoku.DLX

lemma applyRows_length (n : Nat) :
    ∀ (ids res : List Nat), (applyRows n res ids).length = res.length := by
  intro ids
  induction ids with
  | nil => intro res; rfl
  | cons id rest ih =>
    intro res
    show (applyRows n (res.set (id / n) (id % n + 1)) rest).length = res.length
    rw [ih, List.length_set]

lemma applyRows_getD_none (n : Nat) :
    ∀ (ids res : List Nat) (k : Nat),
      ids.countP (fun id => id / n == k) = 0 →
      (applyRows n res ids).getD k 0 = res.getD k 0 := by
  intro ids
  induction ids with
  | nil => intro res k _; rfl
  | cons id rest ih =>
    intro res k h0
    rw [List.countP_cons] at h0
    have hne : id / n ≠ k := by
      intro he
      simp [he] at h0
    show (applyRows n (res.set (id / n) (id % n + 1)) rest).getD k 0 = res.getD k 0
    rw [ih _ _ (by omega), setGetD_ne _ _ _ _ _ hne]

lemma applyRows_getD_val (n : Nat) :
    ∀ (ids res : List Nat) (k w : Nat), k < res.length →
      ids.countP (fun id => id / n == k) = 1 →
      (∀ id ∈ ids, id / n = k → id % n = w) →
      (applyRows n res ids).getD k 0 = w + 1 := by
  intro ids
  induction ids with
  | nil => intro res k w _ h1 _; simp at h1
  | cons id rest ih =>
    intro res k w hk h1 hw
    rw [List.countP_cons] at h1
    show (applyRows n (res.set (id / n) (id % n + 1)) rest).getD k 0 = w + 1
    by_cases hdk : id / n = k
    · have h0 : rest.countP (fun id => id / n == k) = 0 := by
        simp only [hdk, beq_self_eq_true, if_true] at h1
        omega
      rw [applyRows_getD_none _ _ _ _ h0, hdk,
        setGetD_lt res k (id % n + 1) 0 hk]
      rw [hw id (List.mem_cons_self ..) hdk]
    · have h1r : rest.countP (fun id => id / n == k) = 1 := by
        simp [hdk] at h1
        omega
      exact ih _ _ _ (by rw [List.length_set]; omega) h1r
        (fun id2 h2 => hw id2 (List.mem_cons_of_mem _ h2))

/-- One unit's count in the decoded grid equals 1, given a constraint
column characterizing "this unit holds value `v`". -/
lemma unit_count {n br bc : Nat} {puzzle : List Nat} {rl : List DRow}
    (hn : 0 < n)
    (hlen : puzzle.length = n * n) (hv : ∀ w ∈ puzzle, w ≤ n)
    (hrows : ∀ r ∈ rl, r ∈ buildMatrix n br bc puzzle)
    (hcov : ExactCoverList (List.range (4 * n * n)) rl)
    (ks : List Nat) (v c : Nat)
    (hknd : ks.Nodup) (hkslt : ∀ k ∈ ks, k < n * n)
    (hclt : c < 4 * n * n)
    (hmatch : ∀ r ∈ rl,
      ((ks.contains (r.id / n)) && (r.id % n + 1 == v)) = r.cols.contains c) :
    ks.countP
      (fun k => (applyRows n puzzle (rl.map DRow.id)).getD k 0 == v) = 1 := by
  have e4 : 4 * n * n = n * n + n * n + n * n + n * n := by ring
  -- the Boolean cell-membership/row-id bridge
  have hcb : ∀ r ∈ rl, ∀ k : Nat, k < n * n →
      (r.cols.contains k) = (r.id / n == k) := by
    intro r hr k hk
    rcases mem_buildMatrix hv (hrows r hr) with
      ⟨row, col, num, hrow, hcol, h1, h2, _, hre⟩
    rw [hre]
    show ((getConstraints n br bc row col num).contains k) = _
    rw [Bool.eq_iff_iff]
    simp only [List.elem_iff, beq_iff_eq]
    have hdiv := (@rowId_div_mod n (row * n + col) num hn h1 h2).1
    constructor
    · intro hmem
      rw [hdiv]
      exact (mem_cols_lt_nsq hk h1 hmem).symm
    · intro he
      rw [hdiv] at he
      unfold getConstraints
      rw [← he]
      exact List.mem_cons_self ..
  -- exactly one row per cell
  have hcell : ∀ k : Nat, k < n * n →
      rl.countP (fun r => r.id / n == k) = 1 := by
    intro k hk
    have h1 := hcov k (List.mem_range.mpr (by omega))
    rw [← h1]
    exact (List.countP_congr (fun r hr => by rw [hcb r hr k hk])).symm
  -- the decoded grid as a function of the unique row of each cell
  have hdecode : ∀ k : Nat, k < n * n → ∀ r0 ∈ rl, r0.id / n = k →
      (applyRows n puzzle (rl.map DRow.id)).getD k 0 = r0.id % n + 1 := by
    intro k hk r0 hr0 hr0k
    obtain ⟨ru, hru, hpu, huniq⟩ := countP_eq_one_unique (hcell k hk)
    have hr0u : r0 = ru := huniq r0 hr0 (by simp [hr0k])
    refine applyRows_getD_val n _ _ _ _ (by omega) ?_ ?_
    · rw [List.countP_map]
      exact hcell k hk
    · intro id hid hidk
      rcases List.mem_map.mp hid with ⟨r2, hr2, rfl⟩
      have : r2 = ru := huniq r2 hr2 (by simp [hidk])
      rw [this, ← hr0u]
  -- countP over keys as a sum of per-key counts of rl
  rw [countP_eq_sum_map]
  have hptw : ∀ k ∈ ks,
      (if ((applyRows n puzzle (rl.map DRow.id)).getD k 0 == v) = true then 1 else 0)
        = rl.countP (fun r => r.id / n == k && r.id % n + 1 == v) := by
    intro k hk
    have hklt := hkslt k hk
    obtain ⟨ru, hru, hpu, huniq⟩ := countP_eq_one_unique (hcell k hklt)
    have hud : ru.id / n = k := by simpa using hpu
    have hval := hdecode k hklt ru hru hud
    by_cases hvv : ru.id % n + 1 = v
    · have : (applyRows n puzzle (rl.map DRow.id)).getD k 0 = v := by omega
      rw [if_pos (show ((applyRows n puzzle (rl.map DRow.id)).getD k 0 == v) = true by
        simp only [this, beq_self_eq_true])]
      have hle : rl.countP (fun r => r.id / n == k && r.id % n + 1 == v) ≤ 1 := by
        rw [← hcell k hklt]
        exact List.countP_mono_left (fun r _ h => by
          simp only [Bool.and_eq_true] at h
          exact h.1)
      have hge : 0 < rl.countP (fun r => r.id / n == k && r.id % n + 1 == v) := by
        apply List.countP_pos_iff.mpr
        exact ⟨ru, hru, by simp [hud, hvv]⟩
      omega
    · have : (applyRows n puzzle (rl.map DRow.id)).getD k 0 ≠ v := by omega
      rw [if_neg (by simpa using this)]
      symm
      rw [List.countP_eq_zero]
      intro r hr hp
      simp only [Bool.and_eq_true, beq_iff_eq] at hp
      have hru2 : r = ru := huniq r hr (by simp [hp.1])
      rw [hru2] at hp
      exact hvv hp.2
  rw [List.map_congr_left hptw]
  rw [sum_countP_by_key _ _ _ _ hknd]
  have hcc : rl.countP (fun r => ks.contains (r.id / n) && (r.id % n + 1 == v))
      = rl.countP (fun r => r.cols.contains c) :=
    List.countP_congr (fun r hr => by rw [hmatch r hr])
  rw [hcc]
  exact hcov c (List.mem_range.mpr hclt)

end RetroSudoku.DLX

namespace RetroSudoku.DLX

/-- The box index list written without let bindings. -/
lemma boxIndices_eq (B n br bc : Nat) :
    RetroSudoku.HS.getBoxIndices B n br bc =
      (List.range br).flatMap (fun dr =>
        (List.range bc).map (fun dc =>
          (B / (n / bc) * br + dr) * n + (B % (n / bc) * bc + dc))) := rfl

lemma nodup_boxIndices {n br bc B : Nat} (hbr : 0 < br) (hbc : 0 < bc)
    (hsz : br * bc = n) :
    (RetroSudoku.HS.getBoxIndices B n br bc).Nodup := by
  have hn : 0 < n := by
    have := Nat.mul_pos hbr hbc
    omega
  have hszc : bc * br = n := by rw [Nat.mul_comm]; exact hsz
  rw [boxIndices_eq, ndivbc hbc hsz, List.nodup_flatMap]
  constructor
  · intro dr _
    refine (List.nodup_range bc).map (fun a b h => ?_)
    omega
  · refine (List.pairwise_lt_range br).imp ?_
    intro a b hab k hka hkb
    rcases List.mem_map.mp hka with ⟨dc, hdc, hea⟩
    rcases List.mem_map.mp hkb with ⟨dc2, hdc2, heb⟩
    rw [List.mem_range] at hdc hdc2
    have hmod : B % br < br := Nat.mod_lt B hbr
    have hx : (B % br + 1) * bc ≤ br * bc := mul_le_mul_right' (by omega) bc
    have hx2 : (B % br + 1) * bc = B % br * bc + bc := by ring
    have hcb : B % br * bc + dc < n := by omega
    have hcb2 : B % br * bc + dc2 < n := by omega
    have he : (B / br * br + a) * n + (B % br * bc + dc)
        = (B / br * br + b) * n + (B % br * bc + dc2) := by
      rw [hea, heb]
    obtain ⟨h1, _⟩ := offset_inj hn hcb hcb2 he
    omega

lemma mem_boxIndices_decomp {n br bc B k : Nat} (hbr : 0 < br) (hbc : 0 < bc)
    (hsz : br * bc = n) (hB : B < n)
    (hk0 : k ∈ RetroSudoku.HS.getBoxIndices B n br bc) :
    ∃ row col, row < n ∧ col < n ∧ k = row * n + col ∧
      getBox n br bc row col = B := by
  have hszc : bc * br = n := by rw [Nat.mul_comm]; exact hsz
  have hk := hk0
  rw [boxIndices_eq, ndivbc hbc hsz] at hk
  rcases List.mem_flatMap.mp hk with ⟨dr, hdr, hk2⟩
  rcases List.mem_map.mp hk2 with ⟨dc, hdc, he⟩
  rw [List.mem_range] at hdr hdc
  have hdiv : B / br < bc := by
    rw [Nat.div_lt_iff_lt_mul hbr]
    omega
  have h2 : (B / br + 1) * br ≤ bc * br := mul_le_mul_right' (by omega) br
  have e2 : (B / br + 1) * br = B / br * br + br := by ring
  have hrlt : B / br * br + dr < n := by omega
  have hmod : B % br < br := Nat.mod_lt B hbr
  have h3 : (B % br + 1) * bc ≤ br * bc := mul_le_mul_right' (by omega) bc
  have e3 : (B % br + 1) * bc = B % br * bc + bc := by ring
  have hclt : B % br * bc + dc < n := by omega
  refine ⟨B / br * br + dr, B % br * bc + dc, hrlt, hclt, he.symm, ?_⟩
  exact (cell_mem_boxIndices hbr hbc hsz hrlt hclt).mp (he.symm ▸ hk0)

/-- A candidate row hits the row-value constraint column iff its decoded cell
lies in row `R` and its decoded value is `v`. -/
lemma row_unit_match {n br bc R v : Nat} {puzzle : List Nat} {r : DRow}
    (hn : 0 < n) (hv : ∀ w ∈ puzzle, w ≤ n)
    (hr : r ∈ buildMatrix n br bc puzzle)
    (hR : R < n) (hv1 : 1 ≤ v) (hv2 : v ≤ n) :
    (((RetroSudoku.HS.getRowIndices R n).contains (r.id / n)) &&
        (r.id % n + 1 == v))
      = r.cols.contains (n * n + R * n + v - 1) := by
  rcases mem_buildMatrix hv hr with ⟨row, col, num, hrow, hcol, h1, h2, _, hre⟩
  have hid : r.id = (row * n + col) * n + num - 1 := by rw [hre]
  have hcols : r.cols = getConstraints n br bc row col num := by rw [hre]
  have hdm := @rowId_div_mod n (row * n + col) num hn h1 h2
  rw [hid, hcols, hdm.1, hdm.2, Bool.eq_iff_iff]
  simp only [Bool.and_eq_true, List.elem_iff, beq_iff_eq]
  rw [mem_constraints_rowcol hn hrow hcol h1 h2 hR hv1 hv2]
  constructor
  · rintro ⟨hm, hnum⟩
    rcases mem_rowIndices.mp hm with ⟨c2, hc2, he⟩
    obtain ⟨ha, _⟩ := offset_inj hn hcol hc2 he
    exact ⟨ha, by omega⟩
  · rintro ⟨ha, hb⟩
    exact ⟨mem_rowIndices.mpr ⟨col, hcol, by rw [ha]⟩, by omega⟩

/-- A candidate row hits the column-value constraint column iff its decoded
cell lies in column `C` and its decoded value is `v`. -/
lemma col_unit_match {n br bc C v : Nat} {puzzle : List Nat} {r : DRow}
    (hn : 0 < n) (hv : ∀ w ∈ puzzle, w ≤ n)
    (hr : r ∈ buildMatrix n br bc puzzle)
    (hC : C < n) (hv1 : 1 ≤ v) (hv2 : v ≤ n) :
    (((RetroSudoku.HS.getColIndices C n).contains (r.id / n)) &&
        (r.id % n + 1 == v))
      = r.cols.contains (2 * n * n + C * n + v - 1) := by
  rcases mem_buildMatrix hv hr with ⟨row, col, num, hrow, hcol, h1, h2, _, hre⟩
  have hid : r.id = (row * n + col) * n + num - 1 := by rw [hre]
  have hcols : r.cols = getConstraints n br bc row col num := by rw [hre]
  have hdm := @rowId_div_mod n (row * n + col) num hn h1 h2
  rw [hid, hcols, hdm.1, hdm.2, Bool.eq_iff_iff]
  simp only [Bool.and_eq_true, List.elem_iff, beq_iff_eq]
  rw [mem_constraints_colcol hn hrow hcol h1 h2 hC hv1 hv2]
  constructor
  · rintro ⟨hm, hnum⟩
    rcases mem_colIndices.mp hm with ⟨r2, hr2, he⟩
    obtain ⟨_, hb⟩ := offset_inj hn hcol hC
      (by rw [he])
    exact ⟨hb, by omega⟩
  · rintro ⟨ha, hb⟩
    exact ⟨mem_colIndices.mpr ⟨row, hrow, by rw [ha]⟩, by omega⟩

/-- A candidate row hits the box-value constraint column iff its decoded cell
lies in box `B` and its decoded value is `v`. -/
lemma box_unit_match {n br bc B v : Nat} {puzzle : List Nat} {r : DRow}
    (hbr : 0 < br) (hbc : 0 < bc) (hsz : br * bc = n)
    (hv : ∀ w ∈ puzzle, w ≤ n)
    (hr : r ∈ buildMatrix n br bc puzzle)
    (hB : B < n) (hv1 : 1 ≤ v) (hv2 : v ≤ n) :
    (((RetroSudoku.HS.getBoxIndices B n br bc).contains (r.id / n)) &&
        (r.id % n + 1 == v))
      = r.cols.contains (3 * n * n + B * n + v - 1) := by
  have hn : 0 < n := by
    have := Nat.mul_pos hbr hbc
    omega
  rcases mem_buildMatrix hv hr with ⟨row, col, num, hrow, hcol, h1, h2, _, hre⟩
  have hid : r.id = (row * n + col) * n + num - 1 := by rw [hre]
  have hcols : r.cols = getConstraints n br bc row col num := by rw [hre]
  have hdm := @rowId_div_mod n (row * n + col) num hn h1 h2
  rw [hid, hcols, hdm.1, hdm.2, Bool.eq_iff_iff]
  simp only [Bool.and_eq_true, List.elem_iff, beq_iff_eq]
  rw [mem_constraints_boxcol hn hbr hbc hsz hrow hcol h1 h2 hB hv1 hv2]
  rw [cell_mem_boxIndices hbr hbc hsz hrow hcol]
  constructor
  · rintro ⟨ha, hb⟩
    exact ⟨ha, by omega⟩
  · rintro ⟨ha, hb⟩
    exact ⟨ha, by omega⟩

/-- Validity of a returned grid: it has `n*n` cells and every row, column and
box (taken as the humanSolver unit index lists) contains each value `1..n`
exactly once — i.e. each unit is a permutation of `1..n`. -/
def ValidSolution (n br bc : Nat) (g : List Nat) : Prop :=
  g.length = n * n ∧
  (∀ u ∈ List.range n, ∀ v ∈ List.range' 1 n,
    (RetroSudoku.HS.getRowIndices u n).countP (fun k => g.getD k 0 == v) = 1) ∧
  (∀ u ∈ List.range n, ∀ v ∈ List.range' 1 n,
    (RetroSudoku.HS.getColIndices u n).countP (fun k => g.getD k 0 == v) = 1) ∧
  (∀ u ∈ List.range n, ∀ v ∈ List.range' 1 n,
    (RetroSudoku.HS.getBoxIndices u n br bc).countP
      (fun k => g.getD k 0 == v) = 1)

instance (n br bc : Nat) (g : List Nat) :
    Decidable (ValidSolution n br bc g) := by
  unfold ValidSolution
  infer_instance

/-- Decoding an exact cover of the constraint columns yields a valid grid. -/
lemma cover_decode_valid {n br bc : Nat} {puzzle : List Nat} {rl : List DRow}
    (hbr : 0 < br) (hbc : 0 < bc) (hsz : br * bc = n)
    (hlen : puzzle.length = n * n) (hv : ∀ w ∈ puzzle, w ≤ n)
    (hrows : ∀ r ∈ rl, r ∈ buildMatrix n br bc puzzle)
    (hcov : ExactCoverList (List.range (4 * n * n)) rl) :
    ValidSolution n br bc (applyRows n puzzle (rl.map DRow.id)) := by
  have hn : 0 < n := by
    have := Nat.mul_pos hbr hbc
    omega
  have e4 : 4 * n * n = n * n + n * n + n * n + n * n := by ring
  have e2 : 2 * n * n = n * n + n * n := by ring
  have e3 : 3 * n * n = n * n + n * n + n * n := by ring
  refine ⟨?_, ?_, ?_, ?_⟩
  · rw [applyRows_length, hlen]
  · intro R hR v hvr
    rw [List.mem_range] at hR
    rw [List.mem_range'_1] at hvr
    have hb : (R + 1) * n ≤ n * n := mul_le_mul_right' (by omega) n
    have eb : (R + 1) * n = R * n + n := by ring
    refine unit_count hn hlen hv hrows hcov _ v (n * n + R * n + v - 1)
      (nodup_rowIndices R n) ?_ (by omega) ?_
    · intro k hk
      rcases mem_rowIndices.mp hk with ⟨c2, hc2, rfl⟩
      exact offset_lt hR hc2
    · intro r hr
      exact row_unit_match hn hv (hrows r hr) hR (by omega) (by omega)
  · intro C hC v hvr
    rw [List.mem_range] at hC
    rw [List.mem_range'_1] at hvr
    have hb : (C + 1) * n ≤ n * n := mul_le_mul_right' (by omega) n
    have eb : (C + 1) * n = C * n + n := by ring
    refine unit_count hn hlen hv hrows hcov _ v (2 * n * n + C * n + v - 1)
      (nodup_colIndices C n hn) ?_ (by omega) ?_
    · intro k hk
      rcases mem_colIndices.mp hk with ⟨r2, hr2, rfl⟩
      exact offset_lt hr2 hC
    · intro r hr
      exact col_unit_match hn hv (hrows r hr) hC (by omega) (by omega)
  · intro B hB v hvr
    rw [List.mem_range] at hB
    rw [List.mem_range'_1] at hvr
    have hb : (B + 1) * n ≤ n * n := mul_le_mul_right' (by omega) n
    have eb : (B + 1) * n = B * n + n := by ring
    refine unit_count hn hlen hv hrows hcov _ v (3 * n * n + B * n + v - 1)
      (nodup_boxIndices hbr hbc hsz) ?_ (by omega) ?_
    · intro k hk
      rcases mem_boxIndices_decomp hbr hbc hsz hB hk with
        ⟨row, col, hrow, hcol, rfl, _⟩
      exact offset_lt hrow hcol
    · intro r hr
      exact box_unit_match hbr hbc hsz hv (hrows r hr) hB (by omega) (by omega)

end RetroSudoku.DLX

/-- C2: whenever the exact-cover solver reports `solved = true` on a board of
a tiled size (`blockRows * blockCols = size`, board of `size*size` values all
at most `size`), the returned solution grid is fully valid: every row, every
column and every box contains each value `1..size` exactly once. -/
theorem C2_solved_solution_valid :
    ∀ (n br bc : Nat) (puzzle : List Nat),
      0 < br → 0 < bc → br * bc = n →
      puzzle.length = n * n → (∀ w ∈ puzzle, w ≤ n) →
      (RetroSudoku.DLX.solve n br bc puzzle).solved = true →
      RetroSudoku.DLX.ValidSolution n br bc
        (RetroSudoku.DLX.solve n br bc puzzle).solution := by
  intro n br bc puzzle hbr hbc hsz hlen hv hs
  rw [RetroSudoku.DLX.solve_eq] at hs ⊢
  cases hsols : (RetroSudoku.DLX.search (4 * n * n + 1) (List.range (4 * n * n))
      (RetroSudoku.DLX.buildMatrix n br bc puzzle) 2 []
      ⟨[], 0⟩).1.solutions with
  | nil => rw [hsols] at hs; simp at hs
  | cons sol tail =>
    show RetroSudoku.DLX.ValidSolution n br bc
      (RetroSudoku.DLX.applyRows n puzzle sol)
    have hmem : sol ∈ (RetroSudoku.DLX.search (4 * n * n + 1)
        (List.range (4 * n * n))
        (RetroSudoku.DLX.buildMatrix n br bc puzzle) 2 []
        ⟨[], 0⟩).1.solutions := by
      rw [hsols]; exact List.mem_cons_self ..
    rcases RetroSudoku.DLX.search_sound _ _ _ _ _ _ _ hmem with
      h | ⟨rl, hsol2, hrows, hcov⟩
    · simp at h
    rw [List.nil_append] at hsol2
    rw [hsol2]
    exact RetroSudoku.DLX.cover_decode_valid hbr hbc hsz hlen hv hrows hcov

/-- Witness for C2 at a concrete 2x2 board. -/
theorem C2_witness :
    RetroSudoku.DLX.ValidSolution 2 1 2
      (RetroSudoku.DLX.solve 2 1 2 [1, 0, 0, 0]).solution :=
  C2_solved_solution_valid 2 1 2 [1, 0, 0, 0] (by decide) (by decide)
    (by decide) (by decide) (by decide) (by decide)

namespace RetroSudoku.DLX

/-! ### Completeness of the search (for C3) -/

lemma length_filter_lt {α : Type} (p : α → Bool) :
    ∀ (l : List α) (a : α), a ∈ l → p a = false →
      (l.filter p).length < l.length := by
  intro l
  induction l with
  | nil => intro a ha _; simp at ha
  | cons x xs ih =>
    intro a ha hpa
    rcases List.mem_cons.mp ha with rfl | ha2
    · rw [List.filter_cons, hpa]
      have := List.countP_le_length (p := p) (l := xs)
      rw [List.countP_eq_length_filter] at this
      simp only [Bool.false_eq_true, if_false, List.length_cons]
      omega
    · rw [List.filter_cons]
      by_cases hx : p x
      · rw [if_pos hx]
        have := ih a ha2 hpa
        simp only [List.length_cons]
        omega
      · rw [if_neg hx]
        have := ih a ha2 hpa
        simp only [List.length_cons]
        omega

lemma pickMinCol_mem (rows : List DRow) :
    ∀ (cs : List Nat) (c : Nat), pickMinCol rows c cs ∈ c :: cs := by
  intro cs
  induction cs with
  | nil => intro c; simp [pickMinCol]
  | cons c2 rest ih =>
    intro c
    have he : pickMinCol rows c (c2 :: rest) =
        pickMinCol rows
          (if colSize rows c2 < colSize rows c then c2 else c) rest := rfl
    rw [he]
    have h := ih (if colSize rows c2 < colSize rows c then c2 else c)
    rcases List.mem_cons.mp h with h2 | h2
    · rw [h2]
      by_cases hlt : colSize rows c2 < colSize rows c
      · rw [if_pos hlt]
        exact List.mem_cons_of_mem _ (List.mem_cons_self ..)
      · rw [if_neg hlt]
        exact List.mem_cons_self ..
    · exact List.mem_cons_of_mem _ (List.mem_cons_of_mem _ h2)

/-- The row-trying loop only appends solutions; the count grows by the
number appended. -/
lemma searchRows_mono (cols : List Nat) (rows : List DRow)
    (go : List Nat → List DRow → List Nat → SState → SState × Bool)
    (part : List Nat)
    (hgo : ∀ cols2 rows2 part2 st2, ∃ ext,
      (go cols2 rows2 part2 st2).1.solutions = st2.solutions ++ ext ∧
      (go cols2 rows2 part2 st2).1.count = st2.count + ext.length) :
    ∀ (cands : List DRow) (st : SState), ∃ ext,
      (searchRows cols rows go part cands st).1.solutions =
        st.solutions ++ ext ∧
      (searchRows cols rows go part cands st).1.count =
        st.count + ext.length := by
  intro cands
  induction cands with
  | nil => intro st; exact ⟨[], by simp [searchRows], by simp [searchRows]⟩
  | cons r rs ih =>
    intro st
    obtain ⟨e1, hs1, hc1⟩ :=
      hgo (coverCols cols r) (coverRows rows r) (part ++ [r.id]) st
    by_cases hb : (go (coverCols cols r) (coverRows rows r)
        (part ++ [r.id]) st).2 = true
    · refine ⟨e1, ?_, ?_⟩
      · rw [searchRows, if_pos hb]
        exact hs1
      · rw [searchRows, if_pos hb]
        exact hc1
    · obtain ⟨e2, hs2, hc2⟩ :=
        ih (go (coverCols cols r) (coverRows rows r) (part ++ [r.id]) st).1
      refine ⟨e1 ++ e2, ?_, ?_⟩
      · rw [searchRows, if_neg hb, hs2, hs1, List.append_assoc]
      · rw [searchRows, if_neg hb, hc2, hc1, List.length_append]
        omega

/-- The search only appends solutions; the count grows by the number
appended. -/
lemma search_mono : ∀ (fuel : Nat) (cols : List Nat) (rows : List DRow)
    (limit : Nat) (part : List Nat) (st : SState), ∃ ext,
    (search fuel cols rows limit part st).1.solutions =
      st.solutions ++ ext ∧
    (search fuel cols rows limit part st).1.count = st.count + ext.length := by
  intro fuel
  induction fuel with
  | zero =>
    intro cols rows limit part st
    exact ⟨[], by simp [search], by simp [search]⟩
  | succ fuel ih =>
    intro cols rows limit part st
    cases cols with
    | nil => exact ⟨[part], by simp [search], by simp [search]⟩
    | cons c cs =>
      by_cases h0 : colSize rows (pickMinCol rows c cs) = 0
      · refine ⟨[], ?_, ?_⟩ <;> rw [search, if_pos h0] <;> simp
      · have he : search (fuel + 1) (c :: cs) rows limit part st =
            searchRows (c :: cs) rows
              (fun cols2 rows2 part2 st2 =>
                search fuel cols2 rows2 limit part2 st2)
              part (rows.filter
                (fun r => r.cols.contains (pickMinCol rows c cs))) st := by
          rw [search, if_neg h0]
        rw [he]
        exact searchRows_mono _ _ _ _
          (fun c2 r2 p2 s2 => ih c2 r2 limit p2 s2) _ _

/-- If the row-trying loop reports the stop flag, the count has reached the
limit (assuming the recursive calls have that property). -/
lemma searchRows_flag (cols : List Nat) (rows : List DRow)
    (go : List Nat → List DRow → List Nat → SState → SState × Bool)
    (part : List Nat) (limit : Nat)
    (hgo : ∀ cols2 rows2 part2 st2, (go cols2 rows2 part2 st2).2 = true →
      limit ≤ (go cols2 rows2 part2 st2).1.count) :
    ∀ (cands : List DRow) (st : SState),
      (searchRows cols rows go part cands st).2 = true →
      limit ≤ (searchRows cols rows go part cands st).1.count := by
  intro cands
  induction cands with
  | nil => intro st h; simp [searchRows] at h
  | cons r rs ih =>
    intro st h
    by_cases hb : (go (coverCols cols r) (coverRows rows r)
        (part ++ [r.id]) st).2 = true
    · rw [searchRows, if_pos hb]
      exact hgo _ _ _ _ hb
    · rw [searchRows, if_neg hb] at h ⊢
      exact ih _ h

/-- If the search returns `true`, the solution count has reached the
limit. -/
lemma search_flag : ∀ (fuel : Nat) (cols : List Nat) (rows : List DRow)
    (limit : Nat) (part : List Nat) (st : SState),
    (search fuel cols rows limit part st).2 = true →
    limit ≤ (search fuel cols rows limit part st).1.count := by
  intro fuel
  induction fuel with
  | zero => intro cols rows limit part st h; simp [search] at h
  | succ fuel ih =>
    intro cols rows limit part st h
    cases cols with
    | nil =>
      rw [search] at h ⊢
      simp only [decide_eq_true_eq] at h
      exact h
    | cons c cs =>
      by_cases h0 : colSize rows (pickMinCol rows c cs) = 0
      · rw [search, if_pos h0] at h
        simp at h
      · rw [search, if_neg h0] at h ⊢
        exact searchRows_flag _ _ _ _ _
          (fun c2 r2 p2 s2 => ih c2 r2 limit p2 s2) _ _ h

/-- If the row-trying loop finishes without the stop flag, then for every
candidate row the recursive call was made from some state, returned
`false`, and its recorded solutions survive into the loop's result. -/
lemma searchRows_reach (cols : List Nat) (rows : List DRow)
    (go : List Nat → List DRow → List Nat → SState → SState × Bool)
    (part : List Nat)
    (hgo : ∀ cols2 rows2 part2 st2, ∃ ext,
      (go cols2 rows2 part2 st2).1.solutions = st2.solutions ++ ext ∧
      (go cols2 rows2 part2 st2).1.count = st2.count + ext.length) :
    ∀ (cands : List DRow) (st : SState),
      (searchRows cols rows go part cands st).2 = false →
      ∀ r0 ∈ cands, ∃ st2,
        (go (coverCols cols r0) (coverRows rows r0)
          (part ++ [r0.id]) st2).2 = false ∧
        ∃ ext, (searchRows cols rows go part cands st).1.solutions =
          (go (coverCols cols r0) (coverRows rows r0)
            (part ++ [r0.id]) st2).1.solutions ++ ext := by
  intro cands
  induction cands with
  | nil => intro st _ r0 hr0; simp at hr0
  | cons r rs ih =>
    intro st hfalse r0 hr0
    by_cases hb : (go (coverCols cols r) (coverRows rows r)
        (part ++ [r.id]) st).2 = true
    · rw [searchRows, if_pos hb] at hfalse
      simp at hfalse
    · rw [searchRows, if_neg hb] at hfalse ⊢
      rcases List.mem_cons.mp hr0 with rfl | hr0rs
      · refine ⟨st, by simpa using hb, ?_⟩
        obtain ⟨ext, hext, _⟩ := searchRows_mono cols rows go part hgo rs
          (go (coverCols cols r0) (coverRows rows r0)
            (part ++ [r0.id]) st).1
        exact ⟨ext, hext⟩
      · exact ih _ hfalse r0 hr0rs

/-- Completeness of the search: if it finishes without hitting the limit,
then every exact cover by live rows has (some ordering of) its row ids
recorded as a solution.  The hypothesis on `rows` is the structural
invariant that live rows have a nonempty column list lying inside the live
columns. -/
lemma search_complete : ∀ (fuel : Nat) (cols : List Nat) (rows : List DRow)
    (limit : Nat) (part : List Nat) (st : SState) (rl : List DRow),
    cols.length < fuel →
    (∀ r ∈ rows, r.cols ≠ [] ∧ ∀ c2 ∈ r.cols, c2 ∈ cols) →
    (∀ r ∈ rl, r ∈ rows) → rl.Nodup →
    ExactCoverList cols rl →
    (search fuel cols rows limit part st).2 = false →
    ∃ ids, ids.Perm (rl.map DRow.id) ∧
      part ++ ids ∈ (search fuel cols rows limit part st).1.solutions := by
  intro fuel
  induction fuel with
  | zero =>
    intro cols rows limit part st rl hf _ _ _ _ _
    exact absurd hf (by omega)
  | succ fuel ih =>
    intro cols rows limit part st rl hf hwf hrl hnd hcov hfalse
    cases cols with
    | nil =>
      have hrlnil : rl = [] := by
        cases hrc : rl with
        | nil => rfl
        | cons r rs =>
          exfalso
          have hr : r ∈ rl := by rw [hrc]; exact List.mem_cons_self ..
          have h := hwf r (hrl r hr)
          cases hcols : r.cols with
          | nil => exact h.1 hcols
          | cons c2 cs2 =>
            have := h.2 c2 (by rw [hcols]; exact List.mem_cons_self ..)
            simp at this
      refine ⟨[], by rw [hrlnil]; exact List.Perm.nil, ?_⟩
      show part ++ [] ∈ (st.solutions ++ [part])
      simp
    | cons c cs =>
      have hmc : pickMinCol rows c cs ∈ c :: cs := pickMinCol_mem rows cs c
      obtain ⟨r0, hr0, hp0, huniq⟩ :=
        countP_eq_one_unique (hcov (pickMinCol rows c cs) hmc)
      have h0 : ¬ colSize rows (pickMinCol rows c cs) = 0 := by
        intro h0
        have hpos : 0 < colSize rows (pickMinCol rows c cs) := by
          apply List.countP_pos_iff.mpr
          exact ⟨r0, hrl r0 hr0, hp0⟩
        omega
      rw [search, if_neg h0] at hfalse ⊢
      have hr0c : r0 ∈ rows.filter
          (fun r => r.cols.contains (pickMinCol rows c cs)) :=
        List.mem_filter.mpr ⟨hrl r0 hr0, hp0⟩
      obtain ⟨st2, hgofalse, ext, hext⟩ :=
        searchRows_reach (c :: cs) rows _ part
          (fun c2 r2 p2 s2 => search_mono fuel c2 r2 limit p2 s2)
          _ st hfalse r0 hr0c
      -- the inner call satisfies the induction hypothesis
      have hc0 : ∃ c0, c0 ∈ r0.cols := by
        cases hcols : r0.cols with
        | nil => exact absurd hcols (hwf r0 (hrl r0 hr0)).1
        | cons c2 cs2 => exact ⟨c2, List.mem_cons_self ..⟩
      obtain ⟨c0, hc0⟩ := hc0
      have hc0cols : c0 ∈ c :: cs := (hwf r0 (hrl r0 hr0)).2 c0 hc0
      have hf2 : (coverCols (c :: cs) r0).length < fuel := by
        have hlt : (coverCols (c :: cs) r0).length < (c :: cs).length := by
          unfold coverCols
          apply length_filter_lt _ _ c0 hc0cols
          simp [List.elem_iff, hc0]
        simp only [List.length_cons] at hf hlt ⊢
        omega
      have hdisj : ∀ r2 ∈ rl, r2 ≠ r0 → ∀ c2 ∈ r2.cols, c2 ∉ r0.cols := by
        intro r2 hr2 hne c2 hc2 hc2r0
        have hc2cols : c2 ∈ c :: cs := (hwf r2 (hrl r2 hr2)).2 c2 hc2
        have h1 := hcov c2 hc2cols
        have h2 := two_mem_countP rl (fun r => r.cols.contains c2) r0 r2
          hr0 hr2 (fun he => hne he.symm)
          (by simp [List.elem_iff, hc2r0]) (by simp [List.elem_iff, hc2])
        omega
      have hwf2 : ∀ r ∈ coverRows rows r0, r.cols ≠ [] ∧
          ∀ c2 ∈ r.cols, c2 ∈ coverCols (c :: cs) r0 := by
        intro r hr
        obtain ⟨hrmem, hrdisj⟩ := mem_coverRows.mp hr
        refine ⟨(hwf r hrmem).1, fun c2 hc2 => ?_⟩
        exact mem_coverCols.mpr ⟨(hwf r hrmem).2 c2 hc2, hrdisj c2 hc2⟩
      have hrl2 : ∀ r ∈ rl.erase r0, r ∈ coverRows rows r0 := by
        intro r hr
        obtain ⟨hne, hrin⟩ := (List.Nodup.mem_erase_iff hnd).mp hr
        apply mem_coverRows.mpr
        exact ⟨hrl r hrin, hdisj r hrin hne⟩
      have hcov2 : ExactCoverList (coverCols (c :: cs) r0) (rl.erase r0) := by
        intro c2 hc2
        obtain ⟨hc2cols, hc2r0⟩ := mem_coverCols.mp hc2
        have h1 := hcov c2 hc2cols
        have hperm := List.perm_cons_erase hr0
        rw [hperm.countP_eq] at h1
        rw [List.countP_cons] at h1
        have hcont : (r0.cols.contains c2) = false := by
          simp [List.elem_iff, hc2r0]
        rw [hcont] at h1
        simpa using h1
      obtain ⟨ids2, hperm2, hmem2⟩ := ih (coverCols (c :: cs) r0)
        (coverRows rows r0) limit (part ++ [r0.id]) st2 (rl.erase r0)
        hf2 hwf2 hrl2 (hnd.erase r0) hcov2 hgofalse
      refine ⟨r0.id :: ids2, ?_, ?_⟩
      · have hperm3 : (rl.map DRow.id).Perm
            (r0.id :: (rl.erase r0).map DRow.id) := by
          have := (List.perm_cons_erase hr0).map DRow.id
          simpa using this
        exact (hperm2.cons r0.id).trans hperm3.symm
      · rw [hext]
        apply List.mem_append_left
        have he2 : part ++ (r0.id :: ids2) = (part ++ [r0.id]) ++ ids2 := by
          rw [List.append_assoc]
          rfl
        rw [he2]
        exact hmem2

end RetroSudoku.DLX

namespace RetroSudoku.DLX

/-! ### Encoding completeness: a valid completion yields an exact cover -/

/-- Well-formedness of the matrix rows: nonempty column lists lying inside
the `4*n*n` constraint columns. -/
lemma buildMatrix_wf {n br bc : Nat} (hbr : 0 < br) (hbc : 0 < bc)
    (hsz : br * bc = n) {puzzle : List Nat} (hv : ∀ w ∈ puzzle, w ≤ n) :
    ∀ r ∈ buildMatrix n br bc puzzle,
      r.cols ≠ [] ∧ ∀ c2 ∈ r.cols, c2 ∈ List.range (4 * n * n) := by
  intro r hr
  rcases mem_buildMatrix hv hr with ⟨row, col, num, hrow, hcol, h1, h2, _, hre⟩
  have hcols : r.cols = getConstraints n br bc row col num := by rw [hre]
  rw [hcols]
  constructor
  · unfold getConstraints
    simp
  · intro c2 hc2
    rw [List.mem_range]
    have hbox : getBox n br bc row col < n := getBox_lt hbr hbc hsz hrow hcol
    have hc1 : row * n + col < n * n := offset_lt hrow hcol
    have hc2b : row * n + (num - 1) < n * n := offset_lt hrow (by omega)
    have hc3 : col * n + (num - 1) < n * n := offset_lt hcol (by omega)
    have hc4 : getBox n br bc row col * n + (num - 1) < n * n :=
      offset_lt hbox (by omega)
    have e2 : 2 * n * n = n * n + n * n := by ring
    have e3 : 3 * n * n = n * n + n * n + n * n := by ring
    have e4 : 4 * n * n = n * n + n * n + n * n + n * n := by ring
    unfold getConstraints at hc2
    simp only [List.mem_cons, List.mem_singleton, List.not_mem_nil,
      or_false] at hc2
    rcases hc2 with h | h | h | h <;> omega

/-- Every constraint column id below `4*n*n` belongs to exactly one of the
four constraint families. -/
lemma col_family {n : Nat} (hn : 0 < n) {c : Nat} (hc : c < 4 * n * n) :
    (c < n * n) ∨
    (∃ R v, R < n ∧ 1 ≤ v ∧ v ≤ n ∧ c = n * n + R * n + v - 1) ∨
    (∃ C v, C < n ∧ 1 ≤ v ∧ v ≤ n ∧ c = 2 * n * n + C * n + v - 1) ∨
    (∃ B v, B < n ∧ 1 ≤ v ∧ v ≤ n ∧ c = 3 * n * n + B * n + v - 1) := by
  have e2 : 2 * n * n = n * n + n * n := by ring
  have e3 : 3 * n * n = n * n + n * n + n * n := by ring
  have e4 : 4 * n * n = n * n + n * n + n * n + n * n := by ring
  by_cases h1 : c < n * n
  · exact Or.inl h1
  by_cases h2 : c < 2 * n * n
  · refine Or.inr (Or.inl ⟨(c - n * n) / n, (c - n * n) % n + 1, ?_, ?_, ?_, ?_⟩)
    · rw [Nat.div_lt_iff_lt_mul hn]
      omega
    · omega
    · have := Nat.mod_lt (c - n * n) hn
      omega
    · have hdm := Nat.div_add_mod (c - n * n) n
      have hcm : (c - n * n) / n * n = n * ((c - n * n) / n) := Nat.mul_comm ..
      omega
  by_cases h3 : c < 3 * n * n
  · refine Or.inr (Or.inr (Or.inl
      ⟨(c - 2 * n * n) / n, (c - 2 * n * n) % n + 1, ?_, ?_, ?_, ?_⟩))
    · rw [Nat.div_lt_iff_lt_mul hn]
      omega
    · omega
    · have := Nat.mod_lt (c - 2 * n * n) hn
      omega
    · have hdm := Nat.div_add_mod (c - 2 * n * n) n
      have hcm : (c - 2 * n * n) / n * n = n * ((c - 2 * n * n) / n) :=
        Nat.mul_comm ..
      omega
  · refine Or.inr (Or.inr (Or.inr
      ⟨(c - 3 * n * n) / n, (c - 3 * n * n) % n + 1, ?_, ?_, ?_, ?_⟩))
    · rw [Nat.div_lt_iff_lt_mul hn]
      omega
    · omega
    · have := Nat.mod_lt (c - 3 * n * n) hn
      omega
    · have hdm := Nat.div_add_mod (c - 3 * n * n) n
      have hcm : (c - 3 * n * n) / n * n = n * ((c - 3 * n * n) / n) :=
        Nat.mul_comm ..
      omega

/-- Transfer of a count between two duplicate-free lists that agree on
membership of the predicate's support. -/
lemma countP_transfer {l1 l2 : List Nat} (h1 : l1.Nodup) (h2 : l2.Nodup)
    (P : Nat → Bool)
    (hmem : ∀ a, P a = true → (a ∈ l1 ↔ a ∈ l2)) :
    l1.countP P = l2.countP P := by
  rw [List.countP_eq_length_filter, List.countP_eq_length_filter]
  apply List.Perm.length_eq
  apply (List.perm_ext_iff_of_nodup (h1.filter P) (h2.filter P)).mpr
  intro a
  simp only [List.mem_filter]
  constructor
  · rintro ⟨ha, hp⟩
    exact ⟨(hmem a hp).mp ha, hp⟩
  · rintro ⟨ha, hp⟩
    exact ⟨(hmem a hp).mpr ha, hp⟩

lemma countP_range_eq_one {m c : Nat} (hc : c < m) :
    (List.range m).countP (fun x => x == c) = 1 := by
  have ht : (List.range m).countP (fun x => x == c)
      = ([c] : List Nat).countP (fun x => x == c) := by
    apply countP_transfer (List.nodup_range m) (by simp) _
    intro a ha
    simp only [beq_iff_eq] at ha
    subst ha
    simp [List.mem_range, hc]
  rw [ht]
  simp

/-- A full grid that completes the puzzle: fully valid, every cell holding a
value in `1..n`, and agreeing with the puzzle at every given cell. -/
def Completion (n br bc : Nat) (puzzle g : List Nat) : Prop :=
  ValidSolution n br bc g ∧
  (∀ k, k < n * n → 1 ≤ g.getD k 0 ∧ g.getD k 0 ≤ n) ∧
  (∀ k, k < n * n → puzzle.getD k 0 ≠ 0 → g.getD k 0 = puzzle.getD k 0)

instance (n br bc : Nat) (puzzle g : List Nat) :
    Decidable (Completion n br bc puzzle g) := by
  unfold Completion
  infer_instance

/-- The matrix row a grid selects at a cell. -/
def rowOf (n br bc : Nat) (g : List Nat) (cell : Nat) : DRow :=
  ⟨cell * n + g.getD cell 0 - 1,
    getConstraints n br bc (cell / n) (cell % n) (g.getD cell 0)⟩

/-- The row set a full grid selects. -/
def rlOf (n br bc : Nat) (g : List Nat) : List DRow :=
  (List.range (n * n)).map (rowOf n br bc g)

lemma rlOf_mem {n br bc : Nat} {puzzle g : List Nat} (hn : 0 < n)
    (hgv : ∀ k, k < n * n → 1 ≤ g.getD k 0 ∧ g.getD k 0 ≤ n)
    (hagree : ∀ k, k < n * n → puzzle.getD k 0 ≠ 0 →
      g.getD k 0 = puzzle.getD k 0) :
    ∀ r ∈ rlOf n br bc g, r ∈ buildMatrix n br bc puzzle := by
  intro r hr
  rcases List.mem_map.mp hr with ⟨cell, hcellr, rfl⟩
  rw [List.mem_range] at hcellr
  have hrowlt : cell / n < n := by
    rw [Nat.div_lt_iff_lt_mul hn]
    omega
  have hcollt : cell % n < n := Nat.mod_lt _ hn
  have hcell : cell / n * n + cell % n = cell := by
    rw [Nat.mul_comm]
    exact Nat.div_add_mod cell n
  unfold buildMatrix
  refine List.mem_flatMap.mpr ⟨cell / n, List.mem_range.mpr hrowlt, ?_⟩
  refine List.mem_flatMap.mpr ⟨cell % n, List.mem_range.mpr hcollt, ?_⟩
  simp only [hcell]
  by_cases hgiv : puzzle.getD cell 0 > 0
  · rw [if_pos hgiv]
    have hg : g.getD cell 0 = puzzle.getD cell 0 :=
      hagree cell hcellr (by omega)
    refine List.mem_map.mpr ⟨puzzle.getD cell 0, List.mem_singleton.mpr rfl, ?_⟩
    simp only [rowOf, hg]
  · rw [if_neg hgiv]
    refine List.mem_map.mpr ⟨g.getD cell 0, ?_, rfl⟩
    apply List.mem_range'_1.mpr
    have := hgv cell hcellr
    omega

lemma rlOf_cover {n br bc : Nat} {g : List Nat}
    (hbr : 0 < br) (hbc : 0 < bc) (hsz : br * bc = n)
    (hval : ValidSolution n br bc g)
    (hgv : ∀ k, k < n * n → 1 ≤ g.getD k 0 ∧ g.getD k 0 ≤ n) :
    ExactCoverList (List.range (4 * n * n)) (rlOf n br bc g) := by
  have hn : 0 < n := by
    have := Nat.mul_pos hbr hbc
    omega
  intro c hcm
  rw [List.mem_range] at hcm
  unfold rlOf
  rw [List.countP_map]
  have hdm : ∀ cell, cell < n * n →
      cell / n < n ∧ cell % n < n ∧ cell / n * n + cell % n = cell := by
    intro cell hcell
    refine ⟨?_, Nat.mod_lt _ hn, ?_⟩
    · rw [Nat.div_lt_iff_lt_mul hn]
      omega
    · rw [Nat.mul_comm]
      exact Nat.div_add_mod cell n
  rcases col_family hn hcm with hcase | ⟨R, v, hR, hv1, hv2, rfl⟩ |
      ⟨C, v, hC, hv1, hv2, rfl⟩ | ⟨B, v, hB, hv1, hv2, rfl⟩
  · -- cell constraint column
    have hcong : ∀ cell ∈ List.range (n * n),
        (((fun r => r.cols.contains c) ∘ rowOf n br bc g) cell = true ↔
          (cell == c) = true) := by
      intro cell hcellm
      rw [List.mem_range] at hcellm
      obtain ⟨hrlt, hclt, hcid⟩ := hdm cell hcellm
      show ((rowOf n br bc g cell).cols.contains c) = true ↔ _
      simp only [rowOf, List.elem_iff, beq_iff_eq]
      constructor
      · intro hmem
        have := mem_cols_lt_nsq hcase (hgv cell hcellm).1 hmem
        omega
      · rintro rfl
        unfold getConstraints
        exact List.mem_cons.mpr (Or.inl hcid.symm)
    rw [List.countP_congr hcong]
    exact countP_range_eq_one hcase
  · -- row-value constraint column
    have hcong : ∀ cell ∈ List.range (n * n),
        (((fun r => r.cols.contains (n * n + R * n + v - 1)) ∘
            rowOf n br bc g) cell = true ↔
          ((cell / n == R) && (g.getD cell 0 == v)) = true) := by
      intro cell hcellm
      rw [List.mem_range] at hcellm
      obtain ⟨hrlt, hclt, hcid⟩ := hdm cell hcellm
      obtain ⟨hg1, hg2⟩ := hgv cell hcellm
      show ((rowOf n br bc g cell).cols.contains _) = true ↔ _
      simp only [rowOf, List.elem_iff, Bool.and_eq_true, beq_iff_eq]
      exact mem_constraints_rowcol hn hrlt hclt hg1 hg2 hR hv1 hv2
    rw [List.countP_congr hcong]
    have ht : (List.range (n * n)).countP
        (fun cell => (cell / n == R) && (g.getD cell 0 == v))
        = (RetroSudoku.HS.getRowIndices R n).countP
          (fun cell => (cell / n == R) && (g.getD cell 0 == v)) := by
      apply countP_transfer (List.nodup_range (n * n)) (nodup_rowIndices R n)
      intro a ha
      simp only [Bool.and_eq_true, beq_iff_eq] at ha
      constructor
      · intro ham
        rw [List.mem_range] at ham
        obtain ⟨_, hclt, hcid⟩ := hdm a ham
        apply mem_rowIndices.mpr
        exact ⟨a % n, hclt, by rw [← ha.1]; omega⟩
      · intro ham
        rcases mem_rowIndices.mp ham with ⟨c2, hc2, rfl⟩
        exact List.mem_range.mpr (offset_lt hR hc2)
    rw [ht]
    have hcong2 : ∀ k ∈ RetroSudoku.HS.getRowIndices R n,
        (((k / n == R) && (g.getD k 0 == v)) = true ↔
          (g.getD k 0 == v) = true) := by
      intro k hk
      rcases mem_rowIndices.mp hk with ⟨c2, hc2, rfl⟩
      have := (@cell_decomp n R c2 hn hc2).1
      simp [this]
    rw [List.countP_congr hcong2]
    exact hval.2.1 R (List.mem_range.mpr hR) v
      (List.mem_range'_1.mpr ⟨hv1, by omega⟩)
  · -- column-value constraint column
    have hcong : ∀ cell ∈ List.range (n * n),
        (((fun r => r.cols.contains (2 * n * n + C * n + v - 1)) ∘
            rowOf n br bc g) cell = true ↔
          ((cell % n == C) && (g.getD cell 0 == v)) = true) := by
      intro cell hcellm
      rw [List.mem_range] at hcellm
      obtain ⟨hrlt, hclt, hcid⟩ := hdm cell hcellm
      obtain ⟨hg1, hg2⟩ := hgv cell hcellm
      show ((rowOf n br bc g cell).cols.contains _) = true ↔ _
      simp only [rowOf, List.elem_iff, Bool.and_eq_true, beq_iff_eq]
      exact mem_constraints_colcol hn hrlt hclt hg1 hg2 hC hv1 hv2
    rw [List.countP_congr hcong]
    have ht : (List.range (n * n)).countP
        (fun cell => (cell % n == C) && (g.getD cell 0 == v))
        = (RetroSudoku.HS.getColIndices C n).countP
          (fun cell => (cell % n == C) && (g.getD cell 0 == v)) := by
      apply countP_transfer (List.nodup_range (n * n))
        (nodup_colIndices C n hn)
      intro a ha
      simp only [Bool.and_eq_true, beq_iff_eq] at ha
      constructor
      · intro ham
        rw [List.mem_range] at ham
        obtain ⟨hrlt, _, hcid⟩ := hdm a ham
        apply mem_colIndices.mpr
        exact ⟨a / n, hrlt, by rw [← ha.1]; omega⟩
      · intro ham
        rcases mem_colIndices.mp ham with ⟨r2, hr2, rfl⟩
        exact List.mem_range.mpr (offset_lt hr2 hC)
    rw [ht]
    have hcong2 : ∀ k ∈ RetroSudoku.HS.getColIndices C n,
        (((k % n == C) && (g.getD k 0 == v)) = true ↔
          (g.getD k 0 == v) = true) := by
      intro k hk
      rcases mem_colIndices.mp hk with ⟨r2, hr2, rfl⟩
      have := (@cell_decomp n r2 C hn hC).2
      simp [this]
    rw [List.countP_congr hcong2]
    exact hval.2.2.1 C (List.mem_range.mpr hC) v
      (List.mem_range'_1.mpr ⟨hv1, by omega⟩)
  · -- box-value constraint column
    have hcong : ∀ cell ∈ List.range (n * n),
        (((fun r => r.cols.contains (3 * n * n + B * n + v - 1)) ∘
            rowOf n br bc g) cell = true ↔
          ((getBox n br bc (cell / n) (cell % n) == B) &&
            (g.getD cell 0 == v)) = true) := by
      intro cell hcellm
      rw [List.mem_range] at hcellm
      obtain ⟨hrlt, hclt, hcid⟩ := hdm cell hcellm
      obtain ⟨hg1, hg2⟩ := hgv cell hcellm
      show ((rowOf n br bc g cell).cols.contains _) = true ↔ _
      simp only [rowOf, List.elem_iff, Bool.and_eq_true, beq_iff_eq]
      exact mem_constraints_boxcol hn hbr hbc hsz hrlt hclt hg1 hg2 hB hv1 hv2
    rw [List.countP_congr hcong]
    have ht : (List.range (n * n)).countP
        (fun cell => (getBox n br bc (cell / n) (cell % n) == B) &&
          (g.getD cell 0 == v))
        = (RetroSudoku.HS.getBoxIndices B n br bc).countP
          (fun cell => (getBox n br bc (cell / n) (cell % n) == B) &&
            (g.getD cell 0 == v)) := by
      apply countP_transfer (List.nodup_range (n * n))
        (nodup_boxIndices hbr hbc hsz)
      intro a ha
      simp only [Bool.and_eq_true, beq_iff_eq] at ha
      constructor
      · intro ham
        rw [List.mem_range] at ham
        obtain ⟨hrlt, hclt, hcid⟩ := hdm a ham
        have := (cell_mem_boxIndices hbr hbc hsz hrlt hclt).mpr ha.1
        rw [hcid] at this
        exact this
      · intro ham
        rcases mem_boxIndices_decomp hbr hbc hsz hB ham with
          ⟨row, col, hrow, hcol, rfl, _⟩
        exact List.mem_range.mpr (offset_lt hrow hcol)
    rw [ht]
    have hcong2 : ∀ k ∈ RetroSudoku.HS.getBoxIndices B n br bc,
        (((getBox n br bc (k / n) (k % n) == B) &&
            (g.getD k 0 == v)) = true ↔
          (g.getD k 0 == v) = true) := by
      intro k hk
      rcases mem_boxIndices_decomp hbr hbc hsz hB hk with
        ⟨row, col, hrow, hcol, rfl, hbox⟩
      have hd := @cell_decomp n row col hn hcol
      simp [hd.1, hd.2, hbox]
    rw [List.countP_congr hcong2]
    exact hval.2.2.2 B (List.mem_range.mpr hB) v
      (List.mem_range'_1.mpr ⟨hv1, by omega⟩)

lemma rlOf_ids (n br bc : Nat) (g : List Nat) :
    (rlOf n br bc g).map DRow.id =
      (List.range (n * n)).map (fun cell => cell * n + g.getD cell 0 - 1) := by
  unfold rlOf
  rw [List.map_map]
  rfl

lemma rlOf_ids_pairwise {n br bc : Nat} {g : List Nat}
    (hgv : ∀ k, k < n * n → 1 ≤ g.getD k 0 ∧ g.getD k 0 ≤ n) :
    ((rlOf n br bc g).map DRow.id).Pairwise (· < ·) := by
  rw [rlOf_ids]
  rw [List.pairwise_map]
  refine (List.pairwise_lt_range (n * n)).imp_of_mem ?_
  intro a b ha hb hab
  rw [List.mem_range] at ha hb
  have h1 := hgv a ha
  have h2 := hgv b hb
  have h3 : (a + 1) * n ≤ b * n := mul_le_mul_right' (by omega) n
  have e1 : (a + 1) * n = a * n + n := by ring
  omega

lemma rlOf_nodup {n br bc : Nat} {g : List Nat}
    (hgv : ∀ k, k < n * n → 1 ≤ g.getD k 0 ∧ g.getD k 0 ≤ n) :
    (rlOf n br bc g).Nodup := by
  have hp := @rlOf_ids_pairwise n br bc g hgv
  have hnd : ((rlOf n br bc g).map DRow.id).Nodup :=
    hp.imp (fun h => Nat.ne_of_lt h)
  exact hnd.of_map _

/-- Permutation-equal selected id lists force equal grids on the board. -/
lemma rlOf_ids_inj {n br bc : Nat} {g1 g2 : List Nat}
    (hgv1 : ∀ k, k < n * n → 1 ≤ g1.getD k 0 ∧ g1.getD k 0 ≤ n)
    (hgv2 : ∀ k, k < n * n → 1 ≤ g2.getD k 0 ∧ g2.getD k 0 ≤ n)
    (hperm : ((rlOf n br bc g1).map DRow.id).Perm
      ((rlOf n br bc g2).map DRow.id)) :
    ∀ k, k < n * n → g1.getD k 0 = g2.getD k 0 := by
  have hs1 : ((rlOf n br bc g1).map DRow.id).Sorted (· ≤ ·) :=
    (@rlOf_ids_pairwise n br bc g1 hgv1).imp (fun h => Nat.le_of_lt h)
  have hs2 : ((rlOf n br bc g2).map DRow.id).Sorted (· ≤ ·) :=
    (@rlOf_ids_pairwise n br bc g2 hgv2).imp (fun h => Nat.le_of_lt h)
  have heq := List.eq_of_perm_of_sorted hperm hs1 hs2
  rw [rlOf_ids, rlOf_ids] at heq
  intro k hk
  have h1 : ((List.range (n * n)).map
      (fun cell => cell * n + g1.getD cell 0 - 1)).getD k 0
      = k * n + g1.getD k 0 - 1 := by
    rw [List.getD_eq_getElem?_getD, List.getElem?_map, List.getElem?_range hk]
    rfl
  have h2 : ((List.range (n * n)).map
      (fun cell => cell * n + g2.getD cell 0 - 1)).getD k 0
      = k * n + g2.getD k 0 - 1 := by
    rw [List.getD_eq_getElem?_getD, List.getElem?_map, List.getElem?_range hk]
    rfl
  have h3 := congrArg (fun l => l.getD k 0) heq
  simp only [h1, h2] at h3
  have hb1 := hgv1 k hk
  have hb2 := hgv2 k hk
  omega

end RetroSudoku.DLX

namespace RetroSudoku.DLX

lemma two_mem_length {α : Type} {l : List α} {a b : α}
    (ha : a ∈ l) (hb : b ∈ l) (hab : a ≠ b) : 2 ≤ l.length := by
  rcases l with _ | ⟨x, _ | ⟨y, t⟩⟩
  · simp at ha
  · rw [List.mem_singleton.mp ha, List.mem_singleton.mp hb] at hab
    exact absurd rfl hab
  · simp only [List.length_cons]
    omega

/-- Two distinct completions force the bounded search (limit 2) to record at
least two solutions. -/
lemma count_ge_two {n br bc : Nat} {puzzle g1 g2 : List Nat}
    (hbr : 0 < br) (hbc : 0 < bc) (hsz : br * bc = n)
    (hv : ∀ w ∈ puzzle, w ≤ n)
    (hc1 : Completion n br bc puzzle g1) (hc2 : Completion n br bc puzzle g2)
    (hne : ∃ k, k < n * n ∧ g1.getD k 0 ≠ g2.getD k 0) :
    2 ≤ (search (4 * n * n + 1) (List.range (4 * n * n))
      (buildMatrix n br bc puzzle) 2 [] ⟨[], 0⟩).1.count := by
  have hn : 0 < n := by
    have := Nat.mul_pos hbr hbc
    omega
  by_cases hflag : (search (4 * n * n + 1) (List.range (4 * n * n))
      (buildMatrix n br bc puzzle) 2 [] ⟨[], 0⟩).2 = true
  · exact search_flag _ _ _ _ _ _ hflag
  · have hfalse : (search (4 * n * n + 1) (List.range (4 * n * n))
        (buildMatrix n br bc puzzle) 2 [] ⟨[], 0⟩).2 = false := by
      simpa using hflag
    have hwf := buildMatrix_wf hbr hbc hsz hv
    have hfuel : (List.range (4 * n * n)).length < 4 * n * n + 1 := by
      rw [List.length_range]
      omega
    obtain ⟨ids1, hperm1, hmem1⟩ := search_complete (4 * n * n + 1)
      (List.range (4 * n * n)) (buildMatrix n br bc puzzle) 2 [] ⟨[], 0⟩
      (rlOf n br bc g1) hfuel hwf (rlOf_mem hn hc1.2.1 hc1.2.2)
      (rlOf_nodup hc1.2.1) (rlOf_cover hbr hbc hsz hc1.1 hc1.2.1) hfalse
    obtain ⟨ids2, hperm2, hmem2⟩ := search_complete (4 * n * n + 1)
      (List.range (4 * n * n)) (buildMatrix n br bc puzzle) 2 [] ⟨[], 0⟩
      (rlOf n br bc g2) hfuel hwf (rlOf_mem hn hc2.2.1 hc2.2.2)
      (rlOf_nodup hc2.2.1) (rlOf_cover hbr hbc hsz hc2.1 hc2.2.1) hfalse
    rw [List.nil_append] at hmem1 hmem2
    have hne2 : ids1 ≠ ids2 := by
      intro he
      obtain ⟨k, hk, hkne⟩ := hne
      apply hkne
      have hperm2b : ids1.Perm ((rlOf n br bc g2).map DRow.id) := by
        rw [he]
        exact hperm2
      exact rlOf_ids_inj hc1.2.1 hc2.2.1 (hperm1.symm.trans hperm2b) k hk
    have hlen := two_mem_length hmem1 hmem2 hne2
    obtain ⟨ext, hsols, hcount⟩ := search_mono (4 * n * n + 1)
      (List.range (4 * n * n)) (buildMatrix n br bc puzzle) 2 [] ⟨[], 0⟩
    rw [hsols] at hlen
    rw [hcount]
    simp only [List.nil_append, List.length_append] at hlen ⊢
    omega

end RetroSudoku.DLX

/-- C3: `hasUniqueSolution` returns `true` exactly when `solve` (whose
solution limit is 2 on this path) reports `solved = true` with
`solutionCount = 1`; and whenever a well-formed board admits two distinct
completions, `hasUniqueSolution` returns `false` as an ordinary value (the
embedding is a total function, so no exception is possible). -/
theorem C3_hasUniqueSolution_spec :
    ∀ (n br bc : Nat) (puzzle : List Nat),
      0 < br → 0 < bc → br * bc = n → (∀ w ∈ puzzle, w ≤ n) →
      ((RetroSudoku.DLX.hasUniqueSolution n br bc puzzle = true ↔
        ((RetroSudoku.DLX.solve n br bc puzzle).solved = true ∧
          (RetroSudoku.DLX.solve n br bc puzzle).solutionCount = 1)) ∧
        ∀ g1 g2 : List Nat,
          RetroSudoku.DLX.Completion n br bc puzzle g1 →
          RetroSudoku.DLX.Completion n br bc puzzle g2 →
          (∃ k, k < n * n ∧ g1.getD k 0 ≠ g2.getD k 0) →
          RetroSudoku.DLX.hasUniqueSolution n br bc puzzle = false) := by
  intro n br bc puzzle hbr hbc hsz hv
  constructor
  · show ((RetroSudoku.DLX.solve n br bc puzzle).solved &&
      ((RetroSudoku.DLX.solve n br bc puzzle).solutionCount == 1)) = true ↔ _
    simp only [Bool.and_eq_true, beq_iff_eq]
  · intro g1 g2 hc1 hc2 hne
    have h2 := RetroSudoku.DLX.count_ge_two hbr hbc hsz hv hc1 hc2 hne
    show ((RetroSudoku.DLX.solve n br bc puzzle).solved &&
      ((RetroSudoku.DLX.solve n br bc puzzle).solutionCount == 1)) = false
    rw [RetroSudoku.DLX.solve_eq]
    cases hsols : (RetroSudoku.DLX.search (4 * n * n + 1)
        (List.range (4 * n * n))
        (RetroSudoku.DLX.buildMatrix n br bc puzzle) 2 []
        ⟨[], 0⟩).1.solutions with
    | nil => rfl
    | cons s rest =>
      simp only [Bool.true_and, beq_eq_false_iff_ne]
      omega

/-- Witness for C3 at the empty 2x2 board, which has the two completions
`[1,2,2,1]` and `[2,1,1,2]`. -/
theorem C3_witness :
    RetroSudoku.DLX.hasUniqueSolution 2 1 2 [0, 0, 0, 0] = false :=
  (C3_hasUniqueSolution_spec 2 1 2 [0, 0, 0, 0] (by decide) (by decide)
      (by decide) (by decide)).2
    [1, 2, 2, 1] [2, 1, 1, 2] (by decide) (by decide)
    ⟨0, by decide, by decide⟩

namespace RetroSudoku.DLX

/-! ### A full valid grid has exactly one completion (for C1) -/

lemma range_sq_flatMap {α : Type} (n : Nat) (f : Nat → α) :
    ∀ m : Nat, (List.range (m * n)).map f =
      (List.range m).flatMap
        (fun row => (List.range n).map (fun col => f (row * n + col))) := by
  intro m
  induction m with
  | zero => simp
  | succ m ih =>
    have h1 : (m + 1) * n = m * n + n := by ring
    rw [h1, List.range_add, List.map_append, ih, List.range_succ,
      List.flatMap_append]
    congr 1
    rw [List.map_map]
    simp only [List.flatMap_cons, List.flatMap_nil, List.append_nil]
    rfl

/-- On a fully given board, `buildMatrix` is exactly the grid's selected row
set. -/
lemma buildMatrix_full_eq {n br bc : Nat} {g : List Nat} (hn : 0 < n)
    (hfull : ∀ k, k < n * n → 0 < g.getD k 0) :
    buildMatrix n br bc g = rlOf n br bc g := by
  unfold buildMatrix rlOf
  rw [range_sq_flatMap n (rowOf n br bc g) n]
  apply List.flatMap_congr
  intro row hrow
  rw [List.mem_range] at hrow
  have hinner : ∀ col ∈ List.range n,
      (fun col =>
        let cellIdx := row * n + col
        let given := g.getD cellIdx 0
        let nums := if given > 0 then [given] else List.range' 1 n
        nums.map (fun num =>
          (⟨cellIdx * n + num - 1,
            getConstraints n br bc row col num⟩ : DRow))) col
        = [rowOf n br bc g (row * n + col)] := by
    intro col hcol
    rw [List.mem_range] at hcol
    have hlt : row * n + col < n * n := offset_lt hrow hcol
    have hgpos := hfull (row * n + col) hlt
    show (if g.getD (row * n + col) 0 > 0
        then [g.getD (row * n + col) 0] else List.range' 1 n).map _
      = [rowOf n br bc g (row * n + col)]
    rw [if_pos hgpos]
    rw [List.map_singleton]
    have hd := @cell_decomp n row col hn hcol
    unfold rowOf
    rw [hd.1, hd.2]
  calc (List.range n).flatMap (fun col =>
        let cellIdx := row * n + col
        let given := g.getD cellIdx 0
        let nums := if given > 0 then [given] else List.range' 1 n
        nums.map (fun num =>
          (⟨cellIdx * n + num - 1,
            getConstraints n br bc row col num⟩ : DRow)))
      = (List.range n).flatMap
          (fun col => [rowOf n br bc g (row * n + col)]) :=
        List.flatMap_congr hinner
    _ = (List.range n).map (fun col => rowOf n br bc g (row * n + col)) :=
        (List.map_eq_flatMap _ _).symm

lemma colSize_coverRows_le (rows : List DRow) (r : DRow) (c : Nat) :
    colSize (coverRows rows r) c ≤ colSize rows c :=
  (List.filter_sublist _).countP_le _

/-- If every live column has at most one live row, the search adds at most
one solution. -/
lemma search_count_le : ∀ (fuel : Nat) (cols : List Nat) (rows : List DRow)
    (limit : Nat) (part : List Nat) (st : SState),
    (∀ c2 ∈ cols, colSize rows c2 ≤ 1) →
    (search fuel cols rows limit part st).1.count ≤ st.count + 1 := by
  intro fuel
  induction fuel with
  | zero =>
    intro cols rows limit part st _
    show st.count ≤ st.count + 1
    omega
  | succ fuel ih =>
    intro cols rows limit part st hone
    cases cols with
    | nil =>
      show st.count + 1 ≤ st.count + 1
      omega
    | cons c cs =>
      have hmc : pickMinCol rows c cs ∈ c :: cs := pickMinCol_mem rows cs c
      by_cases h0 : colSize rows (pickMinCol rows c cs) = 0
      · rw [search, if_pos h0]
        show st.count ≤ st.count + 1
        omega
      · rw [search, if_neg h0]
        have hsz : (rows.filter
            (fun r => r.cols.contains (pickMinCol rows c cs))).length = 1 := by
          have h1 := hone _ hmc
          unfold colSize at h0 h1
          rw [List.countP_eq_length_filter] at h0 h1
          omega
        obtain ⟨r, hr⟩ := List.length_eq_one.mp hsz
        rw [hr]
        have hrec := ih (coverCols (c :: cs) r) (coverRows rows r) limit
          (part ++ [r.id]) st (by
            intro c2 hc2
            exact Nat.le_trans (colSize_coverRows_le rows r c2)
              (hone c2 (mem_coverCols.mp hc2).1))
        by_cases hb : (search fuel (coverCols (c :: cs) r) (coverRows rows r)
            limit (part ++ [r.id]) st).2 = true
        · rw [searchRows, if_pos hb]
          exact hrec
        · rw [searchRows, if_neg hb]
          show (search fuel (coverCols (c :: cs) r) (coverRows rows r) limit
            (part ++ [r.id]) st).1.count ≤ st.count + 1
          exact hrec

/-- A fully given valid grid passes `hasUniqueSolution`: the encoded matrix
has exactly one row per column family member, hence exactly one cover. -/
lemma full_has_unique {n br bc : Nat} {g : List Nat}
    (hbr : 0 < br) (hbc : 0 < bc) (hsz : br * bc = n)
    (hval : ValidSolution n br bc g)
    (hgv : ∀ k, k < n * n → 1 ≤ g.getD k 0 ∧ g.getD k 0 ≤ n) :
    hasUniqueSolution n br bc g = true := by
  have hn : 0 < n := by
    have := Nat.mul_pos hbr hbc
    omega
  have hlen : g.length = n * n := hval.1
  have hv : ∀ w ∈ g, w ≤ n := by
    intro w hw
    obtain ⟨i, hi, hgi⟩ := List.mem_iff_getElem.mp hw
    have hgd : g.getD i 0 = w := by
      rw [List.getD_eq_getElem _ _ hi, hgi]
    have := hgv i (by omega)
    omega
  have hfull : ∀ k, k < n * n → 0 < g.getD k 0 := fun k hk => (hgv k hk).1
  have heq : buildMatrix n br bc g = rlOf n br bc g :=
    buildMatrix_full_eq hn hfull
  have hcov := rlOf_cover hbr hbc hsz hval hgv
  have hone : ∀ c2 ∈ List.range (4 * n * n),
      colSize (buildMatrix n br bc g) c2 ≤ 1 := by
    intro c2 hc2
    rw [heq]
    exact Nat.le_of_eq (hcov c2 hc2)
  have hle := search_count_le (4 * n * n + 1) (List.range (4 * n * n))
    (buildMatrix n br bc g) 2 [] ⟨[], 0⟩ hone
  have hflag : (search (4 * n * n + 1) (List.range (4 * n * n))
      (buildMatrix n br bc g) 2 [] ⟨[], 0⟩).2 = false := by
    by_contra h
    have h2 := search_flag (4 * n * n + 1) (List.range (4 * n * n))
      (buildMatrix n br bc g) 2 [] ⟨[], 0⟩ (by
        cases hx : (search (4 * n * n + 1) (List.range (4 * n * n))
            (buildMatrix n br bc g) 2 [] ⟨[], 0⟩).2
        · exact absurd hx h
        · rfl)
    show False
    have : (⟨[], 0⟩ : SState).count = 0 := rfl
    omega
  have hfuel : (List.range (4 * n * n)).length < 4 * n * n + 1 := by
    rw [List.length_range]
    omega
  obtain ⟨ids, hperm, hmem⟩ := search_complete (4 * n * n + 1)
    (List.range (4 * n * n)) (buildMatrix n br bc g) 2 [] ⟨[], 0⟩
    (rlOf n br bc g) hfuel (buildMatrix_wf hbr hbc hsz hv)
    (fun r hr => heq ▸ hr) (rlOf_nodup hgv) hcov hflag
  rw [List.nil_append] at hmem
  show ((solve n br bc g).solved && ((solve n br bc g).solutionCount == 1))
    = true
  rw [solve_eq]
  cases hsols2 : (search (4 * n * n + 1) (List.range (4 * n * n))
      (buildMatrix n br bc g) 2 [] ⟨[], 0⟩).1.solutions with
  | nil =>
    rw [hsols2] at hmem
    simp at hmem
  | cons s rest =>
    simp only [Bool.true_and, beq_iff_eq]
    obtain ⟨ext, hsols, hcount⟩ := search_mono (4 * n * n + 1)
      (List.range (4 * n * n)) (buildMatrix n br bc g) 2 [] ⟨[], 0⟩
    rw [hsols2] at hsols
    simp only [List.nil_append] at hsols
    have hlen2 : (s :: rest).length = ext.length := by rw [hsols]
    simp only [List.length_cons] at hlen2
    have : (⟨[], 0⟩ : SState).count = 0 := rfl
    omega

end RetroSudoku.DLX

namespace RetroSudoku.Gen

/-! ### The shuffles are permutations (for C1) -/

lemma count_set_add {α : Type} [DecidableEq α] :
    ∀ (l : List α) (i : Nat) (h : i < l.length) (a b : α),
      (l.set i a).count b + (if l.get ⟨i, h⟩ = b then 1 else 0)
        = l.count b + (if a = b then 1 else 0) := by
  intro l
  induction l with
  | nil => intro i h; simp at h
  | cons x xs ih =>
    intro i h a b
    cases i with
    | zero =>
      show (a :: xs).count b + (if x = b then 1 else 0) = _
      rw [List.count_cons, List.count_cons]
      simp only [beq_iff_eq]
      split_ifs <;> omega
    | succ i =>
      have hlt : i < xs.length := by
        simp only [List.length_cons] at h
        omega
      show (x :: xs.set i a).count b + (if xs.get ⟨i, hlt⟩ = b then 1 else 0)
        = (x :: xs).count b + (if a = b then 1 else 0)
      rw [List.count_cons, List.count_cons]
      have h2 := ih i hlt a b
      simp only [beq_iff_eq] at h2 ⊢
      split_ifs at h2 ⊢ <;> omega

lemma listSwap_perm {α : Type} [DecidableEq α] (l : List α) (i j : Nat) :
    (listSwap l i j).Perm l := by
  unfold listSwap
  by_cases h : i < l.length ∧ j < l.length
  · rw [dif_pos h]
    apply List.perm_iff_count.mpr
    intro b
    have h2 : j < (l.set i (l.get ⟨j, h.2⟩)).length := by
      rw [List.length_set]
      exact h.2
    have hc2 := count_set_add (l.set i (l.get ⟨j, h.2⟩)) j h2
      (l.get ⟨i, h.1⟩) b
    have hc1 := count_set_add l i h.1 (l.get ⟨j, h.2⟩) b
    have hjj : (l.set i (l.get ⟨j, h.2⟩)).get ⟨j, h2⟩ = l.get ⟨j, h.2⟩ := by
      simp only [List.get_eq_getElem]
      by_cases hij : i = j
      · subst hij
        exact List.getElem_set_self h2
      · exact List.getElem_set_ne hij h2
    rw [hjj] at hc2
    split_ifs at hc1 hc2 <;> omega
  · rw [dif_neg h]

lemma shuffleAux_perm {α : Type} [DecidableEq α] :
    ∀ (i : Nat) (l : List α) (s : Nat), (shuffleAux i l s).1.Perm l := by
  intro i
  induction i with
  | zero => intro l s; exact List.Perm.refl l
  | succ i ih =>
    intro l s
    show (shuffleAux i (listSwap l (i + 1) (nextInt 0 (i + 1) s).1)
      (nextInt 0 (i + 1) s).2).1.Perm l
    exact (ih _ _).trans (listSwap_perm ..)

lemma shuffle_perm {α : Type} [DecidableEq α] (l : List α) (s : Nat) :
    (shuffle l s).1.Perm l :=
  shuffleAux_perm ..

end RetroSudoku.Gen

namespace RetroSudoku.Gen

/-! ### fillGrid: failure restores the grid exactly -/

lemma set_zero_eq {l : List Nat} {i : Nat} (h : l.getD i 0 = 0) :
    l.set i 0 = l := by
  by_cases hi : i < l.length
  · apply List.ext_getElem (by rw [List.length_set])
    intro k hk1 hk2
    by_cases hki : i = k
    · subst hki
      rw [List.getElem_set_self hk1]
      rw [List.getD_eq_getElem _ _ hi] at h
      exact h.symm
    · rw [List.getElem_set_ne hki]
  · exact List.set_eq_of_length_le (by omega)

lemma getD_replicate_zero (m k : Nat) : (List.replicate m 0).getD k 0 = 0 := by
  by_cases hk : k < m
  · rw [List.getD_eq_getElem _ _ (by simpa using hk)]
    exact List.getElem_replicate ..
  · rw [List.getD_eq_default]
    rw [List.length_replicate]
    omega

/-- One-step unfolding of the candidate loop. -/
lemma fillCands_cons (size index : Nat) (valid : List Nat → Nat → Bool)
    (go : List Nat → Nat → Bool × List Nat × Nat)
    (num : Nat) (rest grid : List Nat) (s : Nat) :
    fillCands size index valid go (num :: rest) grid s =
      if valid grid num then
        (if (go (grid.set index num) s).1 then go (grid.set index num) s
         else fillCands size index valid go rest
           ((go (grid.set index num) s).2.1.set index 0)
           (go (grid.set index num) s).2.2)
      else fillCands size index valid go rest grid s := rfl

/-- One-step unfolding of `fillGrid`. -/
lemma fillGrid_succ (size blockRows blockCols fuel index : Nat)
    (grid : List Nat) (s : Nat) :
    fillGrid size blockRows blockCols (fuel + 1) index grid s =
      if index ≥ size * size then (true, grid, s)
      else
        fillCands size index
          (fun g num => isValidPlacement g (index / size) (index % size) num
            size blockRows blockCols)
          (fun g s2 => fillGrid size blockRows blockCols fuel (index + 1) g s2)
          (shuffle (List.range' 1 size) s).1 grid
          (shuffle (List.range' 1 size) s).2 := rfl

lemma fillCands_restore (size index : Nat) (valid : List Nat → Nat → Bool)
    (go : List Nat → Nat → Bool × List Nat × Nat) (grid : List Nat)
    (hgo : ∀ num s2, (go (grid.set index num) s2).1 = false →
      (go (grid.set index num) s2).2.1 = grid.set index num)
    (hzero : grid.getD index 0 = 0) :
    ∀ (cands : List Nat) (s : Nat),
      (fillCands size index valid go cands grid s).1 = false →
      (fillCands size index valid go cands grid s).2.1 = grid := by
  intro cands
  induction cands with
  | nil => intro s _; rfl
  | cons num rest ih =>
    intro s hf
    rw [fillCands_cons] at hf ⊢
    by_cases hv : valid grid num = true
    · rw [if_pos hv] at hf ⊢
      by_cases hr : (go (grid.set index num) s).1 = true
      · rw [if_pos hr] at hf
        rw [hr] at hf
        exact absurd hf (by simp)
      · rw [if_neg hr] at hf ⊢
        have hres : (go (grid.set index num) s).2.1 = grid.set index num :=
          hgo num s (by simpa using hr)
        rw [hres, List.set_set, set_zero_eq hzero] at hf ⊢
        exact ih _ hf
    · rw [if_neg hv] at hf ⊢
      exact ih _ hf

lemma fillGrid_restore (size blockRows blockCols : Nat) :
    ∀ (fuel index : Nat) (grid : List Nat) (s : Nat),
      (∀ k, index ≤ k → grid.getD k 0 = 0) →
      (fillGrid size blockRows blockCols fuel index grid s).1 = false →
      (fillGrid size blockRows blockCols fuel index grid s).2.1 = grid := by
  intro fuel
  induction fuel with
  | zero => intro index grid s _ _; rfl
  | succ fuel ih =>
    intro index grid s hzero hf
    rw [fillGrid_succ] at hf ⊢
    by_cases hidx : index ≥ size * size
    · rw [if_pos hidx] at hf
      exact absurd hf (by simp)
    · rw [if_neg hidx] at hf ⊢
      refine fillCands_restore _ _ _ _ _ ?_ (hzero index (Nat.le_refl _)) _ _ hf
      intro num s2 hf2
      apply ih (index + 1) (grid.set index num) s2 _ hf2
      intro k hk
      rw [DLX.setGetD_ne _ _ _ _ _ (show index ≠ k by omega)]
      exact hzero k (by omega)

end RetroSudoku.Gen

namespace RetroSudoku.Gen

/-! ### isValidPlacement and unit distinctness -/

lemma unit_value_ne {comp : List Nat} {ks : List Nat} {n : Nat}
    (hcount : ∀ v ∈ List.range' 1 n,
      ks.countP (fun k => comp.getD k 0 == v) = 1)
    {k1 k2 : Nat} (h1 : k1 ∈ ks) (h2 : k2 ∈ ks) (hne : k1 ≠ k2)
    (hv : 1 ≤ comp.getD k1 0) (hv2 : comp.getD k1 0 ≤ n) :
    comp.getD k1 0 ≠ comp.getD k2 0 := by
  intro he
  have hc := hcount (comp.getD k1 0) (List.mem_range'_1.mpr ⟨hv, by omega⟩)
  have h2c := DLX.two_mem_countP ks (fun k => comp.getD k 0 == comp.getD k1 0)
    k1 k2 h1 h2 hne (by simp)
    (by show (comp.getD k2 0 == comp.getD k1 0) = true
        exact beq_iff_eq.mpr he.symm)
  omega

lemma div_mul_add_mod (x m : Nat) : x / m * m + x % m = x := by
  rw [Nat.mul_comm]
  exact Nat.div_add_mod x m

lemma block_offset_lt {n br bc : Nat} (hbr : 0 < br) (hbc : 0 < bc)
    (hsz : br * bc = n) {row dr : Nat} (hrow : row < n) (hdr : dr < br) :
    row / br * br + dr < n := by
  have hszc : bc * br = n := by rw [Nat.mul_comm]; exact hsz
  have h1 : row / br < bc := by
    rw [Nat.div_lt_iff_lt_mul hbr]
    omega
  have h2 : (row / br + 1) * br ≤ bc * br := mul_le_mul_right' (by omega) br
  have e : (row / br + 1) * br = row / br * br + br := by ring
  omega

lemma block_offset_lt_col {n br bc : Nat} (hbr : 0 < br) (hbc : 0 < bc)
    (hsz : br * bc = n) {col dc : Nat} (hcol : col < n) (hdc : dc < bc) :
    col / bc * bc + dc < n := by
  have h1 : col / bc < br := by
    rw [Nat.div_lt_iff_lt_mul hbc]
    omega
  have h2 : (col / bc + 1) * bc ≤ br * bc := mul_le_mul_right' (by omega) bc
  have e : (col / bc + 1) * bc = col / bc * bc + bc := by ring
  omega

lemma getBox_inj {n br bc : Nat} (hbr : 0 < br) (hbc : 0 < bc)
    (hsz : br * bc = n) {r1 c1 r2 c2 : Nat}
    (h2 : c1 < n) (h4 : c2 < n)
    (he : DLX.getBox n br bc r1 c1 = DLX.getBox n br bc r2 c2) :
    r1 / br = r2 / br ∧ c1 / bc = c2 / bc := by
  unfold DLX.getBox at he
  rw [DLX.ndivbc hbc hsz] at he
  have hb1 : c1 / bc < br := by
    rw [Nat.div_lt_iff_lt_mul hbc]
    omega
  have hb2 : c2 / bc < br := by
    rw [Nat.div_lt_iff_lt_mul hbc]
    omega
  exact DLX.offset_inj hbr hb1 hb2 he

/-- The three scans of `isValidPlacement` reach every cell sharing a row,
column or box with `index`. -/
lemma isValid_covers {n br bc : Nat} (hbr : 0 < br) (hbc : 0 < bc)
    (hsz : br * bc = n) {grid : List Nat} {index num j : Nat}
    (hidx : index < n * n) (hj : j < n * n)
    (hco : j / n = index / n ∨ j % n = index % n ∨
      DLX.getBox n br bc (j / n) (j % n) =
        DLX.getBox n br bc (index / n) (index % n)) :
    isValidPlacement grid (index / n) (index % n) num n br bc = true →
    grid.getD j 0 ≠ num := by
  have hn : 0 < n := by
    have := Nat.mul_pos hbr hbc
    omega
  have hjd : j / n < n := by
    rw [Nat.div_lt_iff_lt_mul hn]
    omega
  have hjm : j % n < n := Nat.mod_lt _ hn
  intro hvalid
  simp only [isValidPlacement, Bool.and_eq_true, List.all_eq_true,
    List.mem_range, decide_eq_true_eq] at hvalid
  obtain ⟨⟨hrow, hcol⟩, hbox⟩ := hvalid
  rcases hco with hco | hco | hco
  · have h := hrow (j % n) hjm
    rw [← hco] at h
    rw [div_mul_add_mod j n] at h
    exact h
  · have h := hcol (j / n) hjd
    rw [← hco] at h
    rw [div_mul_add_mod j n] at h
    exact h
  · obtain ⟨hr, hc⟩ := getBox_inj hbr hbc hsz hjm
      (Nat.mod_lt _ hn) hco
    have h := hbox ((j / n) % br) (Nat.mod_lt _ hbr) ((j % n) % bc)
      (Nat.mod_lt _ hbc)
    rw [← hr, ← hc] at h
    rw [div_mul_add_mod (j / n) br, div_mul_add_mod (j % n) bc] at h
    rw [div_mul_add_mod j n] at h
    exact h

/-- Placing the completion's value at the first unfilled cell passes the
validity check. -/
lemma isValid_of_comp {n br bc : Nat} (hbr : 0 < br) (hbc : 0 < bc)
    (hsz : br * bc = n) {comp grid : List Nat} {index : Nat}
    (hval : DLX.ValidSolution n br bc comp)
    (hgv1 : 1 ≤ comp.getD index 0) (hgv2 : comp.getD index 0 ≤ n)
    (hidx : index < n * n)
    (hagree : ∀ k, k < index → grid.getD k 0 = comp.getD k 0)
    (hzero : ∀ k, index ≤ k → grid.getD k 0 = 0) :
    isValidPlacement grid (index / n) (index % n) (comp.getD index 0)
      n br bc = true := by
  have hn : 0 < n := by
    have := Nat.mul_pos hbr hbc
    omega
  have hdl : index / n < n := by
    rw [Nat.div_lt_iff_lt_mul hn]
    omega
  have hml : index % n < n := Nat.mod_lt _ hn
  have hself : index / n * n + index % n = index := div_mul_add_mod index n
  -- a generic step: any cell of the three scans differing from a filled
  -- prefix cell is distinct from the completion value
  have key : ∀ j : Nat, j < n * n →
      (j ∈ RetroSudoku.HS.getRowIndices (index / n) n ∧
        index ∈ RetroSudoku.HS.getRowIndices (index / n) n) ∨
      (j ∈ RetroSudoku.HS.getColIndices (index % n) n ∧
        index ∈ RetroSudoku.HS.getColIndices (index % n) n) ∨
      (j ∈ RetroSudoku.HS.getBoxIndices
          (DLX.getBox n br bc (index / n) (index % n)) n br bc ∧
        index ∈ RetroSudoku.HS.getBoxIndices
          (DLX.getBox n br bc (index / n) (index % n)) n br bc) →
      grid.getD j 0 ≠ comp.getD index 0 := by
    intro j hjlt hmem
    by_cases hj : j < index
    · rw [hagree j hj]
      have hbox : DLX.getBox n br bc (index / n) (index % n) < n :=
        DLX.getBox_lt hbr hbc hsz hdl hml
      rcases hmem with ⟨hjm, him⟩ | ⟨hjm, him⟩ | ⟨hjm, him⟩
      · exact Ne.symm (unit_value_ne
          (hval.2.1 (index / n) (List.mem_range.mpr hdl)) him hjm
          (by omega) hgv1 hgv2)
      · exact Ne.symm (unit_value_ne
          (hval.2.2.1 (index % n) (List.mem_range.mpr hml)) him hjm
          (by omega) hgv1 hgv2)
      · exact Ne.symm (unit_value_ne
          (hval.2.2.2 (DLX.getBox n br bc (index / n) (index % n))
            (List.mem_range.mpr hbox)) him hjm (by omega) hgv1 hgv2)
    · rw [hzero j (by omega)]
      omega
  simp only [isValidPlacement, Bool.and_eq_true, List.all_eq_true,
    List.mem_range, decide_eq_true_eq]
  refine ⟨⟨?_, ?_⟩, ?_⟩
  · intro c hc
    apply key (index / n * n + c) (DLX.offset_lt hdl hc)
    refine Or.inl ⟨DLX.mem_rowIndices.mpr ⟨c, hc, rfl⟩,
      DLX.mem_rowIndices.mpr ⟨index % n, hml, hself.symm⟩⟩
  · intro r hr
    apply key (r * n + index % n) (DLX.offset_lt hr hml)
    refine Or.inr (Or.inl ⟨DLX.mem_colIndices.mpr ⟨r, hr, rfl⟩,
      DLX.mem_colIndices.mpr ⟨index / n, hdl, hself.symm⟩⟩)
  · intro dr hdr dc hdc
    have hrl : index / n / br * br + dr < n :=
      block_offset_lt hbr hbc hsz hdl hdr
    have hcl : index % n / bc * bc + dc < n :=
      block_offset_lt_col hbr hbc hsz hml hdc
    apply key ((index / n / br * br + dr) * n + (index % n / bc * bc + dc))
      (DLX.offset_lt hrl hcl)
    have hboxeq : DLX.getBox n br bc (index / n / br * br + dr)
        (index % n / bc * bc + dc)
        = DLX.getBox n br bc (index / n) (index % n) := by
      unfold DLX.getBox
      rw [(@DLX.cell_decomp br (index / n / br) dr hbr hdr).1,
        (@DLX.cell_decomp bc (index % n / bc) dc hbc hdc).1]
    refine Or.inr (Or.inr ⟨?_, ?_⟩)
    · rw [DLX.cell_mem_boxIndices hbr hbc hsz hrl hcl]
      exact hboxeq
    · have hm := (DLX.cell_mem_boxIndices hbr hbc hsz hdl hml).mpr rfl
      rw [hself] at hm
      exact hm

end RetroSudoku.Gen

namespace RetroSudoku.Gen

/-! ### fillGrid succeeds whenever a completion exists -/

lemma fillCands_reach (size index : Nat) (valid : List Nat → Nat → Bool)
    (go : List Nat → Nat → Bool × List Nat × Nat)
    (grid : List Nat) (target : Nat)
    (hvalid : valid grid target = true)
    (hgo : ∀ s2, (go (grid.set index target) s2).1 = true)
    (hrestore : ∀ num s2, (go (grid.set index num) s2).1 = false →
      (go (grid.set index num) s2).2.1 = grid.set index num)
    (hzero : grid.getD index 0 = 0) :
    ∀ (cands : List Nat) (s : Nat), target ∈ cands →
      (fillCands size index valid go cands grid s).1 = true := by
  intro cands
  induction cands with
  | nil => intro s ht; simp at ht
  | cons num rest ih =>
    intro s ht
    rw [fillCands_cons]
    by_cases hv : valid grid num = true
    · rw [if_pos hv]
      by_cases hr : (go (grid.set index num) s).1 = true
      · rw [if_pos hr]
        exact hr
      · rw [if_neg hr]
        have hres := hrestore num s (by simpa using hr)
        rw [hres, List.set_set, set_zero_eq hzero]
        rcases List.mem_cons.mp ht with rfl | ht2
        · exact absurd (hgo s) hr
        · exact ih _ ht2
    · rw [if_neg hv]
      rcases List.mem_cons.mp ht with rfl | ht2
      · exact absurd hvalid hv
      · exact ih _ ht2

lemma fillGrid_success {n br bc : Nat} (hbr : 0 < br) (hbc : 0 < bc)
    (hsz : br * bc = n) {comp : List Nat}
    (hval : DLX.ValidSolution n br bc comp)
    (hcgv : ∀ k, k < n * n → 1 ≤ comp.getD k 0 ∧ comp.getD k 0 ≤ n) :
    ∀ (fuel index : Nat) (grid : List Nat) (s : Nat),
      n * n - index < fuel →
      grid.length = n * n →
      (∀ k, k < index → grid.getD k 0 = comp.getD k 0) →
      (∀ k, index ≤ k → grid.getD k 0 = 0) →
      (fillGrid n br bc fuel index grid s).1 = true := by
  have hn : 0 < n := by
    have := Nat.mul_pos hbr hbc
    omega
  intro fuel
  induction fuel with
  | zero =>
    intro index grid s hf
    exact absurd hf (by omega)
  | succ fuel ih =>
    intro index grid s hf hlen hagree hzero
    rw [fillGrid_succ]
    by_cases hidx : index ≥ n * n
    · rw [if_pos hidx]
    · rw [if_neg hidx]
      have hidx2 : index < n * n := by omega
      have hc := hcgv index hidx2
      apply fillCands_reach _ _ _ _ _ (comp.getD index 0)
        (isValid_of_comp hbr hbc hsz hval hc.1 hc.2 hidx2 hagree hzero)
        ?_ ?_ (hzero index (Nat.le_refl _)) _ _ ?_
      · intro s2
        apply ih (index + 1) (grid.set index (comp.getD index 0)) s2
          (by omega) (by rw [List.length_set]; exact hlen)
        · intro k hk
          by_cases hki : k = index
          · subst hki
            exact DLX.setGetD_lt _ _ _ _ (by omega)
          · rw [DLX.setGetD_ne _ _ _ _ _ (fun he => hki he.symm)]
            exact hagree k (by omega)
        · intro k hk
          rw [DLX.setGetD_ne _ _ _ _ _ (by omega)]
          exact hzero k (by omega)
      · intro num s2 hf2
        apply fillGrid_restore _ _ _ _ _ _ _ _ hf2
        intro k hk
        rw [DLX.setGetD_ne _ _ _ _ _ (by omega)]
        exact hzero k (by omega)
      · rw [(shuffle_perm (List.range' 1 n) s).mem_iff]
        apply List.mem_range'_1.mpr
        omega

end RetroSudoku.Gen

namespace RetroSudoku.Gen

/-! ### fillGrid soundness: success yields a full non-conflicting grid -/

lemma nonConflicting_set {n br bc : Nat} (hbr : 0 < br) (hbc : 0 < bc)
    (hsz : br * bc = n) {grid : List Nat} {index num : Nat}
    (hidx : index < n * n) (hlen : grid.length = n * n)
    (hzero : ∀ k, index ≤ k → grid.getD k 0 = 0)
    (hnc : DLX.NonConflicting n br bc grid)
    (hvalid : isValidPlacement grid (index / n) (index % n) num n br bc
      = true) :
    DLX.NonConflicting n br bc (grid.set index num) := by
  intro i hi j hj hij hnzi hnzj hco
  rw [List.mem_range] at hi hj
  by_cases hii : i = index <;> by_cases hjj : j = index
  · exact absurd (hii.trans hjj.symm) hij
  · rw [hii] at hnzi hco hij ⊢
    rw [DLX.setGetD_lt _ _ _ _ (by omega)] at hnzi ⊢
    rw [DLX.setGetD_ne _ _ _ _ _ (fun he => hjj he.symm)] at hnzj ⊢
    have hjlt : j < index := by
      by_contra hge
      exact hnzj (hzero j (by omega))
    have hco2 : j / n = index / n ∨ j % n = index % n ∨
        DLX.getBox n br bc (j / n) (j % n) =
          DLX.getBox n br bc (index / n) (index % n) := by
      rcases hco with h | h | h
      · exact Or.inl h.symm
      · exact Or.inr (Or.inl h.symm)
      · exact Or.inr (Or.inr h.symm)
    exact Ne.symm (isValid_covers hbr hbc hsz hidx hj hco2 hvalid)
  · rw [hjj] at hnzj hco hij ⊢
    rw [DLX.setGetD_lt _ _ _ _ (by omega)] at hnzj ⊢
    rw [DLX.setGetD_ne _ _ _ _ _ (fun he => hii he.symm)] at hnzi ⊢
    have hilt : i < index := by
      by_contra hge
      exact hnzi (hzero i (by omega))
    exact isValid_covers hbr hbc hsz hidx hi hco hvalid
  · rw [DLX.setGetD_ne _ _ _ _ _ (fun he => hii he.symm)] at hnzi ⊢
    rw [DLX.setGetD_ne _ _ _ _ _ (fun he => hjj he.symm)] at hnzj ⊢
    exact hnc i (List.mem_range.mpr hi) j (List.mem_range.mpr hj) hij
      hnzi hnzj hco

lemma fillCands_sound (size index : Nat) (valid : List Nat → Nat → Bool)
    (go : List Nat → Nat → Bool × List Nat × Nat) (grid : List Nat)
    (P : List Nat → Prop)
    (hgos : ∀ num s2, 1 ≤ num → num ≤ size → valid grid num = true →
      (go (grid.set index num) s2).1 = true →
      P (go (grid.set index num) s2).2.1)
    (hrestore : ∀ num s2, (go (grid.set index num) s2).1 = false →
      (go (grid.set index num) s2).2.1 = grid.set index num)
    (hzero : grid.getD index 0 = 0) :
    ∀ (cands : List Nat) (s : Nat), (∀ c ∈ cands, 1 ≤ c ∧ c ≤ size) →
      (fillCands size index valid go cands grid s).1 = true →
      P (fillCands size index valid go cands grid s).2.1 := by
  intro cands
  induction cands with
  | nil =>
    intro s _ hf
    exact absurd hf (by simp [fillCands])
  | cons num rest ih =>
    intro s hb hf
    have hbn := hb num (List.mem_cons_self ..)
    rw [fillCands_cons] at hf ⊢
    by_cases hv : valid grid num = true
    · rw [if_pos hv] at hf ⊢
      by_cases hr : (go (grid.set index num) s).1 = true
      · rw [if_pos hr] at hf ⊢
        exact hgos num s hbn.1 hbn.2 hv hr
      · rw [if_neg hr] at hf ⊢
        have hres := hrestore num s (by simpa using hr)
        rw [hres, List.set_set, set_zero_eq hzero] at hf ⊢
        exact ih _ (fun c hc => hb c (List.mem_cons_of_mem _ hc)) hf
    · rw [if_neg hv] at hf ⊢
      exact ih _ (fun c hc => hb c (List.mem_cons_of_mem _ hc)) hf

lemma fillGrid_sound {n br bc : Nat} (hbr : 0 < br) (hbc : 0 < bc)
    (hsz : br * bc = n) :
    ∀ (fuel index : Nat) (grid : List Nat) (s : Nat),
      grid.length = n * n →
      (∀ k, k < index → 1 ≤ grid.getD k 0 ∧ grid.getD k 0 ≤ n) →
      (∀ k, index ≤ k → grid.getD k 0 = 0) →
      DLX.NonConflicting n br bc grid →
      (fillGrid n br bc fuel index grid s).1 = true →
      ((fillGrid n br bc fuel index grid s).2.1.length = n * n ∧
        (∀ k, k < n * n →
          1 ≤ (fillGrid n br bc fuel index grid s).2.1.getD k 0 ∧
          (fillGrid n br bc fuel index grid s).2.1.getD k 0 ≤ n) ∧
        DLX.NonConflicting n br bc
          (fillGrid n br bc fuel index grid s).2.1) := by
  intro fuel
  induction fuel with
  | zero =>
    intro index grid s _ _ _ _ hf
    exact absurd hf (by simp [fillGrid])
  | succ fuel ih =>
    intro index grid s hlen hvals hzero hnc hf
    rw [fillGrid_succ] at hf ⊢
    by_cases hidx : index ≥ n * n
    · rw [if_pos hidx] at hf ⊢
      exact ⟨hlen, fun k hk => hvals k (by omega), hnc⟩
    · rw [if_neg hidx] at hf ⊢
      have hidx2 : index < n * n := by omega
      refine fillCands_sound _ _ _ _ _
        (fun g => g.length = n * n ∧
          (∀ k, k < n * n → 1 ≤ g.getD k 0 ∧ g.getD k 0 ≤ n) ∧
          DLX.NonConflicting n br bc g) ?_ ?_
        (hzero index (Nat.le_refl _)) _ _ ?_ hf
      · intro num s2 h1 h2 hv hr
        refine ih (index + 1) (grid.set index num) s2
          (by rw [List.length_set]; exact hlen) ?_ ?_ ?_ hr
        · intro k hk
          by_cases hki : k = index
          · subst hki
            rw [DLX.setGetD_lt _ _ _ _ (by omega)]
            exact ⟨h1, h2⟩
          · rw [DLX.setGetD_ne _ _ _ _ _ (fun he => hki he.symm)]
            exact hvals k (by omega)
        · intro k hk
          rw [DLX.setGetD_ne _ _ _ _ _ (by omega)]
          exact hzero k (by omega)
        · exact nonConflicting_set hbr hbc hsz hidx2 hlen hzero hnc hv
      · intro num s2 hf2
        apply fillGrid_restore _ _ _ _ _ _ _ _ hf2
        intro k hk
        rw [DLX.setGetD_ne _ _ _ _ _ (by omega)]
        exact hzero k (by omega)
      · intro c hc
        rw [(shuffle_perm (List.range' 1 n) s).mem_iff] at hc
        have := List.mem_range'_1.mp hc
        omega

end RetroSudoku.Gen

namespace RetroSudoku.Gen

/-! ### Pigeonhole: a full non-conflicting grid is a valid solution -/

lemma two_of_countP {l : List Nat} {p : Nat → Bool} (hnd : l.Nodup)
    (h : 2 ≤ l.countP p) :
    ∃ a b, a ∈ l ∧ b ∈ l ∧ a ≠ b ∧ p a = true ∧ p b = true := by
  rw [List.countP_eq_length_filter] at h
  have hfn : (l.filter p).Nodup := hnd.filter _
  cases hfl : l.filter p with
  | nil =>
    rw [hfl] at h
    simp at h
  | cons a t =>
    cases t with
    | nil =>
      rw [hfl] at h
      simp at h
    | cons b t2 =>
      rw [hfl] at hfn
      have hane : a ≠ b := by
        rw [List.nodup_cons] at hfn
        intro he
        exact hfn.1 (he ▸ List.mem_cons_self ..)
      have ham : a ∈ l.filter p := by
        rw [hfl]
        exact List.mem_cons_self ..
      have hbm : b ∈ l.filter p := by
        rw [hfl]
        exact List.mem_cons_of_mem _ (List.mem_cons_self ..)
      obtain ⟨ha1, ha2⟩ := List.mem_filter.mp ham
      obtain ⟨hb1, hb2⟩ := List.mem_filter.mp hbm
      exact ⟨a, b, ha1, hb1, hane, ha2, hb2⟩

lemma sum_le_length : ∀ (l : List Nat), (∀ x ∈ l, x ≤ 1) → l.sum ≤ l.length := by
  intro l
  induction l with
  | nil => intro _; simp
  | cons x xs ih =>
    intro h
    rw [List.sum_cons, List.length_cons]
    have h1 := h x (List.mem_cons_self ..)
    have h2 := ih (fun y hy => h y (List.mem_cons_of_mem _ hy))
    omega

lemma all_one_of_sum : ∀ (l : List Nat), (∀ x ∈ l, x ≤ 1) →
    l.sum = l.length → ∀ x ∈ l, x = 1 := by
  intro l
  induction l with
  | nil => intro _ _ x hx; simp at hx
  | cons x xs ih =>
    intro hle hsum y hy
    rw [List.sum_cons, List.length_cons] at hsum
    have h1 := hle x (List.mem_cons_self ..)
    have h2 := sum_le_length xs (fun z hz => hle z (List.mem_cons_of_mem _ hz))
    rcases List.mem_cons.mp hy with rfl | hy2
    · omega
    · exact ih (fun z hz => hle z (List.mem_cons_of_mem _ hz)) (by omega) y hy2

lemma sum_countP_by_key' (f : Nat → Nat) (l : List Nat) (ks2 : List Nat)
    (hnd : ks2.Nodup) :
    (ks2.map (fun k => l.countP (fun a => f a == k))).sum
      = l.countP (fun a => ks2.contains (f a)) := by
  have h := DLX.sum_countP_by_key f (fun _ => true) l ks2 hnd
  simpa using h

lemma length_rowIndices (R n : Nat) :
    (RetroSudoku.HS.getRowIndices R n).length = n := by
  simp [RetroSudoku.HS.getRowIndices]

lemma length_colIndices (C n : Nat) :
    (RetroSudoku.HS.getColIndices C n).length = n := by
  simp [RetroSudoku.HS.getColIndices]

lemma length_boxIndices {n br bc : Nat} (hbc : 0 < bc) (hsz : br * bc = n)
    (B : Nat) :
    (RetroSudoku.HS.getBoxIndices B n br bc).length = n := by
  rw [DLX.boxIndices_eq, DLX.ndivbc hbc hsz]
  simp only [List.length_flatMap]
  rw [show (List.map (List.length ∘ fun dr => List.map
      (fun dc => (B / br * br + dr) * n + (B % br * bc + dc))
      (List.range bc)) (List.range br)) = List.replicate br bc by
    apply List.eq_replicate_iff.mpr
    constructor
    · simp
    · intro b hb
      rcases List.mem_map.mp hb with ⟨x, _, rfl⟩
      simp]
  rw [List.sum_replicate]
  simp [Nat.mul_comm, hsz]

/-- In a full non-conflicting grid, every unit holds each value exactly
once. -/
lemma unit_counts_one {n br bc : Nat} {g : List Nat} (hn : 0 < n)
    (hgv : ∀ k, k < n * n → 1 ≤ g.getD k 0 ∧ g.getD k 0 ≤ n)
    (hnc : DLX.NonConflicting n br bc g) (ks : List Nat)
    (hkl : ks.length = n) (hnd : ks.Nodup)
    (hbounds : ∀ k ∈ ks, k < n * n)
    (hco : ∀ k1 ∈ ks, ∀ k2 ∈ ks, k1 ≠ k2 →
      (k1 / n = k2 / n ∨ k1 % n = k2 % n ∨
        DLX.getBox n br bc (k1 / n) (k1 % n) =
          DLX.getBox n br bc (k2 / n) (k2 % n))) :
    ∀ v ∈ List.range' 1 n, ks.countP (fun k => g.getD k 0 == v) = 1 := by
  have hle : ∀ v, 1 ≤ v → ks.countP (fun k => g.getD k 0 == v) ≤ 1 := by
    intro v hv1
    by_contra hgt
    have h2c : 2 ≤ ks.countP (fun k => g.getD k 0 == v) := by omega
    obtain ⟨a, b, ha, hb, hab, hpa, hpb⟩ := two_of_countP hnd h2c
    simp only [beq_iff_eq] at hpa hpb
    exact hnc a (List.mem_range.mpr (hbounds a ha)) b
      (List.mem_range.mpr (hbounds b hb)) hab (by omega) (by omega)
      (hco a ha b hb hab) (by rw [hpa, hpb])
  have hsum : ((List.range' 1 n).map
      (fun v => ks.countP (fun k => g.getD k 0 == v))).sum = n := by
    rw [sum_countP_by_key' (fun k => g.getD k 0) ks (List.range' 1 n)
      (List.nodup_range' ..)]
    rw [← hkl]
    apply List.countP_eq_length.mpr
    intro k hk
    simp only [List.elem_iff, decide_eq_true_eq]
    apply List.mem_range'_1.mpr
    have := hgv k (hbounds k hk)
    omega
  have hml : ((List.range' 1 n).map
      (fun v => ks.countP (fun k => g.getD k 0 == v))).length = n := by
    rw [List.length_map, List.length_range']
  have hall := all_one_of_sum _ (fun x hx => by
    rcases List.mem_map.mp hx with ⟨v, hv, rfl⟩
    exact hle v (List.mem_range'_1.mp hv).1) (hsum.trans hml.symm)
  intro v hv
  exact hall _ (List.mem_map.mpr ⟨v, hv, rfl⟩)

lemma full_sound_valid {n br bc : Nat} (hbr : 0 < br) (hbc : 0 < bc)
    (hsz : br * bc = n) {g : List Nat}
    (hlen : g.length = n * n)
    (hgv : ∀ k, k < n * n → 1 ≤ g.getD k 0 ∧ g.getD k 0 ≤ n)
    (hnc : DLX.NonConflicting n br bc g) :
    DLX.ValidSolution n br bc g := by
  have hn : 0 < n := by
    have := Nat.mul_pos hbr hbc
    omega
  refine ⟨hlen, ?_, ?_, ?_⟩
  · intro R hR v hv
    rw [List.mem_range] at hR
    refine unit_counts_one hn hgv hnc _ (length_rowIndices R n)
      (DLX.nodup_rowIndices R n) ?_ ?_ v hv
    · intro k hk
      rcases DLX.mem_rowIndices.mp hk with ⟨c, hc, rfl⟩
      exact DLX.offset_lt hR hc
    · intro k1 h1 k2 h2 _
      rcases DLX.mem_rowIndices.mp h1 with ⟨c1, hc1, rfl⟩
      rcases DLX.mem_rowIndices.mp h2 with ⟨c2, hc2, rfl⟩
      refine Or.inl ?_
      rw [(@DLX.cell_decomp n R c1 hn hc1).1, (@DLX.cell_decomp n R c2 hn hc2).1]
  · intro C hC v hv
    rw [List.mem_range] at hC
    refine unit_counts_one hn hgv hnc _ (length_colIndices C n)
      (DLX.nodup_colIndices C n hn) ?_ ?_ v hv
    · intro k hk
      rcases DLX.mem_colIndices.mp hk with ⟨r, hr, rfl⟩
      exact DLX.offset_lt hr hC
    · intro k1 h1 k2 h2 _
      rcases DLX.mem_colIndices.mp h1 with ⟨r1, hr1, rfl⟩
      rcases DLX.mem_colIndices.mp h2 with ⟨r2, hr2, rfl⟩
      refine Or.inr (Or.inl ?_)
      rw [(@DLX.cell_decomp n r1 C hn hC).2, (@DLX.cell_decomp n r2 C hn hC).2]
  · intro B hB v hv
    rw [List.mem_range] at hB
    refine unit_counts_one hn hgv hnc _ (length_boxIndices hbc hsz B)
      (DLX.nodup_boxIndices hbr hbc hsz) ?_ ?_ v hv
    · intro k hk
      rcases DLX.mem_boxIndices_decomp hbr hbc hsz hB hk with
        ⟨row, col, hrow, hcol, rfl, _⟩
      exact DLX.offset_lt hrow hcol
    · intro k1 h1 k2 h2 _
      rcases DLX.mem_boxIndices_decomp hbr hbc hsz hB h1 with
        ⟨r1, c1, hr1, hc1, rfl, hbx1⟩
      rcases DLX.mem_boxIndices_decomp hbr hbc hsz hB h2 with
        ⟨r2, c2, hr2, hc2, rfl, hbx2⟩
      refine Or.inr (Or.inr ?_)
      rw [(@DLX.cell_decomp n r1 c1 hn hc1).1, (@DLX.cell_decomp n r1 c1 hn hc1).2,
        (@DLX.cell_decomp n r2 c2 hn hc2).1, (@DLX.cell_decomp n r2 c2 hn hc2).2,
        hbx1, hbx2]

end RetroSudoku.Gen

namespace RetroSudoku.Gen

/-! ### The removal loop preserves unique solvability -/

lemma jsInsert_nodup {l : List Nat} (h : l.Nodup) (x : Nat) :
    (RetroSudoku.HS.jsInsert l x).Nodup := by
  unfold RetroSudoku.HS.jsInsert
  by_cases hc : l.contains x
  · rw [if_pos hc]
    exact h
  · rw [if_neg hc]
    rw [List.nodup_append]
    refine ⟨h, List.nodup_singleton _, ?_⟩
    intro a ha hax
    rw [List.mem_singleton] at hax
    subst hax
    apply hc
    simp only [List.elem_iff, decide_eq_true_eq]
    exact ha

lemma jsDedup_foldl_nodup : ∀ (l acc : List Nat), acc.Nodup →
    (l.foldl RetroSudoku.HS.jsInsert acc).Nodup := by
  intro l
  induction l with
  | nil => intro acc h; exact h
  | cons x xs ih =>
    intro acc h
    exact ih _ (jsInsert_nodup h x)

lemma jsDedup_nodup (l : List Nat) : (RetroSudoku.HS.jsDedup l).Nodup :=
  jsDedup_foldl_nodup l [] (List.nodup_nil)

lemma getSymmetricCells_nodup (index size : Nat) (symmetry : Symmetry) :
    (getSymmetricCells index size symmetry).Nodup := by
  unfold getSymmetricCells
  exact jsDedup_nodup _

lemma foldl_set0_length : ∀ (cells p : List Nat),
    (cells.foldl (fun p c => p.set c 0) p).length = p.length := by
  intro cells
  induction cells with
  | nil => intro p; rfl
  | cons c rest ih =>
    intro p
    show (rest.foldl _ (p.set c 0)).length = p.length
    rw [ih, List.length_set]

lemma foldl_setpairs_length : ∀ (pairs : List (Nat × Nat)) (p : List Nat),
    (pairs.foldl (fun p cv => p.set cv.1 cv.2) p).length = p.length := by
  intro pairs
  induction pairs with
  | nil => intro p; rfl
  | cons cv rest ih =>
    intro p
    show (rest.foldl _ (p.set cv.1 cv.2)).length = p.length
    rw [ih, List.length_set]

lemma foldl_set0_getD_notmem : ∀ (cells p : List Nat) (i : Nat), i ∉ cells →
    (cells.foldl (fun p c => p.set c 0) p).getD i 0 = p.getD i 0 := by
  intro cells
  induction cells with
  | nil => intro p i _; rfl
  | cons c rest ih =>
    intro p i hm
    show (rest.foldl _ (p.set c 0)).getD i 0 = p.getD i 0
    rw [ih _ _ (fun h2 => hm (List.mem_cons_of_mem _ h2)),
      DLX.setGetD_ne _ _ _ _ _
        (fun he => hm (by rw [← he]; exact List.mem_cons_self ..))]

lemma foldl_setpairs_getD_notkey : ∀ (pairs : List (Nat × Nat))
    (p : List Nat) (i : Nat), (∀ cv ∈ pairs, cv.1 ≠ i) →
    (pairs.foldl (fun p cv => p.set cv.1 cv.2) p).getD i 0 = p.getD i 0 := by
  intro pairs
  induction pairs with
  | nil => intro p i _; rfl
  | cons cv rest ih =>
    intro p i hk
    show (rest.foldl _ (p.set cv.1 cv.2)).getD i 0 = p.getD i 0
    rw [ih _ _ (fun cv2 h2 => hk cv2 (List.mem_cons_of_mem _ h2)),
      DLX.setGetD_ne _ _ _ _ _ (hk cv (List.mem_cons_self ..))]

lemma foldl_setpairs_getD_key : ∀ (pairs : List (Nat × Nat))
    (p : List Nat) (i v : Nat), ((pairs.map Prod.fst).Nodup) →
    (i, v) ∈ pairs →
    (pairs.foldl (fun p cv => p.set cv.1 cv.2) p).getD i 0 =
      if i < p.length then v else p.getD i 0 := by
  intro pairs
  induction pairs with
  | nil => intro p i v _ hm; simp at hm
  | cons cv rest ih =>
    intro p i v hnd hm
    rw [List.map_cons, List.nodup_cons] at hnd
    show (rest.foldl _ (p.set cv.1 cv.2)).getD i 0 = _
    rcases List.mem_cons.mp hm with he | hm2
    · have hi : cv.1 = i := by rw [← he]
      have hv : cv.2 = v := by rw [← he]
      subst hi
      subst hv
      have hnk : ∀ cv2 ∈ rest, cv2.1 ≠ cv.1 := by
        intro cv2 h2 he2
        exact hnd.1 (he2 ▸ List.mem_map.mpr ⟨cv2, h2, rfl⟩)
      rw [foldl_setpairs_getD_notkey rest _ _ hnk]
      by_cases hi2 : cv.1 < p.length
      · rw [if_pos hi2, DLX.setGetD_lt _ _ _ _ hi2]
      · rw [if_neg hi2, List.set_eq_of_length_le (by omega)]
    · have hki : i ∈ rest.map Prod.fst := List.mem_map.mpr ⟨(i, v), hm2, rfl⟩
      have hne : cv.1 ≠ i := fun he2 => hnd.1 (he2 ▸ hki)
      rw [ih _ _ _ hnd.2 hm2, List.length_set,
        DLX.setGetD_ne _ _ _ _ _ hne]

lemma zip_map_fst : ∀ (l : List Nat) (f : Nat → Nat),
    (l.zip (l.map f)).map Prod.fst = l := by
  intro l
  induction l with
  | nil => intro f; rfl
  | cons x xs ih =>
    intro f
    show (x, f x).1 :: (xs.zip (xs.map f)).map Prod.fst = x :: xs
    rw [ih]

lemma mem_zip_map : ∀ (l : List Nat) (f : Nat → Nat) (i : Nat), i ∈ l →
    (i, f i) ∈ l.zip (l.map f) := by
  intro l
  induction l with
  | nil => intro f i hm; simp at hm
  | cons x xs ih =>
    intro f i hm
    rcases List.mem_cons.mp hm with rfl | hm2
    · exact List.mem_cons_self ..
    · exact List.mem_cons_of_mem _ (ih f i hm2)

lemma lists_eq_of_getD {l1 l2 : List Nat} (hlen : l1.length = l2.length)
    (h : ∀ i, l1.getD i 0 = l2.getD i 0) : l1 = l2 := by
  apply List.ext_getElem hlen
  intro i h1 h2
  have h3 := h i
  rw [List.getD_eq_getElem _ _ h1, List.getD_eq_getElem _ _ h2] at h3
  exact h3

/-- Zeroing a duplicate-free cell group and then writing back the saved
values restores the board exactly. -/
lemma remove_restore {cells puzzle : List Nat} (hnd : cells.Nodup) :
    ((cells.zip (cells.map (fun c => puzzle.getD c 0))).foldl
      (fun p cv => p.set cv.1 cv.2)
      (cells.foldl (fun p c => p.set c 0) puzzle)) = puzzle := by
  apply lists_eq_of_getD
  · rw [foldl_setpairs_length, foldl_set0_length]
  · intro i
    by_cases hm : i ∈ cells
    · have hkey := mem_zip_map cells (fun c => puzzle.getD c 0) i hm
      have hknd : ((cells.zip (cells.map (fun c => puzzle.getD c 0))).map
          Prod.fst).Nodup := by
        rw [zip_map_fst]
        exact hnd
      rw [foldl_setpairs_getD_key _ _ _ _ hknd hkey]
      by_cases hi : i < (cells.foldl (fun p c => p.set c 0) puzzle).length
      · rw [if_pos hi]
      · rw [if_neg hi]
        rw [foldl_set0_length] at hi
        rw [List.getD_eq_default _ _ (by rw [foldl_set0_length]; omega),
          List.getD_eq_default _ _ (by omega)]
    · rw [foldl_setpairs_getD_notkey _ _ _ ?_,
        foldl_set0_getD_notmem _ _ _ hm]
      intro cv hcv
      obtain ⟨a, b⟩ := cv
      intro he
      have he2 : a = i := he
      have h2 := (List.of_mem_zip hcv).1
      rw [he2] at h2
      exact hm h2

/-- One-step unfolding of the removal loop. -/
lemma removeLoop_cons (size blockRows blockCols : Nat) (symmetry : Symmetry)
    (targetCount minGivens totalCells : Nat) (cellIndex : Nat)
    (rest puzzle removed : List Nat) :
    removeLoop size blockRows blockCols symmetry targetCount minGivens
      totalCells (cellIndex :: rest) puzzle removed =
      if removed.contains cellIndex then
        removeLoop size blockRows blockCols symmetry targetCount minGivens
          totalCells rest puzzle removed
      else if totalCells - removed.length ≤ targetCount then puzzle
      else if (if symmetry = .none then [cellIndex]
          else (getSymmetricCells cellIndex size symmetry).filter
            (fun c => !removed.contains c)).length = 0 then
        removeLoop size blockRows blockCols symmetry targetCount minGivens
          totalCells rest puzzle removed
      else if totalCells - removed.length -
          (if symmetry = .none then [cellIndex]
          else (getSymmetricCells cellIndex size symmetry).filter
            (fun c => !removed.contains c)).length < minGivens then
        removeLoop size blockRows blockCols symmetry targetCount minGivens
          totalCells rest puzzle removed
      else if DLX.hasUniqueSolution size blockRows blockCols
          ((if symmetry = .none then [cellIndex]
          else (getSymmetricCells cellIndex size symmetry).filter
            (fun c => !removed.contains c)).foldl
              (fun p c => p.set c 0) puzzle) then
        removeLoop size blockRows blockCols symmetry targetCount minGivens
          totalCells rest
          ((if symmetry = .none then [cellIndex]
          else (getSymmetricCells cellIndex size symmetry).filter
            (fun c => !removed.contains c)).foldl
              (fun p c => p.set c 0) puzzle)
          (removed ++ (if symmetry = .none then [cellIndex]
          else (getSymmetricCells cellIndex size symmetry).filter
            (fun c => !removed.contains c)))
      else
        removeLoop size blockRows blockCols symmetry targetCount minGivens
          totalCells rest
          (((if symmetry = .none then [cellIndex]
          else (getSymmetricCells cellIndex size symmetry).filter
            (fun c => !removed.contains c)).zip
            ((if symmetry = .none then [cellIndex]
          else (getSymmetricCells cellIndex size symmetry).filter
            (fun c => !removed.contains c)).map
              (fun c => puzzle.getD c 0))).foldl
            (fun p cv => p.set cv.1 cv.2)
            ((if symmetry = .none then [cellIndex]
          else (getSymmetricCells cellIndex size symmetry).filter
            (fun c => !removed.contains c)).foldl
              (fun p c => p.set c 0) puzzle))
          removed := rfl

lemma removeLoop_unique (size blockRows blockCols : Nat)
    (symmetry : Symmetry) (targetCount minGivens totalCells : Nat) :
    ∀ (cells puzzle removed : List Nat),
      DLX.hasUniqueSolution size blockRows blockCols puzzle = true →
      DLX.hasUniqueSolution size blockRows blockCols
        (removeLoop size blockRows blockCols symmetry targetCount minGivens
          totalCells cells puzzle removed) = true := by
  intro cells
  induction cells with
  | nil => intro puzzle removed h; exact h
  | cons cellIndex rest ih =>
    intro puzzle removed h
    rw [removeLoop_cons]
    by_cases h1 : removed.contains cellIndex = true
    · rw [if_pos h1]
      exact ih _ _ h
    · rw [if_neg h1]
      by_cases h2 : totalCells - removed.length ≤ targetCount
      · rw [if_pos h2]
        exact h
      · rw [if_neg h2]
        by_cases h3 : (if symmetry = .none then [cellIndex]
            else (getSymmetricCells cellIndex size symmetry).filter
              (fun c => !removed.contains c)).length = 0
        · rw [if_pos h3]
          exact ih _ _ h
        · rw [if_neg h3]
          by_cases h4 : totalCells - removed.length -
              (if symmetry = .none then [cellIndex]
              else (getSymmetricCells cellIndex size symmetry).filter
                (fun c => !removed.contains c)).length < minGivens
          · rw [if_pos h4]
            exact ih _ _ h
          · rw [if_neg h4]
            by_cases h5 : DLX.hasUniqueSolution size blockRows blockCols
                ((if symmetry = .none then [cellIndex]
                else (getSymmetricCells cellIndex size symmetry).filter
                  (fun c => !removed.contains c)).foldl
                    (fun p c => p.set c 0) puzzle) = true
            · rw [if_pos h5]
              exact ih _ _ h5
            · rw [if_neg h5]
              have hnd : (if symmetry = .none then [cellIndex]
                  else (getSymmetricCells cellIndex size symmetry).filter
                    (fun c => !removed.contains c)).Nodup := by
                by_cases hs : symmetry = .none
                · rw [if_pos hs]
                  exact List.nodup_singleton _
                · rw [if_neg hs]
                  exact (getSymmetricCells_nodup ..).filter _
              rw [remove_restore hnd]
              exact ih _ _ h

end RetroSudoku.Gen

namespace RetroSudoku.Gen

/-! ### Assembly: every generated puzzle is uniquely solvable -/

/-- A reference full grid for a block shape (cyclic Latin pattern), used
only to witness that the empty board has a completion. -/
def patternGrid (n br bc : Nat) : List Nat :=
  (List.range (n * n)).map
    (fun k => (k / n % br * bc + k / n / br + k % n) % n + 1)

lemma generatePuzzle_unique {n br bc : Nat} (hbr : 0 < br) (hbc : 0 < bc)
    (hsz : br * bc = n) (comp : List Nat)
    (hval : DLX.ValidSolution n br bc comp)
    (hcgv : ∀ k, k < n * n → 1 ≤ comp.getD k 0 ∧ comp.getD k 0 ≤ n)
    (clock : Nat) (difficulty : Difficulty) (symmetry : Symmetry)
    (seed : Option Nat) (targetGivens : Option Nat) :
    DLX.hasUniqueSolution n br bc
      (generatePuzzle clock ⟨n, br, bc⟩ difficulty symmetry seed
        targetGivens).cells = true := by
  have hn : 0 < n := by
    have := Nat.mul_pos hbr hbc
    omega
  have hfill := fillGrid_success hbr hbc hsz hval hcgv (n * n + 1) 0
    (List.replicate (n * n) 0) (seed.getD clock) (by omega)
    (by rw [List.length_replicate]) (fun k hk => absurd hk (Nat.not_lt_zero k))
    (fun k _ => getD_replicate_zero ..)
  obtain ⟨hslen, hsvals, hsnc⟩ := fillGrid_sound hbr hbc hsz (n * n + 1) 0
    (List.replicate (n * n) 0) (seed.getD clock)
    (by rw [List.length_replicate]) (fun k hk => absurd hk (Nat.not_lt_zero k))
    (fun k _ => getD_replicate_zero ..)
    (fun i _ j _ _ hnzi _ _ => absurd (getD_replicate_zero ..) hnzi) hfill
  have hval2 := full_sound_valid hbr hbc hsz hslen hsvals hsnc
  have hu := DLX.full_has_unique hbr hbc hsz hval2 hsvals
  exact removeLoop_unique _ _ _ _ _ _ _ _ _ _ hu

end RetroSudoku.Gen

/-- C1: for every supported grid spec, every difficulty, symmetry, seed and
target-givens option, the generated puzzle's board passes
`hasUniqueSolution`: the backtracking fill always produces a full valid
grid (which has exactly one exact cover), and every removal group is kept
only after the solver (limit 2) confirms a unique completion, otherwise it
is restored exactly. -/
theorem C1_generated_puzzles_unique :
    ∀ (clock : Nat) (config : RetroSudoku.Gen.PuzzleConfig)
      (difficulty : RetroSudoku.Gen.Difficulty)
      (symmetry : RetroSudoku.Gen.Symmetry)
      (seed : Option Nat) (targetGivens : Option Nat),
      config ∈ RetroSudoku.Gen.SUPPORTED_SIZES →
      RetroSudoku.DLX.hasUniqueSolution config.size config.blockRows
        config.blockCols
        (RetroSudoku.Gen.generatePuzzle clock config difficulty symmetry
          seed targetGivens).cells = true := by
  intro clock config difficulty symmetry seed tg hmem
  rcases List.mem_cons.mp hmem with rfl | hmem
  · exact RetroSudoku.Gen.generatePuzzle_unique (by decide) (by decide)
      (by decide) (RetroSudoku.Gen.patternGrid 4 2 2) (by decide) (by decide)
      clock difficulty symmetry seed tg
  rcases List.mem_cons.mp hmem with rfl | hmem
  · exact RetroSudoku.Gen.generatePuzzle_unique (by decide) (by decide)
      (by decide) (RetroSudoku.Gen.patternGrid 6 2 3) (by decide) (by decide)
      clock difficulty symmetry seed tg
  rcases List.mem_cons.mp hmem with rfl | hmem
  · exact RetroSudoku.Gen.generatePuzzle_unique (by decide) (by decide)
      (by decide) (RetroSudoku.Gen.patternGrid 9 3 3) (by decide) (by decide)
      clock difficulty symmetry seed tg
  rcases List.mem_cons.mp hmem with rfl | hmem
  · exact RetroSudoku.Gen.generatePuzzle_unique (by decide) (by decide)
      (by decide) (RetroSudoku.Gen.patternGrid 12 3 4) (by decide) (by decide)
      clock difficulty symmetry seed tg
  rcases List.mem_cons.mp hmem with rfl | hmem
  · exact RetroSudoku.Gen.generatePuzzle_unique (by decide) (by decide)
      (by decide) (RetroSudoku.Gen.patternGrid 16 4 4) (by decide) (by decide)
      clock difficulty symmetry seed tg
  exact absurd hmem (List.not_mem_nil _)

/-- Witness for C1 at the 4x4 spec with a fixed seed. -/
theorem C1_witness :
    RetroSudoku.DLX.hasUniqueSolution 4 2 2
      (RetroSudoku.Gen.generatePuzzle 0 ⟨4, 2, 2⟩ .easy .rotational
        (some 7) none).cells = true :=
  C1_generated_puzzles_unique 0 ⟨4, 2, 2⟩ .easy .rotational (some 7) none
    (List.mem_cons_self ..)

/-- Witness for C7 at a concrete 2x2 board with one given. -/
theorem C7_witness :
    (RetroSudoku.DLX.solve 2 1 2 [1, 0, 0, 0]).solution.getD 0 0 =
      [1, 0, 0, 0].getD 0 0 :=
  C7_given_cells_preserved 2 1 2 [1, 0, 0, 0] 0 (by decide) (by decide)
    (by decide) (by decide) (by decide)

/-- Witness for C8 at a 2x2 board with a duplicated given in row 0. -/
theorem C8_witness :
    RetroSudoku.DLX.solve 2 1 2 [1, 1, 0, 0] =
      ⟨false, [], 0⟩ :=
  C8_duplicate_given_unsat 2 1 2 [1, 1, 0, 0] 0 1 1 (by decide) (by decide)
    (by decide) (by decide) (by decide) (by decide) (by decide) (by decide)
    (by decide)
